import Mathlib

/-!
# Panoptic: the sparse cube-map page catalog and the cube-sphere subdivision

A shallow embedding of `scm-file.cpp` (the page catalog `scm_file`) and of
`sph-model.cpp` (`sph_model::face::divide`), followed by theorems about them.

Conventions of the embedding.

* Unsigned machine integers are natural numbers; where the C++ arithmetic can
  wrap, the reduction modulo `2 ^ 32` or `2 ^ 64` is written out.
* `float` values live in a type `F` that carries the operations `+ - * /` and
  the conversion from integers, with no algebraic law assumed, so that every
  theorem stated for an arbitrary `F` holds for rounded arithmetic as well as
  for exact arithmetic.
* The catalog fields `xc` and `oc` are the lengths of the sequences `xv` and
  `ov`, as the constructor sets them.
* The vector routines of the subdivision are generic in the arithmetic. The
  type `Binary64` carries the `double` arithmetic of the program, correctly
  rounded to nearest, each value as the rational number it denotes; the
  statements about the magnitude of the corners are made there.
-/

namespace Panoptic

/-! ## Machine integers -/

/-- The value `(uint64) (-1)`, which `scm_file::index` returns for an absent page. -/
def NOT_FOUND : Nat := 2 ^ 64 - 1

/-- Reduction of a product to the 32-bit `unsigned int` it is computed in. -/
def u32 (n : Nat) : Nat := n % 2 ^ 32

/-- Reduction to the 64-bit `uint64`. -/
def u64 (n : Nat) : Nat := n % 2 ^ 64

/-! ## The C library search used by `scm_file::index` -/

/-- The comparator `xcmp` of `scm-file.cpp`: the sign of `a - b` on `uint64`. -/
def xcmp (a b : Nat) : Int :=
  if a < b then -1
  else if a > b then 1
  else 0

/-- The bisection loop of the C library routine `bsearch` on the interval
`[l, u)`: the probe is `(l + u) / 2`, a negative comparison keeps the lower
half, a positive one the upper half, and zero returns the probed position. -/
def bsearchLoop (compar : Nat → Nat → Int) (key : Nat) (base : List Nat)
    (l u : Nat) : Option Nat :=
  if h : l < u then
    let idx := (l + u) / 2
    let comparison := compar key (base.getD idx 0)
    if comparison < 0 then bsearchLoop compar key base l idx
    else if comparison > 0 then bsearchLoop compar key base (idx + 1) u
    else some idx
  else none
termination_by u - l
decreasing_by
  all_goals simp_wf
  all_goals omega

/-- The C library routine `bsearch (key, base, nmemb, size, compar)`: the
position of a matching element, or `none` for the null pointer. -/
def bsearch (compar : Nat → Nat → Int) (key : Nat) (base : List Nat)
    (nmemb : Nat) : Option Nat :=
  bsearchLoop compar key base 0 nmemb

/-! ## The page catalog `scm_file` -/

/-- A statistic buffer (`void *av`, `void *zv`) as `scm_file::bounds` reads it:
element `k` of the buffer under each of the five pointer casts. -/
structure StatBuf (F : Type) where
  /-- The element `((char *) v)[k]`. -/
  asChar : Nat → Int
  /-- The element `((unsigned char *) v)[k]`. -/
  asUChar : Nat → Int
  /-- The element `((short *) v)[k]`. -/
  asShort : Nat → Int
  /-- The element `((unsigned short *) v)[k]`. -/
  asUShort : Nat → Int
  /-- The element `((float *) v)[k]`. -/
  asFloat : Nat → F

/-- The data members of `scm_file` that the queries read. `w` and `h` are the
32-bit fields filled from the image width and length tags; `c`, `b`, `g` the
16-bit fields filled from samples per pixel, bits per sample and sample
format. -/
structure scm_file (F : Type) where
  n0 : F
  n1 : F
  w : Nat
  h : Nat
  c : Nat
  b : Nat
  g : Nat
  /-- The page-id sequence; `xc` is its length. -/
  xv : List Nat
  /-- The offset sequence; `oc` is its length. -/
  ov : List Nat
  av : StatBuf F
  ac : Nat
  zv : StatBuf F
  zc : Nat

namespace scm_file

variable {F : Type}

/-- The count `xc` of catalogued page ids. -/
def xc (f : scm_file F) : Nat := f.xv.length

/-- The count `oc` of catalogued offsets. -/
@[reducible] def oc (f : scm_file F) : Nat := f.ov.length

/-- Every field fits the machine type that holds it: the four counts are
`uint64`, the image dimensions 32-bit, the sample description 16-bit, and the
statistic buffers of `ac * c` and `zc * c` samples are addressable. -/
def Fits (f : scm_file F) : Prop :=
  f.xv.length < 2 ^ 64 ∧ f.ov.length < 2 ^ 64 ∧
  f.ac * f.c < 2 ^ 64 ∧ f.zc * f.c < 2 ^ 64 ∧
  f.ac < 2 ^ 64 ∧ f.zc < 2 ^ 64 ∧
  f.w < 2 ^ 32 ∧ f.h < 2 ^ 32 ∧
  f.c < 2 ^ 16 ∧ f.b < 2 ^ 16 ∧ f.g < 2 ^ 16

instance (f : scm_file F) : Decidable f.Fits := by
  unfold Fits
  infer_instance

/-- The method `scm_file::index`: the position of page `i` in the catalog, or
`NOT_FOUND`. -/
def index (f : scm_file F) (i : Nat) : Nat :=
  if f.xc ≠ 0 then
    match bsearch xcmp i f.xv f.xc with
    | some p => u64 p
    | none => NOT_FOUND
  else NOT_FOUND

/-- The method `scm_file::status`: whether page `i` is given by this file. -/
def status (f : scm_file F) (i : Nat) : Bool :=
  if f.index i < f.xc then true else false

/-- The method `scm_file::offset`: the file offset of page `i`, or zero. -/
def offset (f : scm_file F) (i : Nat) : Nat :=
  let oi := f.index i
  if h : oi < f.oc then f.ov[oi] else 0

/-- The method `scm_file::length`: the buffer length for a page of this file.
The product is formed left to right in 32-bit unsigned arithmetic and only the
quotient is widened to `size_t`. -/
def length (f : scm_file F) : Nat :=
  if f.c = 3 ∧ f.b = 8 then
    u32 (u32 (u32 (f.w * f.h) * 4) * f.b) / 8
  else
    u32 (u32 (u32 (f.w * f.h) * f.c) * f.b) / 8

/-- The loop of `scm_file::bounds`: starting from `ai = zi = NOT_FOUND`, seek
page `i` for each bound that is still unresolved, stop at a root page
(`i < 6`), and otherwise go on with the parent page. The hierarchy function
`scm_page_parent` of `scm-index.hpp` is a parameter. The first argument bounds
the number of iterations; `none` means that it was exhausted. -/
def boundsWalk (f : scm_file F) (scm_page_parent : Nat → Nat) :
    Nat → Nat → Nat → Nat → Option (Nat × Nat)
  | 0, _, ai, zi =>
    if ai ≥ f.ac ∨ zi ≥ f.zc then none else some (ai, zi)
  | fuel + 1, i, ai, zi =>
    if ai ≥ f.ac ∨ zi ≥ f.zc then
      let ai1 := if ai ≥ f.ac then f.index i else ai
      let zi1 := if zi ≥ f.zc then f.index i else zi
      if i < 6 then some (ai1, zi1)
      else boundsWalk f scm_page_parent fuel (scm_page_parent i) ai1 zi1
    else some (ai, zi)

/-- A call that the loop of `scm_file::bounds` makes: `index (i)` or
`scm_page_parent (i)`. -/
inductive WalkCall where
  | lookup (i : Nat)
  | parent (i : Nat)
deriving DecidableEq

/-- The loop of `scm_file::bounds` once more, returning besides its result the
calls it made, in order. -/
def boundsWalkLog (f : scm_file F) (scm_page_parent : Nat → Nat) :
    Nat → Nat → Nat → Nat → Option (Nat × Nat) × List WalkCall
  | 0, _, ai, zi =>
    if ai ≥ f.ac ∨ zi ≥ f.zc then (none, []) else (some (ai, zi), [])
  | fuel + 1, i, ai, zi =>
    if ai ≥ f.ac ∨ zi ≥ f.zc then
      let ai1 := if ai ≥ f.ac then f.index i else ai
      let log1 := if ai ≥ f.ac then [WalkCall.lookup i] else []
      let zi1 := if zi ≥ f.zc then f.index i else zi
      let log2 := if zi ≥ f.zc then [WalkCall.lookup i] else []
      if i < 6 then (some (ai1, zi1), log1 ++ log2)
      else
        let rest := boundsWalkLog f scm_page_parent fuel (scm_page_parent i) ai1 zi1
        (rest.1, log1 ++ log2 ++ WalkCall.parent i :: rest.2)
    else (some (ai, zi), [])

variable [Add F] [Sub F] [Mul F] [Div F] [IntCast F]

/-- The second half of `scm_file::bounds`: from the defaults `r0 = r1 = 1.0`,
decode the raw statistic at the resolved positions `ai` and `zi` according to
the bit depth `b` and sample format `g`, then map both values into the
calibration range. -/
def boundsDecode (f : scm_file F) (ai zi : Nat) : F × F :=
  let r0 : F := ((1 : Int) : F)
  let r1 : F := ((1 : Int) : F)
  let r : F × F :=
    if f.b = 8 then
      if f.g = 2 then
        (if ai < f.ac then ((f.av.asChar (u64 (ai * f.c)) : Int) : F) / ((127 : Int) : F) else r0,
         if zi < f.zc then ((f.zv.asChar (u64 (zi * f.c)) : Int) : F) / ((127 : Int) : F) else r1)
      else
        (if ai < f.ac then ((f.av.asUChar (u64 (ai * f.c)) : Int) : F) / ((255 : Int) : F) else r0,
         if zi < f.zc then ((f.zv.asUChar (u64 (zi * f.c)) : Int) : F) / ((255 : Int) : F) else r1)
    else if f.b = 16 then
      if f.g = 2 then
        (if ai < f.ac then ((f.av.asShort (u64 (ai * f.c)) : Int) : F) / ((32767 : Int) : F) else r0,
         if zi < f.zc then ((f.zv.asShort (u64 (zi * f.c)) : Int) : F) / ((32767 : Int) : F) else r1)
      else
        (if ai < f.ac then ((f.av.asUShort (u64 (ai * f.c)) : Int) : F) / ((65535 : Int) : F) else r0,
         if zi < f.zc then ((f.zv.asUShort (u64 (zi * f.c)) : Int) : F) / ((65535 : Int) : F) else r1)
    else if f.b = 32 then
      (if ai < f.ac then f.av.asFloat (u64 (ai * f.c)) else r0,
       if zi < f.zc then f.zv.asFloat (u64 (zi * f.c)) else r1)
    else (r0, r1)
  (f.n0 + r.1 * (f.n1 - f.n0), f.n0 + r.2 * (f.n1 - f.n0))

/-- The method `scm_file::bounds`: the pair `(r0, r1)` it stores, or `none`
when the walk to the ancestors needs more than `fuel` iterations. -/
def bounds (f : scm_file F) (scm_page_parent : Nat → Nat) (fuel : Nat) (i : Nat) :
    Option (F × F) :=
  match f.boundsWalk scm_page_parent fuel i NOT_FOUND NOT_FOUND with
  | some (ai, zi) => some (f.boundsDecode ai zi)
  | none => none

end scm_file

/-! ## Single-precision arithmetic -/

/-- The nearest integer to a rational, ties going to the even neighbour. -/
def roundHalfEven (q : ℚ) : ℤ :=
  let n := ⌊q⌋
  let r := q - n
  if r < 1 / 2 then n
  else if 1 / 2 < r then n + 1
  else if n % 2 = 0 then n
  else n + 1

/-- The exponent of the unit in the last place of binary32 at `q`: a 24-bit
significand, and no exponent below that of the subnormal numbers. -/
def ulpExp (q : ℚ) : ℤ := max (Int.log 2 |q| - 23) (-149)

/-- Rounding to the nearest binary32 value, ties to even. Results of magnitude
`2 ^ 128` and more, which binary32 turns into infinities, are out of the
scope of this model. -/
def round32 (q : ℚ) : ℚ := roundHalfEven (q / 2 ^ ulpExp q) * 2 ^ ulpExp q

/-- Finite `float` values, each carried as the rational number it denotes, with
correctly rounded arithmetic. -/
structure Binary32 where
  val : ℚ
deriving DecidableEq

instance : Add Binary32 := ⟨fun x y => ⟨round32 (x.val + y.val)⟩⟩

instance : Sub Binary32 := ⟨fun x y => ⟨round32 (x.val - y.val)⟩⟩

instance : Mul Binary32 := ⟨fun x y => ⟨round32 (x.val * y.val)⟩⟩

/-- Division by zero, which binary32 turns into an infinity or a NaN, is out
of the scope of this model. -/
instance : Div Binary32 := ⟨fun x y => ⟨round32 (x.val / y.val)⟩⟩

instance : IntCast Binary32 := ⟨fun n => ⟨round32 n⟩⟩

namespace scm_file

variable {F : Type} [Add F] [Sub F] [Mul F] [Div F] [IntCast F]

/-- The decoding rule of the specification for the first-channel statistic of
catalog position `p`, which is element `p * c` of the buffer: 8-bit signed
samples are divided by 127, 8-bit unsigned ones by 255, 16-bit ones by 32767
and 65535, and wider samples are read as floating point. -/
def normalized (f : scm_file F) (v : StatBuf F) (p : Nat) : F :=
  if f.b = 8 then
    if f.g = 2 then ((v.asChar (p * f.c) : Int) : F) / ((127 : Int) : F)
    else ((v.asUChar (p * f.c) : Int) : F) / ((255 : Int) : F)
  else if f.b = 16 then
    if f.g = 2 then ((v.asShort (p * f.c) : Int) : F) / ((32767 : Int) : F)
    else ((v.asUShort (p * f.c) : Int) : F) / ((65535 : Int) : F)
  else v.asFloat (p * f.c)

/-- The map of the specification from a normalized value into the calibration
range: `n0 + normalized * (n1 - n0)`. -/
def calibrate (f : scm_file F) (x : F) : F := f.n0 + x * (f.n1 - f.n0)

end scm_file

/-- The reference linear scan of the specification: the first position of `i`
in `xv`, or `NOT_FOUND` when `i` does not occur. -/
def linearScan (xv : List Nat) (i : Nat) : Nat :=
  if xv.indexOf i < xv.length then xv.indexOf i else NOT_FOUND

/-! ## Double-precision arithmetic -/

/-- The exponent of the unit in the last place of binary64 at `q`: a 53-bit
significand, and no exponent below that of the subnormal numbers. -/
def ulpExp64 (q : ℚ) : ℤ := max (Int.log 2 |q| - 52) (-1074)

/-- Rounding to the nearest binary64 value, ties to even. Results of magnitude
`2 ^ 1024` and more, which binary64 turns into infinities, are out of the
scope of this model. -/
def round64 (q : ℚ) : ℚ := roundHalfEven (q / 2 ^ ulpExp64 q) * 2 ^ ulpExp64 q

/-- The square root rounded to the nearest binary64 value, as the function
`sqrt` of the C library returns it: the significand `s` or `s + 1` of 53 bits
whichever is nearer, where `s` is the integer part of the root of `q` scaled
by the unit in the last place of the result. The root of a negative number,
a NaN in binary64, is out of the scope of this model. -/
def sqrtRound64 (q : ℚ) : ℚ :=
  if q ≤ 0 then 0
  else
    let e : ℤ := Int.log 2 q / 2 - 52
    let D : ℚ := q / 2 ^ (2 * e)
    let s : ℕ := Nat.sqrt ⌊D⌋.toNat
    if D < ((s : ℚ) + 1 / 2) ^ 2 then (s : ℚ) * 2 ^ e else ((s : ℚ) + 1) * 2 ^ e

/-- Finite `double` values, each carried as the rational number it denotes,
with correctly rounded arithmetic. -/
structure Binary64 where
  val : ℚ
deriving DecidableEq

instance : Add Binary64 := ⟨fun x y => ⟨round64 (x.val + y.val)⟩⟩

instance : Mul Binary64 := ⟨fun x y => ⟨round64 (x.val * y.val)⟩⟩

/-- Division by zero, which binary64 turns into an infinity or a NaN, is out
of the scope of this model. -/
instance : Div Binary64 := ⟨fun x y => ⟨round64 (x.val / y.val)⟩⟩

instance : One Binary64 := ⟨⟨1⟩⟩

/-- The function `sqrt` of the C library on `double` values. -/
def sqrt64 (x : Binary64) : Binary64 := ⟨sqrtRound64 x.val⟩

/-! ## The cube-sphere face of `sph-model.cpp` -/

/-- A vector `double [3]`. -/
structure vec3 (R : Type) where
  x : R
  y : R
  z : R

/-- The corners of a `sph_model::face`. -/
structure face (V : Type) where
  a : V
  b : V
  c : V
  d : V

/-- The four sub-faces that `sph_model::face::divide` fills in. -/
structure subfaces (V : Type) where
  A : face V
  B : face V
  C : face V
  D : face V

/-- The method `sph_model::face::divide`. The routines `vadd` and `vnormalize`
of `math3d.h` are parameters; `vcpy` copies its argument. -/
def face.divide {V : Type} (vadd : V → V → V) (vnormalize : V → V) (F : face V) :
    subfaces V :=
  let n := vadd F.a F.b
  let s := vadd F.c F.d
  let e := vadd F.a F.c
  let w := vadd F.b F.d
  let m := vadd n s
  let n := vnormalize n
  let s := vnormalize s
  let e := vnormalize e
  let w := vnormalize w
  let m := vnormalize m
  { A := ⟨F.a, n, e, m⟩
    B := ⟨n, F.b, m, w⟩
    C := ⟨e, m, F.c, s⟩
    D := ⟨m, w, s, F.d⟩ }

/-- The four edges of a face whose midpoints `sph_model::face::divide`
computes. -/
inductive Edge where
  | ab
  | cd
  | ac
  | bd
deriving DecidableEq

/-- The two end points of an edge of a face, in the order in which
`sph_model::face::divide` passes them to `vadd`. -/
def face.endpoints {V : Type} (F : face V) : Edge → V × V
  | Edge.ab => (F.a, F.b)
  | Edge.cd => (F.c, F.d)
  | Edge.ac => (F.a, F.c)
  | Edge.bd => (F.b, F.d)

/-- The midpoint of an edge as the children receive it: north is `A.b`, south
is `C.d`, east is `A.c` and west is `B.d`. -/
def subfaces.midpoint {V : Type} (S : subfaces V) : Edge → V
  | Edge.ab => S.A.b
  | Edge.cd => S.C.d
  | Edge.ac => S.A.c
  | Edge.bd => S.B.d

section math3d

variable {R : Type} [Add R] [Mul R] [Div R]

/-- Modelled from the spec: the routine `vadd` of `math3d.h`, absent from the
sources, which forms the sum of two vectors, the midpoint of an edge up to
its length. -/
def vadd (a b : vec3 R) : vec3 R := ⟨a.x + b.x, a.y + b.y, a.z + b.z⟩

/-- Modelled from the spec: the routine `vmul` of `math3d.h`, absent from the
sources, which scales a vector. -/
def vmul (a : vec3 R) (k : R) : vec3 R := ⟨a.x * k, a.y * k, a.z * k⟩

/-- Modelled from the spec: the routine `vdot` of `math3d.h`, absent from the
sources, the inner product of two vectors. -/
def vdot (a b : vec3 R) : R := a.x * b.x + a.y * b.y + a.z * b.z

/-- Modelled from the spec: the routine `vlen` of `math3d.h`, absent from the
sources, the magnitude of a vector. The square root is a parameter. -/
def vlen (sqrt : R → R) (a : vec3 R) : R := sqrt (vdot a a)

/-- Modelled from the spec: the routine `vnormalize` of `math3d.h`, absent from
the sources, which re-normalizes a vector to the unit sphere by dividing it
by its magnitude. -/
def vnormalize (sqrt : R → R) (a : vec3 R) : vec3 R :=
  ⟨a.x / vlen sqrt a, a.y / vlen sqrt a, a.z / vlen sqrt a⟩

/-- All four corners of a face have magnitude 1. -/
def UnitCorners [One R] (sqrt : R → R) (F : face (vec3 R)) : Prop :=
  vlen sqrt F.a = 1 ∧ vlen sqrt F.b = 1 ∧ vlen sqrt F.c = 1 ∧ vlen sqrt F.d = 1

/-- The method `sph_model::face::divide` with the vector routines as modelled
above. -/
def sphDivide (sqrt : R → R) (F : face (vec3 R)) : subfaces (vec3 R) :=
  F.divide vadd (vnormalize sqrt)

/-- The function `sqrt` is the square root on the non-negative numbers. -/
def IsSqrt [Zero R] [LE R] (sqrt : R → R) : Prop :=
  ∀ x, 0 ≤ x → 0 ≤ sqrt x ∧ sqrt x * sqrt x = x

end math3d

/-! ## Unit vectors up to rounding -/

/-- The exact square of the magnitude of a vector of `double` values. -/
def sqNorm (v : vec3 Binary64) : ℚ := v.x.val ^ 2 + v.y.val ^ 2 + v.z.val ^ 2

/-- A vector of `double` values is a unit vector up to rounding: the exact
square of its magnitude differs from 1 by at most `2 ^ (-49)`. -/
def NearUnit (v : vec3 Binary64) : Prop := |sqNorm v - 1| ≤ 1 / 2 ^ 49

instance (v : vec3 Binary64) : Decidable (NearUnit v) := by
  unfold NearUnit
  infer_instance

/-- All four corners of a face are unit vectors up to rounding. -/
def NearUnitCorners (F : face (vec3 Binary64)) : Prop :=
  NearUnit F.a ∧ NearUnit F.b ∧ NearUnit F.c ∧ NearUnit F.d


/-! ## The screen-space measure and the traversal of `sph-model.cpp`

The `double` arithmetic is exact arithmetic in an ordered field `R`. The
square root and the C library predicate `finite` are parameters; a 4 by 4
matrix is the function that gives its sixteen entries in storage order. -/

section sph

variable {R : Type} [LinearOrderedField R]

/-- The homogeneous divisor `d` that `project` computes for the point `b`. -/
def divisor (M : Nat → R) (b : vec3 R) : R :=
  M 3 * b.x + M 7 * b.y + M 11 * b.z + M 15

/-- The routine `project` of `sph-model.cpp`: the perspective division of
`M * b`, or `none` where the routine returns `false`. -/
def project (M : Nat → R) (b : vec3 R) : Option (vec3 R) :=
  let d := divisor M b
  if |d| > 0 then
    some ⟨(M 0 * b.x + M 4 * b.y + M 8 * b.z + M 12) / d,
      (M 1 * b.x + M 5 * b.y + M 9 * b.z + M 13) / d,
      (M 2 * b.x + M 6 * b.y + M 10 * b.z + M 14) / d⟩
  else none

/-- The routine `length` of `sph-model.cpp`: the distance in pixels between two
projected points on a viewport of `w` by `h` pixels, or zero when a coordinate
is not finite. -/
def length (sqrt : R → R) (finite : R → Bool) (a b : vec3 R) (w h : Int) : R :=
  if finite a.x && finite a.y && finite b.x && finite b.y then
    let dx := (a.x - b.x) * (w : R) / 2
    let dy := (a.y - b.y) * (h : R) / 2
    sqrt (dx * dx + dy * dy)
  else 0

/-- The routine `max` of `sph-model.cpp`, of four arguments. -/
def max4 (a b c d : R) : R :=
  let x := if a > b then a else b
  let y := if c > d then c else d
  if x > y then x else y

/-- The four inflated corners that `sph_model::face::measure` projects besides
the corners themselves: each corner scaled by `r = vlen t / vdot a t`, where
`t` is the sum of the corners. -/
def face.inflated (sqrt : R → R) (F : face (vec3 R)) : face (vec3 R) :=
  let t : vec3 R :=
    ⟨F.a.x + F.b.x + F.c.x + F.d.x, F.a.y + F.b.y + F.c.y + F.d.y,
      F.a.z + F.b.z + F.c.z + F.d.z⟩
  let r := vlen sqrt t / vdot F.a t
  ⟨vmul F.a r, vmul F.b r, vmul F.c r, vmul F.d r⟩

/-- The end of `sph_model::face::measure`, after the eight projections: zero
when all eight projected points lie beyond the clip margin `k = 1` on the same
side of the same axis, and otherwise the length of the longest of the four
edges between the projected corners. -/
def visibleLength (sqrt : R → R) (finite : R → Bool)
    (na nb nc nd nA nB nC nD : vec3 R) (w h : Int) : R :=
  let k : R := 1
  if na.x > k ∧ nb.x > k ∧ nc.x > k ∧ nd.x > k ∧
      nA.x > k ∧ nB.x > k ∧ nC.x > k ∧ nD.x > k then 0
  else if na.x < -k ∧ nb.x < -k ∧ nc.x < -k ∧ nd.x < -k ∧
      nA.x < -k ∧ nB.x < -k ∧ nC.x < -k ∧ nD.x < -k then 0
  else if na.y > k ∧ nb.y > k ∧ nc.y > k ∧ nd.y > k ∧
      nA.y > k ∧ nB.y > k ∧ nC.y > k ∧ nD.y > k then 0
  else if na.y < -k ∧ nb.y < -k ∧ nc.y < -k ∧ nd.y < -k ∧
      nA.y < -k ∧ nB.y < -k ∧ nC.y < -k ∧ nD.y < -k then 0
  else if na.z > k ∧ nb.z > k ∧ nc.z > k ∧ nd.z > k ∧
      nA.z > k ∧ nB.z > k ∧ nC.z > k ∧ nD.z > k then 0
  else if na.z < -k ∧ nb.z < -k ∧ nc.z < -k ∧ nd.z < -k ∧
      nA.z < -k ∧ nB.z < -k ∧ nC.z < -k ∧ nD.z < -k then 0
  else
    max4 (length sqrt finite na nb w h) (length sqrt finite nc nd w h)
      (length sqrt finite na nc w h) (length sqrt finite nb nd w h)

/-- The method `sph_model::face::measure`: the inflated corners, the eight
projections, each of which returns zero when it fails, and the end of the
method as above. -/
def face.measure (sqrt : R → R) (finite : R → Bool) (F : face (vec3 R)) (M : Nat → R)
    (w h : Int) : R :=
  let G := F.inflated sqrt
  match project M F.a with
  | none => 0
  | some na =>
  match project M F.b with
  | none => 0
  | some nb =>
  match project M F.c with
  | none => 0
  | some nc =>
  match project M F.d with
  | none => 0
  | some nd =>
  match project M G.a with
  | none => 0
  | some nA =>
  match project M G.b with
  | none => 0
  | some nB =>
  match project M G.c with
  | none => 0
  | some nC =>
  match project M G.d with
  | none => 0
  | some nD => visibleLength sqrt finite na nb nc nd nA nB nC nD w h

/-- All the given projected points lie beyond the clip margin on the same side
of the same axis: all `x > 1`, or all `x < -1`, or likewise for `y` or `z`. -/
def BeyondClipPlane (P : List (vec3 R)) : Prop :=
  (∀ p ∈ P, p.x > 1) ∨ (∀ p ∈ P, p.x < -1) ∨ (∀ p ∈ P, p.y > 1) ∨
  (∀ p ∈ P, p.y < -1) ∨ (∀ p ∈ P, p.z > 1) ∨ (∀ p ∈ P, p.z < -1)

/-- The length of an edge with the projected end points `p` and `q` according
to the specification, on a viewport of `w` by `h` pixels. -/
def edgeLength (sqrt : R → R) (p q : vec3 R) (w h : Int) : R :=
  sqrt (((p.x - q.x) * (w : R) / 2) ^ 2 + ((p.y - q.y) * (h : R) / 2) ^ 2)

/-- A number is a finite `double` when its magnitude does not exceed the
largest `double`, which lies below `2 ^ 1024`. -/
def finiteDouble (x : R) : Bool := decide (|x| ≤ 2 ^ 1024)

/-- The method `sph_model::draw_face`: the leaves it submits to the renderer,
in order, each with the depth budget `m` left when it was submitted. -/
def draw_face (sqrt : R → R) (finite : R → Bool) (F : face (vec3 R)) (M : Nat → R)
    (w h : Int) (m : Int) : List (face (vec3 R) × Int) :=
  let s := F.measure sqrt finite M w h
  if s > 0 then
    if _hm : m > 0 ∧ s > 512 then
      let D := sphDivide sqrt F
      draw_face sqrt finite D.A M w h (m - 1) ++ draw_face sqrt finite D.B M w h (m - 1) ++
        draw_face sqrt finite D.C M w h (m - 1) ++ draw_face sqrt finite D.D M w h (m - 1)
    else [(F, m)]
  else []
termination_by m.toNat
decreasing_by
  all_goals simp_wf
  all_goals omega

/-- The root face `i` that `sph_model::draw` builds from the vertex table
`cube_v` and the index table `cube_i` of `cube.hpp`, which are parameters. -/
def rootFace (sqrt : R → R) (cube_v : Nat → vec3 R) (cube_i : Nat → Nat → Nat) (i : Nat) :
    face (vec3 R) :=
  ⟨vnormalize sqrt (cube_v (cube_i i 0)), vnormalize sqrt (cube_v (cube_i i 1)),
    vnormalize sqrt (cube_v (cube_i i 2)), vnormalize sqrt (cube_v (cube_i i 3))⟩

/-- The method `sph_model::draw`: the leaves of the six root faces, each
traversed with the depth budget 8. The matrix product `mmultiply` of
`math3d.h` is a parameter. -/
def draw (sqrt : R → R) (finite : R → Bool)
    (mmultiply : (Nat → R) → (Nat → R) → Nat → R)
    (cube_v : Nat → vec3 R) (cube_i : Nat → Nat → Nat)
    (P V : Nat → R) (w h : Int) : List (face (vec3 R) × Int) :=
  let M := mmultiply P V
  draw_face sqrt finite (rootFace sqrt cube_v cube_i 0) M w h 8 ++
    draw_face sqrt finite (rootFace sqrt cube_v cube_i 1) M w h 8 ++
    draw_face sqrt finite (rootFace sqrt cube_v cube_i 2) M w h 8 ++
    draw_face sqrt finite (rootFace sqrt cube_v cube_i 3) M w h 8 ++
    draw_face sqrt finite (rootFace sqrt cube_v cube_i 4) M w h 8 ++
    draw_face sqrt finite (rootFace sqrt cube_v cube_i 5) M w h 8

end sph

/-! ## Sample data -/

/-- A statistic buffer all of whose samples are `v`. -/
def constBuf (v : Int) : StatBuf ℚ :=
  ⟨fun _ => v, fun _ => v, fun _ => v, fun _ => v, fun _ => v⟩

/-- A catalog of three pages: root 2, its child 14 and its grandchild 62, of
256 by 256 single-channel unsigned 8-bit pages, in which only the root has
statistics. -/
def sampleFile : scm_file ℚ where
  n0 := 0
  n1 := 10
  w := 256
  h := 256
  c := 1
  b := 8
  g := 1
  xv := [2, 14, 62]
  ov := [8, 65544, 131080]
  av := constBuf 51
  ac := 1
  zv := constBuf 204
  zc := 1

/-- A hierarchy function for the examples, in which the children of page `i`
are the pages `6 + 4 * i + k` for `k < 4`. -/
def sampleParent (i : Nat) : Nat := (i - 6) / 4

/-- The sample catalog without any statistics. -/
def bareFile : scm_file ℚ := { sampleFile with ac := 0, zc := 0 }

/-- An empty catalog without statistics whose calibration range runs from
`2 ^ 100` to `1`, in single precision. -/
def roundingFile : scm_file Binary32 where
  n0 := ⟨2 ^ 100⟩
  n1 := ⟨1⟩
  w := 256
  h := 256
  c := 1
  b := 8
  g := 1
  xv := []
  ov := []
  av := ⟨fun _ => 0, fun _ => 0, fun _ => 0, fun _ => 0, fun _ => ⟨0⟩⟩
  ac := 0
  zv := ⟨fun _ => 0, fun _ => 0, fun _ => 0, fun _ => 0, fun _ => ⟨0⟩⟩
  zc := 0

/-- The sample catalog with 64-bit floating-point samples. -/
def doubleFile : scm_file ℚ := { sampleFile with b := 64, g := 3 }

/-- A face with unit corners whose sums `a + b` and `c + d` have the different
lengths `8 / 5` and `6 / 5`. -/
def skewFace (R : Type) [Field R] : face (vec3 R) :=
  ⟨⟨1, 0, 0⟩, ⟨7 / 25, 24 / 25, 0⟩, ⟨0, 0, 1⟩, ⟨0, 24 / 25, -7 / 25⟩⟩

/-- A face with unit corners on the coordinate axes. -/
def axisFace : face (vec3 ℝ) :=
  ⟨⟨1, 0, 0⟩, ⟨0, 1, 0⟩, ⟨0, 0, 1⟩, ⟨-1, 0, 0⟩⟩

/-- The face with corners on the coordinate axes, in `double` values. -/
def axisFace64 : face (vec3 Binary64) :=
  ⟨⟨⟨1⟩, ⟨0⟩, ⟨0⟩⟩, ⟨⟨0⟩, ⟨1⟩, ⟨0⟩⟩, ⟨⟨0⟩, ⟨0⟩, ⟨1⟩⟩, ⟨⟨-1⟩, ⟨0⟩, ⟨0⟩⟩⟩

/-- The face of `double` values with unit corners of which `a` and `b` are
antipodal. -/
def antipodalFace64 : face (vec3 Binary64) :=
  ⟨⟨⟨1⟩, ⟨0⟩, ⟨0⟩⟩, ⟨⟨-1⟩, ⟨0⟩, ⟨0⟩⟩, ⟨⟨0⟩, ⟨1⟩, ⟨0⟩⟩, ⟨⟨0⟩, ⟨0⟩, ⟨1⟩⟩⟩

/-- A face whose edge from `a` to `c` is the edge from `a` to `b` of `axisFace`
in the opposite direction. -/
def neighbourFace : face (vec3 ℝ) :=
  ⟨⟨0, 1, 0⟩, ⟨0, 0, -1⟩, ⟨1, 0, 0⟩, ⟨0, -1, 0⟩⟩

/-- The identity matrix. -/
def idMatrix (R : Type) [Field R] (k : Nat) : R :=
  if k = 0 ∨ k = 5 ∨ k = 10 ∨ k = 15 then 1 else 0

/-- The zero matrix. -/
def zeroMatrix (R : Type) [Field R] (_ : Nat) : R := 0

/-- A face with unit corners around the positive `z` axis. -/
def centredFace (R : Type) [Field R] : face (vec3 R) :=
  ⟨⟨-1 / 3, -2 / 3, 2 / 3⟩, ⟨1 / 3, -2 / 3, 2 / 3⟩, ⟨-1 / 3, 2 / 3, 2 / 3⟩,
    ⟨1 / 3, 2 / 3, 2 / 3⟩⟩

/-- The root face of the cube face `z = 1`: its corners are the cube vertices
`(±1, ±1, 1)`, normalized. -/
def topFace {R : Type} [Field R] (sqrt : R → R) : face (vec3 R) :=
  ⟨vnormalize sqrt ⟨-1, -1, 1⟩, vnormalize sqrt ⟨1, -1, 1⟩, vnormalize sqrt ⟨-1, 1, 1⟩,
    vnormalize sqrt ⟨1, 1, 1⟩⟩

/-- The root face of the cube face `z = -1`: its corners are the cube vertices
`(±1, ±1, -1)`, normalized. -/
def bottomFace {R : Type} [Field R] (sqrt : R → R) : face (vec3 R) :=
  ⟨vnormalize sqrt ⟨-1, -1, -1⟩, vnormalize sqrt ⟨1, -1, -1⟩, vnormalize sqrt ⟨-1, 1, -1⟩,
    vnormalize sqrt ⟨1, 1, -1⟩⟩

/-- The position `(0, 0, 11 / 10)` of the camera of `cameraMatrix`, at the
distance `1 / 10` from the unit sphere above the cube face `z = 1`. -/
def cameraEye (R : Type) [Field R] : vec3 R := ⟨0, 0, 11 / 10⟩

/-- The product of a perspective projection and a view matrix for a camera at
`cameraEye` that looks down the `z` axis at the centre of the sphere, with a
field of view of 90 degrees, the near plane at distance `1 / 10` and the far
plane at distance `10`: a point `(x, y, z)` has the clip coordinates
`(x, y, -101 / 99 * z + 911 / 990, 11 / 10 - z)`. -/
def cameraMatrix (R : Type) [Field R] (k : Nat) : R :=
  if k = 0 ∨ k = 5 then 1
  else if k = 10 then -101 / 99
  else if k = 14 then 911 / 990
  else if k = 11 then -1
  else if k = 15 then 11 / 10
  else 0

/-- The identity matrix followed by a translation by 5 along `x`. -/
def shiftMatrix (R : Type) [Field R] (k : Nat) : R :=
  if k = 12 then 5 else idMatrix R k

/-- A matrix with entries of `double` magnitude under which the projected `x`
coordinate of a point is `2 ^ 2000` times its `x` coordinate. -/
def overflowMatrix (R : Type) [Field R] (k : Nat) : R :=
  if k = 0 then 2 ^ 1000 else if k = 15 then 1 / 2 ^ 1000 else 0

/-! ## Correctness of the catalog lookup -/

theorem xcmp_neg_iff (a b : Nat) : xcmp a b < 0 ↔ a < b := by
  unfold xcmp
  split_ifs with h1 h2
  · simp [h1]
  · simp [h1]
  · simp [h1]

theorem xcmp_pos_iff (a b : Nat) : xcmp a b > 0 ↔ b < a := by
  unfold xcmp
  split_ifs with h1 h2
  · simp only [gt_iff_lt, Left.neg_pos_iff, Int.reduceLT, false_iff, not_lt]
    omega
  · simp only [gt_iff_lt, zero_lt_one, true_iff]
    omega
  · simp only [gt_iff_lt, lt_self_iff_false, false_iff]
    omega

/-- Whatever the order of the sequence, a position returned by the bisection
lies in the searched interval and holds the key. -/
theorem bsearchLoop_sound (key : Nat) (base : List Nat) :
    ∀ (n l u p : Nat), u - l = n → bsearchLoop xcmp key base l u = some p →
      l ≤ p ∧ p < u ∧ base.getD p 0 = key := by
  intro n
  induction n using Nat.strong_induction_on with
  | _ n ih =>
    intro l u p hn hres
    rw [bsearchLoop] at hres
    by_cases hlu : l < u
    · simp only [hlu, dite_true] at hres
      by_cases hneg : xcmp key (base.getD ((l + u) / 2) 0) < 0
      · simp only [hneg, if_true] at hres
        obtain ⟨h1, h2, h3⟩ := ih (((l + u) / 2) - l) (by omega) l ((l + u) / 2) p rfl hres
        exact ⟨h1, by omega, h3⟩
      · simp only [hneg, if_false] at hres
        by_cases hpos : xcmp key (base.getD ((l + u) / 2) 0) > 0
        · simp only [hpos, if_true] at hres
          obtain ⟨h1, h2, h3⟩ :=
            ih (u - ((l + u) / 2 + 1)) (by omega) ((l + u) / 2 + 1) u p rfl hres
          exact ⟨by omega, h2, h3⟩
        · simp only [hpos, if_false, Option.some.injEq] at hres
          subst hres
          refine ⟨by omega, by omega, ?_⟩
          have h1 : ¬ key < base.getD ((l + u) / 2) 0 :=
            fun h => hneg ((xcmp_neg_iff _ _).2 h)
          have h2 : ¬ base.getD ((l + u) / 2) 0 < key :=
            fun h => hpos ((xcmp_pos_iff _ _).2 h)
          omega
    · simp [hlu] at hres

/-- On a strictly ascending sequence the bisection finds the key wherever it
lies in the searched interval. -/
theorem bsearchLoop_complete (key : Nat) (base : List Nat)
    (hs : ∀ a b, a < b → b < base.length → base.getD a 0 < base.getD b 0) :
    ∀ (n l u p : Nat), u - l = n → u ≤ base.length → l ≤ p → p < u →
      base.getD p 0 = key → bsearchLoop xcmp key base l u = some p := by
  intro n
  induction n using Nat.strong_induction_on with
  | _ n ih =>
    intro l u p hn hu hlp hpu hkey
    rw [bsearchLoop]
    have hlu : l < u := by omega
    simp only [hlu, dite_true]
    have hidx : (l + u) / 2 < base.length := by omega
    by_cases hneg : xcmp key (base.getD ((l + u) / 2) 0) < 0
    · simp only [hneg, if_true]
      have hlt := (xcmp_neg_iff _ _).1 hneg
      have hp : p < (l + u) / 2 := by
        by_contra hcon
        rcases Nat.eq_or_lt_of_le (Nat.le_of_not_lt hcon) with heq | hgt
        · rw [heq, hkey] at hlt
          exact Nat.lt_irrefl _ hlt
        · have := hs _ _ hgt (by omega)
          omega
      exact ih _ (by omega) l _ p rfl (by omega) hlp hp hkey
    · simp only [hneg, if_false]
      by_cases hpos : xcmp key (base.getD ((l + u) / 2) 0) > 0
      · simp only [hpos, if_true]
        have hgt := (xcmp_pos_iff _ _).1 hpos
        have hp : (l + u) / 2 + 1 ≤ p := by
          by_contra hcon
          rcases Nat.eq_or_lt_of_le (Nat.le_of_lt_succ (Nat.lt_of_not_le hcon)) with heq | hlt
          · rw [← heq, hkey] at hgt
            exact Nat.lt_irrefl _ hgt
          · have := hs _ _ hlt hidx
            omega
        exact ih _ (by omega) _ u p rfl hu hp hpu hkey
      · simp only [hpos, if_false]
        have h1 : ¬ key < base.getD ((l + u) / 2) 0 := fun h => hneg ((xcmp_neg_iff _ _).2 h)
        have h2 : ¬ base.getD ((l + u) / 2) 0 < key := fun h => hpos ((xcmp_pos_iff _ _).2 h)
        have heq : base.getD ((l + u) / 2) 0 = base.getD p 0 := by omega
        rcases Nat.lt_trichotomy ((l + u) / 2) p with hlt | hq | hgt
        · have := hs _ _ hlt (by omega)
          omega
        · rw [hq]
        · have := hs _ _ hgt hidx
          omega

theorem sorted_getD_lt (xv : List Nat) (hs : xv.Sorted (· < ·)) :
    ∀ a b, a < b → b < xv.length → xv.getD a 0 < xv.getD b 0 := by
  intro a b hab hb
  have ha : a < xv.length := by omega
  rw [List.getD_eq_getElem _ _ ha, List.getD_eq_getElem _ _ hb]
  exact List.pairwise_iff_getElem.1 hs a b ha hb hab

namespace scm_file

variable {F : Type}

/-- An absent page id is reported as `NOT_FOUND`. -/
theorem index_of_not_mem (f : scm_file F) (i : Nat) (hi : i ∉ f.xv) :
    f.index i = NOT_FOUND := by
  unfold index
  split_ifs with hxc
  · cases hb : bsearch xcmp i f.xv f.xc with
    | none => rfl
    | some p =>
      exfalso
      obtain ⟨_, h2, h3⟩ := bsearchLoop_sound i f.xv _ 0 f.xc p rfl hb
      have hp : p < f.xv.length := h2
      rw [List.getD_eq_getElem _ _ hp] at h3
      exact hi (h3 ▸ List.getElem_mem hp)
  · rfl

/-- On a strictly ascending catalog a present page id is reported at its
position. -/
theorem index_of_getElem (f : scm_file F) (i p : Nat) (hs : f.xv.Sorted (· < ·))
    (hxc : f.xv.length < 2 ^ 64) (hp : p < f.xv.length) (hi : f.xv[p] = i) :
    f.index i = p := by
  have hb : bsearch xcmp i f.xv f.xc = some p := by
    unfold bsearch
    refine bsearchLoop_complete i f.xv (sorted_getD_lt f.xv hs) _ 0 f.xc p rfl
      (Nat.le_refl _) (Nat.zero_le _) hp ?_
    rw [List.getD_eq_getElem _ _ hp, hi]
  have hne : f.xc ≠ 0 := by
    unfold xc
    omega
  unfold index
  rw [if_pos hne, hb]
  show p % 2 ^ 64 = p
  exact Nat.mod_eq_of_lt (by omega)

/-- A result of `index` other than `NOT_FOUND` is a position of the catalog
that holds the page id. -/
theorem index_found (f : scm_file F) (i : Nat) (hxc : f.xv.length < 2 ^ 64)
    (h : f.index i ≠ NOT_FOUND) :
    ∃ hp : f.index i < f.xv.length, f.xv[f.index i] = i := by
  unfold index at h ⊢
  split_ifs at h ⊢ with hne
  · cases hb : bsearch xcmp i f.xv f.xc with
    | none => rw [hb] at h; exact absurd rfl h
    | some p =>
      obtain ⟨_, h2, h3⟩ := bsearchLoop_sound i f.xv _ 0 f.xc p rfl hb
      have hp : p < f.xv.length := h2
      have hu : u64 p = p := Nat.mod_eq_of_lt (by omega)
      simp only [hu]
      rw [List.getD_eq_getElem _ _ hp] at h3
      exact ⟨hp, h3⟩
  · exact absurd rfl h

theorem not_found_ge (n : Nat) (hn : n < 2 ^ 64) : ¬ NOT_FOUND < n := by
  unfold NOT_FOUND
  omega

end scm_file

namespace scm_file

variable {F : Type}

theorem index_eq_linearScan (f : scm_file F) (i : Nat)
    (hs : f.xv.Sorted (· < ·)) (hxc : f.xv.length < 2 ^ 64) :
    f.index i = linearScan f.xv i := by
  unfold linearScan
  split_ifs with hm
  · exact f.index_of_getElem i _ hs hxc hm (List.getElem_indexOf hm)
  · exact f.index_of_not_mem i (fun h => hm (List.indexOf_lt_length.2 h))

end scm_file

/-- Claim C1. On a strictly ascending page-id sequence, `scm_file::index`
returns the position of every id that occurs, returns `NOT_FOUND` (the value
`2 ^ 64 - 1`) for every id that does not, and so agrees with the reference
linear scan. -/
theorem index_agrees_with_linear_scan {F : Type} (f : scm_file F) (i : Nat)
    (hs : f.xv.Sorted (· < ·)) (hxc : f.xv.length < 2 ^ 64) :
    (∀ (p : Nat) (hp : p < f.xv.length), f.xv[p] = i → f.index i = p) ∧
    (i ∉ f.xv → f.index i = 2 ^ 64 - 1) ∧
    (f.xv = [] → f.index i = 2 ^ 64 - 1) ∧
    f.index i = linearScan f.xv i :=
  ⟨fun p hp hi => f.index_of_getElem i p hs hxc hp hi,
    fun hi => f.index_of_not_mem i hi,
    fun hx => f.index_of_not_mem i (hx ▸ List.not_mem_nil i),
    f.index_eq_linearScan i hs hxc⟩

/-- Claim C1, at the catalog `[2, 14, 62]`: id 14 is found at position 1 and
id 15 is reported absent. -/
theorem index_agrees_with_linear_scan_witness :
    sampleFile.xv.Sorted (· < ·) ∧ sampleFile.xv.length < 2 ^ 64 ∧
    sampleFile.index 14 = 1 ∧ sampleFile.index 15 = 2 ^ 64 - 1 :=
  ⟨by decide, by decide,
    (index_agrees_with_linear_scan sampleFile 14 (by decide) (by decide)).1 1
      (by decide) (by decide),
    (index_agrees_with_linear_scan sampleFile 15 (by decide) (by decide)).2.1 (by decide)⟩

/-- Claim C5. `scm_file::offset` returns the entry of the offset sequence at
the looked-up position when that position lies within the offset sequence,
and zero otherwise: when the position lies beyond it, when the page is absent,
and for every input on an empty catalog. -/
theorem offset_value_or_zero {F : Type} (f : scm_file F) (i : Nat)
    (hoc : f.ov.length < 2 ^ 64) :
    (∀ h : f.index i < f.ov.length, f.offset i = f.ov[f.index i]) ∧
    (¬ f.index i < f.ov.length → f.offset i = 0) ∧
    (i ∉ f.xv → f.offset i = 0) ∧
    (f.xv = [] → f.offset i = 0) := by
  have habs : i ∉ f.xv → f.offset i = 0 := by
    intro hi
    unfold scm_file.offset
    simp only [f.index_of_not_mem i hi]
    rw [dif_neg (scm_file.not_found_ge _ hoc)]
  refine ⟨fun h => ?_, fun h => ?_, habs, fun hx => habs ?_⟩
  · unfold scm_file.offset
    simp only [h, dite_true]
  · unfold scm_file.offset
    simp only [h, dite_false]
  · rw [hx]
    exact List.not_mem_nil i

/-- Claim C5, at the sample catalog: page 14 lies at offset 65544 and the
absent page 15 yields zero. -/
theorem offset_value_or_zero_witness :
    sampleFile.ov.length < 2 ^ 64 ∧
    sampleFile.offset 14 = 65544 ∧ sampleFile.offset 15 = 0 :=
  ⟨by decide,
    ((offset_value_or_zero sampleFile 14 (by decide)).1
      (by rw [sampleFile.index_eq_linearScan 14 (by decide) (by decide)]
          decide)).trans
      (by simp only [sampleFile.index_eq_linearScan 14 (by decide) (by decide)]
          decide),
    (offset_value_or_zero sampleFile 15 (by decide)).2.2.1 (by decide)⟩

/-- Claim C6. On a strictly ascending catalog `scm_file::status` holds exactly
for the page ids of the id sequence, and exactly when `index` returns
something other than the sentinel `2 ^ 64 - 1`. -/
theorem status_iff_present {F : Type} (f : scm_file F) (i : Nat)
    (hs : f.xv.Sorted (· < ·)) (hxc : f.xv.length < 2 ^ 64) :
    (f.status i = true ↔ i ∈ f.xv) ∧
    (f.status i = true ↔ f.index i ≠ 2 ^ 64 - 1) := by
  have hst : f.status i = true ↔ f.index i < f.xv.length := by
    unfold scm_file.status scm_file.xc
    split_ifs with h
    · simp [h]
    · simp [h]
  have hmem : f.index i < f.xv.length ↔ i ∈ f.xv := by
    constructor
    · intro h
      have hne : f.index i ≠ NOT_FOUND := by
        intro he
        rw [he] at h
        exact scm_file.not_found_ge _ hxc h
      obtain ⟨hp, he⟩ := f.index_found i hxc hne
      exact he ▸ List.getElem_mem hp
    · intro h
      obtain ⟨p, hp, he⟩ := List.getElem_of_mem h
      rw [f.index_of_getElem i p hs hxc hp he]
      exact hp
  refine ⟨hst.trans hmem, hst.trans ⟨fun h he => ?_, fun h => ?_⟩⟩
  · have he2 : f.index i = NOT_FOUND := he
    rw [he2] at h
    exact scm_file.not_found_ge _ hxc h
  · exact (f.index_found i hxc h).1

/-- Claim C6, at the sample catalog: page 62 is present, page 3 is not. -/
theorem status_iff_present_witness :
    sampleFile.xv.Sorted (· < ·) ∧ sampleFile.xv.length < 2 ^ 64 ∧
    sampleFile.status 62 = true ∧ sampleFile.status 3 = false :=
  ⟨by decide, by decide,
    (status_iff_present sampleFile 62 (by decide) (by decide)).1.2 (by decide),
    Bool.eq_false_iff.2 (fun h =>
      absurd ((status_iff_present sampleFile 3 (by decide) (by decide)).1.1 h) (by decide))⟩

theorem roundHalfEven_of_lt_half (q : ℚ) (n : ℤ) (h1 : (n : ℚ) ≤ q)
    (h2 : q < n + 1 / 2) : roundHalfEven q = n := by
  have hfl : ⌊q⌋ = n := Int.floor_eq_iff.2 ⟨h1, by linarith⟩
  unfold roundHalfEven
  simp only [hfl]
  rw [if_pos (by linarith)]

theorem log2_eq_of_bounds (r : ℚ) (k : ℤ) (h1 : (2 : ℚ) ^ k ≤ r) (h2 : r < (2 : ℚ) ^ (k + 1)) :
    Int.log 2 r = k := by
  have hr : 0 < r := lt_of_lt_of_le (by positivity) h1
  have hle : k ≤ Int.log 2 r :=
    (Int.zpow_le_iff_le_log (by norm_num) hr).1 (by exact_mod_cast h1)
  have hlt : Int.log 2 r < k + 1 :=
    (Int.lt_zpow_iff_log_lt (by norm_num) hr).1 (by exact_mod_cast h2)
  omega

theorem round32_zero : round32 0 = 0 := by
  unfold round32
  rw [zero_div, roundHalfEven_of_lt_half 0 0 (by norm_num) (by norm_num)]
  simp

theorem round32_one : round32 1 = 1 := by
  have he : ulpExp 1 = -23 := by
    unfold ulpExp
    rw [abs_one, log2_eq_of_bounds 1 0 (by norm_num) (by norm_num)]
    rfl
  unfold round32
  rw [he, roundHalfEven_of_lt_half _ (2 ^ 23) (by norm_num) (by norm_num)]
  norm_num

theorem round32_one_sub_two_pow : round32 (1 - 2 ^ 100) = -2 ^ 100 := by
  have he : ulpExp (1 - 2 ^ 100) = 76 := by
    unfold ulpExp
    rw [abs_of_neg (by norm_num),
      log2_eq_of_bounds _ 99 (by norm_num) (by norm_num)]
    rfl
  unfold round32
  rw [he, roundHalfEven_of_lt_half _ (-2 ^ 24) (by norm_num) (by norm_num)]
  norm_num

theorem round32_neg_two_pow : round32 (-2 ^ 100) = -2 ^ 100 := by
  have he : ulpExp (-2 ^ 100) = 77 := by
    unfold ulpExp
    rw [abs_of_neg (by norm_num),
      log2_eq_of_bounds _ 100 (by norm_num) (by norm_num)]
    rfl
  unfold round32
  rw [he, roundHalfEven_of_lt_half _ (-2 ^ 23) (by norm_num) (by norm_num)]
  norm_num

/-! ## The ancestor walk of `scm_file::bounds` -/

namespace scm_file

variable {F : Type}

/-- The walk returns as soon as the parent chain reaches a root page: `k`
parent steps to a root need at most `k + 1` iterations. -/
theorem boundsWalk_terminates (f : scm_file F) (parent : Nat → Nat) :
    ∀ (k fuel i ai zi : Nat), parent^[k] i < 6 → k < fuel →
      ∃ p, f.boundsWalk parent fuel i ai zi = some p := by
  intro k
  induction k with
  | zero =>
    intro fuel i ai zi hk hfuel
    have hi : i < 6 := hk
    cases fuel with
    | zero => omega
    | succ fuel =>
      unfold boundsWalk
      by_cases hc : ai ≥ f.ac ∨ zi ≥ f.zc
      · simp only [hc, if_true, hi]
        exact ⟨_, rfl⟩
      · simp only [hc, if_false]
        exact ⟨_, rfl⟩
  | succ k ih =>
    intro fuel i ai zi hk hfuel
    cases fuel with
    | zero => omega
    | succ fuel =>
      unfold boundsWalk
      by_cases hc : ai ≥ f.ac ∨ zi ≥ f.zc
      · simp only [hc, if_true]
        by_cases hi : i < 6
        · simp only [hi, if_true]
          exact ⟨_, rfl⟩
        · simp only [hi, if_false]
          exact ih fuel (parent i) _ _ (by rwa [Function.iterate_succ_apply] at hk)
            (by omega)
      · simp only [hc, if_false]
        exact ⟨_, rfl⟩

/-- When exactly position 0 has statistics and it is the position of the root
`r`, the walk from a descendant of `r` passes every page below `r` without
resolving a bound and resolves both at `r`. -/
theorem boundsWalk_to_root (f : scm_file F) (parent : Nat → Nat) (r : Nat)
    (hxc : f.xv.length < 2 ^ 64) (hr : r < 6) (hac : f.ac = 1) (hzc : f.zc = 1)
    (hidx : f.index r = 0) :
    ∀ (k fuel i ai zi : Nat), 1 ≤ ai → 1 ≤ zi → parent^[k] i = r →
      (∀ j, j < k → 6 ≤ parent^[j] i) → k < fuel →
      f.boundsWalk parent fuel i ai zi = some (0, 0) := by
  have hnf : (0 : Nat) ≠ NOT_FOUND := by
    unfold NOT_FOUND
    omega
  intro k
  induction k with
  | zero =>
    intro fuel i ai zi hai hzi hk _ hfuel
    have hi : i = r := hk
    subst hi
    cases fuel with
    | zero => omega
    | succ fuel =>
      unfold boundsWalk
      rw [if_pos (Or.inl (by omega))]
      simp only [hac, hzc, ge_iff_le, hai, hzi, if_true, hidx, hr]
  | succ k ih =>
    intro fuel i ai zi hai hzi hk hanc hfuel
    have hi6 : 6 ≤ i := hanc 0 (Nat.succ_pos k)
    have hone : 1 ≤ f.index i := by
      by_contra hcon
      have h0 : f.index i = 0 := by omega
      obtain ⟨hp, he⟩ := f.index_found i hxc (by rw [h0]; exact hnf)
      obtain ⟨hp2, he2⟩ := f.index_found r hxc (by rw [hidx]; exact hnf)
      simp only [h0] at he
      simp only [hidx] at he2
      omega
    cases fuel with
    | zero => omega
    | succ fuel =>
      unfold boundsWalk
      rw [if_pos (Or.inl (by omega))]
      simp only [hac, hzc, ge_iff_le, hai, hzi, if_true]
      rw [if_neg (by omega)]
      refine ih fuel (parent i) _ _ hone hone
        (by rwa [Function.iterate_succ_apply] at hk) (fun j hj => ?_) (by omega)
      have := hanc (j + 1) (by omega)
      rwa [Function.iterate_succ_apply] at this

variable [Add F] [Sub F] [Mul F] [Div F] [IntCast F]

theorem bounds_of_walk (f : scm_file F) (parent : Nat → Nat) (fuel i ai zi : Nat)
    (h : f.boundsWalk parent fuel i NOT_FOUND NOT_FOUND = some (ai, zi)) :
    f.bounds parent fuel i = some (f.boundsDecode ai zi) := by
  unfold bounds
  rw [h]

/-- With no statistics at all, both outputs are the calibrated default. -/
theorem boundsDecode_without_statistics (f : scm_file F) (ai zi : Nat)
    (hac : f.ac = 0) (hzc : f.zc = 0) :
    f.boundsDecode ai zi = (f.calibrate ((1 : Int) : F), f.calibrate ((1 : Int) : F)) := by
  unfold boundsDecode calibrate
  simp only [hac, hzc, Nat.not_lt_zero, if_false]
  split_ifs <;> rfl

/-- For a bit depth other than 8, 16 and 32 both outputs are the calibrated
default, whatever the statistics. -/
theorem boundsDecode_other_depth (f : scm_file F) (ai zi : Nat)
    (h8 : f.b ≠ 8) (h16 : f.b ≠ 16) (h32 : f.b ≠ 32) :
    f.boundsDecode ai zi = (f.calibrate ((1 : Int) : F), f.calibrate ((1 : Int) : F)) := by
  unfold boundsDecode calibrate
  simp only [h8, h16, h32, if_false]

/-- For the bit depths 8, 16 and 32 the decoding stage applies the decoding
rule of the specification at every resolved position. -/
theorem boundsDecode_resolved (f : scm_file F) (ai zi : Nat) (hfit : f.Fits)
    (hai : ai < f.ac) (hzi : zi < f.zc) (hfmt : f.b = 8 ∨ f.b = 16 ∨ f.b = 32) :
    f.boundsDecode ai zi =
      (f.calibrate (f.normalized f.av ai), f.calibrate (f.normalized f.zv zi)) := by
  obtain ⟨_, _, hA, hZ, _⟩ := hfit
  have h1 : u64 (ai * f.c) = ai * f.c :=
    Nat.mod_eq_of_lt (lt_of_le_of_lt (Nat.mul_le_mul_right _ (Nat.le_of_lt hai)) hA)
  have h2 : u64 (zi * f.c) = zi * f.c :=
    Nat.mod_eq_of_lt (lt_of_le_of_lt (Nat.mul_le_mul_right _ (Nat.le_of_lt hzi)) hZ)
  unfold boundsDecode calibrate normalized
  simp only [h1, h2, hai, hzi, if_true]
  rcases hfmt with h | h | h
  · simp only [h, if_true]
    split_ifs <;> rfl
  · simp only [h, if_true]
    split_ifs <;> rfl
  · simp only [h, if_true]
    split_ifs <;> rfl

end scm_file

/-- Claim C2, refuted as stated: with 64-bit samples the root page 2 of the
sample catalog has statistics and page 62 descends from it, yet
`scm_file::bounds` returns the calibrated default `(10, 10)` for page 62,
whatever the statistic buffers hold. -/
theorem bounds_default_at_64_bit_samples :
    doubleFile.Fits ∧ doubleFile.ac = 1 ∧ doubleFile.zc = 1 ∧
    doubleFile.index 2 = 0 ∧ sampleParent^[2] 62 = 2 ∧
    doubleFile.calibrate ((1 : Int) : ℚ) = 10 ∧
    (∀ (scm_page_parent : Nat → Nat) (av zv : StatBuf ℚ),
      ({ doubleFile with av := av, zv := zv } : scm_file ℚ).bounds scm_page_parent 1 2
        = some (10, 10)) ∧
    (∀ av zv : StatBuf ℚ,
      ({ doubleFile with av := av, zv := zv } : scm_file ℚ).bounds sampleParent 3 62
        = some (10, 10)) := by
  have hidx : ∀ av zv : StatBuf ℚ,
      ({ doubleFile with av := av, zv := zv } : scm_file ℚ).index 2 = 0 := by
    intro av zv
    refine scm_file.index_of_getElem _ 2 0 ?_ ?_ ?_ ?_
    · show ([2, 14, 62] : List Nat).Sorted (· < ·)
      decide
    · show ([2, 14, 62] : List Nat).length < 2 ^ 64
      decide
    · show 0 < ([2, 14, 62] : List Nat).length
      decide
    · rfl
  have hcal : doubleFile.calibrate ((1 : Int) : ℚ) = 10 := by
    show (0 : ℚ) + ((1 : Int) : ℚ) * (10 - 0) = 10
    norm_num
  have hall : ∀ (parent : Nat → Nat) (k fuel i : Nat) (av zv : StatBuf ℚ),
      parent^[k] i = 2 → (∀ j, j < k → 6 ≤ parent^[j] i) → k < fuel →
      ({ doubleFile with av := av, zv := zv } : scm_file ℚ).bounds parent fuel i
        = some (10, 10) := by
    intro parent k fuel i av zv hk hanc hfuel
    have hwalk := scm_file.boundsWalk_to_root
      ({ doubleFile with av := av, zv := zv } : scm_file ℚ) parent 2
      (by show ([2, 14, 62] : List Nat).length < 2 ^ 64; decide) (by decide) rfl rfl
      (hidx av zv) k fuel i NOT_FOUND NOT_FOUND (by decide) (by decide) hk hanc hfuel
    rw [scm_file.bounds_of_walk _ _ _ _ _ _ hwalk,
      scm_file.boundsDecode_other_depth _ _ _ (show (64 : Nat) ≠ 8 by decide)
        (show (64 : Nat) ≠ 16 by decide) (show (64 : Nat) ≠ 32 by decide)]
    exact congrArg some (Prod.ext hcal hcal)
  exact ⟨by decide, rfl, rfl, hidx _ _, by decide, hcal,
    fun parent av zv => hall parent 0 1 2 av zv rfl (fun j hj => absurd hj (Nat.not_lt_zero j))
      (by decide),
    fun av zv => hall sampleParent 2 3 62 av zv (by decide) (by decide) (by decide)⟩

/-- Claim C2, amended. For bit depth 8, 16 or 32, in a catalog where exactly
position 0 has statistics and it is the position of the root page `r`, for
every page `i` whose parent chain reaches `r`, `scm_file::bounds` returns for
both outputs the decoded statistic of `r` mapped through the calibration
range. -/
theorem bounds_returns_root_statistic {F : Type} [Add F] [Sub F] [Mul F] [Div F]
    [IntCast F] (f : scm_file F) (scm_page_parent : Nat → Nat) (r i k fuel : Nat)
    (hfit : f.Fits) (hr : r < 6) (hac : f.ac = 1) (hzc : f.zc = 1)
    (hidx : f.index r = 0) (hchain : scm_page_parent^[k] i = r)
    (hanc : ∀ j, j < k → 6 ≤ scm_page_parent^[j] i) (hfuel : k < fuel)
    (hfmt : f.b = 8 ∨ f.b = 16 ∨ f.b = 32) :
    f.bounds scm_page_parent fuel i =
      some (f.calibrate (f.normalized f.av (f.index r)),
        f.calibrate (f.normalized f.zv (f.index r))) := by
  have hnf : 1 ≤ NOT_FOUND := by
    unfold NOT_FOUND
    omega
  have hwalk := f.boundsWalk_to_root scm_page_parent r hfit.1 hr hac hzc hidx k fuel i
    NOT_FOUND NOT_FOUND hnf hnf hchain hanc hfuel
  rw [f.bounds_of_walk _ _ _ _ _ hwalk, hidx,
    f.boundsDecode_resolved 0 0 hfit (by omega) (by omega) hfmt]

/-- Claim C2 amended, at the sample catalog: page 62 gets the statistics 51
and 204 of root page 2, which decode and calibrate to 2 and 8. -/
theorem bounds_returns_root_statistic_witness :
    sampleFile.Fits ∧ sampleFile.index 2 = 0 ∧ sampleParent^[2] 62 = 2 ∧
    (∀ j, j < 2 → 6 ≤ sampleParent^[j] 62) ∧
    sampleFile.bounds sampleParent 3 62 = some (2, 8) := by
  have hidx : sampleFile.index 2 = 0 :=
    sampleFile.index_of_getElem 2 0 (by decide) (by decide) (by decide) rfl
  refine ⟨by decide, hidx, by decide, by decide, ?_⟩
  rw [bounds_returns_root_statistic sampleFile sampleParent 2 62 2 3 (by decide)
    (by decide) rfl rfl hidx (by decide) (by decide) (by decide) (Or.inl rfl), hidx]
  refine congrArg some (Prod.ext ?_ ?_)
  · show (0 : ℚ) + ((51 : Int) : ℚ) / ((255 : Int) : ℚ) * (10 - 0) = 2
    norm_num
  · show (0 : ℚ) + ((204 : Int) : ℚ) / ((255 : Int) : ℚ) * (10 - 0) = 8
    norm_num

/-- Claim C3, refuted as stated: in single precision, with the calibration
pair `n0 = 2 ^ 100` and `n1 = 1` and no statistics, `n1 - n0` rounds to
`-2 ^ 100`, so `scm_file::bounds` returns `(0, 0)` and not `(n1, n1)`. -/
theorem bounds_default_rounds_away :
    roundingFile.ac = 0 ∧ roundingFile.zc = 0 ∧
    roundingFile.n0 = ⟨2 ^ 100⟩ ∧ roundingFile.n1 = ⟨1⟩ ∧
    (∀ scm_page_parent : Nat → Nat,
      roundingFile.bounds scm_page_parent 1 0 = some (⟨0⟩, ⟨0⟩)) ∧
    (∀ scm_page_parent : Nat → Nat,
      roundingFile.bounds scm_page_parent 1 0 ≠ some (roundingFile.n1, roundingFile.n1)) := by
  have hcal : roundingFile.calibrate ((1 : Int) : Binary32) = ⟨0⟩ := by
    show (⟨round32 ((2 : ℚ) ^ 100 +
      round32 (round32 ((1 : Int) : ℚ) * round32 (1 - 2 ^ 100)))⟩ : Binary32) = ⟨0⟩
    rw [Int.cast_one, round32_one, round32_one_sub_two_pow, one_mul, round32_neg_two_pow,
      add_neg_cancel, round32_zero]
  have hb : ∀ parent : Nat → Nat, roundingFile.bounds parent 1 0 = some (⟨0⟩, ⟨0⟩) := by
    intro parent
    obtain ⟨⟨ai, zi⟩, hp⟩ := scm_file.boundsWalk_terminates roundingFile parent
      0 1 0 NOT_FOUND NOT_FOUND (show (0 : Nat) < 6 by decide) (by decide)
    rw [scm_file.bounds_of_walk _ _ _ _ _ _ hp,
      scm_file.boundsDecode_without_statistics _ _ _ rfl rfl, hcal]
  refine ⟨rfl, rfl, rfl, rfl, hb, fun parent => ?_⟩
  rw [hb parent]
  decide

/-- Claim C3, amended. For a catalog with no statistics and every page whose
parent chain reaches a root, `scm_file::bounds` returns `(x, x)` where `x` is
`n0 + 1.0 * (n1 - n0)` as the arithmetic of `float` evaluates it; where that
arithmetic is exact, as in a field, `x` is `n1`. -/
theorem bounds_without_statistics :
    (∀ (F : Type) [Add F] [Sub F] [Mul F] [Div F] [IntCast F] (f : scm_file F)
      (scm_page_parent : Nat → Nat) (i k fuel : Nat),
      f.ac = 0 → f.zc = 0 → scm_page_parent^[k] i < 6 → k < fuel →
      f.bounds scm_page_parent fuel i =
        some (f.n0 + ((1 : Int) : F) * (f.n1 - f.n0),
          f.n0 + ((1 : Int) : F) * (f.n1 - f.n0))) ∧
    (∀ (F : Type) [Field F] (f : scm_file F)
      (scm_page_parent : Nat → Nat) (i k fuel : Nat),
      f.ac = 0 → f.zc = 0 → scm_page_parent^[k] i < 6 → k < fuel →
      f.bounds scm_page_parent fuel i = some (f.n1, f.n1)) := by
  have hgen : ∀ (F : Type) [Add F] [Sub F] [Mul F] [Div F] [IntCast F] (f : scm_file F)
      (scm_page_parent : Nat → Nat) (i k fuel : Nat),
      f.ac = 0 → f.zc = 0 → scm_page_parent^[k] i < 6 → k < fuel →
      f.bounds scm_page_parent fuel i =
        some (f.n0 + ((1 : Int) : F) * (f.n1 - f.n0),
          f.n0 + ((1 : Int) : F) * (f.n1 - f.n0)) := by
    intro F _ _ _ _ _ f parent i k fuel hac hzc hk hfuel
    obtain ⟨⟨ai, zi⟩, hp⟩ := f.boundsWalk_terminates parent k fuel i NOT_FOUND NOT_FOUND
      hk hfuel
    rw [f.bounds_of_walk _ _ _ _ _ hp, f.boundsDecode_without_statistics _ _ hac hzc]
    rfl
  refine ⟨hgen, ?_⟩
  intro F _ f parent i k fuel hac hzc hk hfuel
  rw [hgen F f parent i k fuel hac hzc hk hfuel]
  have hx : f.n0 + ((1 : Int) : F) * (f.n1 - f.n0) = f.n1 := by
    push_cast
    ring
  rw [hx]

/-- Claim C3 amended, at the sample catalog stripped of its statistics, in
exact arithmetic: page 62 gets `(10, 10)`, which is `(n1, n1)`. -/
theorem bounds_without_statistics_witness :
    bareFile.ac = 0 ∧ bareFile.zc = 0 ∧ sampleParent^[2] 62 < 6 ∧
    bareFile.bounds sampleParent 3 62 = some (10, 10) :=
  ⟨rfl, rfl, by decide,
    bounds_without_statistics.2 ℚ bareFile sampleParent 62 2 3 rfl rfl (by decide)
      (by decide)⟩

/-- Claim C4. When the walk of `scm_file::bounds` ends with a bound resolved
at catalog position `p`, the value returned for that bound is
`n0 + (v / K) * (n1 - n0)`, where `v` is element `p * c` of the statistic
buffer and `K` is 127 for 8-bit signed samples, 255 for other 8-bit samples,
32767 for 16-bit signed samples and 65535 for other 16-bit samples; for 32-bit
samples it is `n0 + v * (n1 - n0)`. -/
theorem bounds_decoding_table {F : Type} [Add F] [Sub F] [Mul F] [Div F] [IntCast F]
    (f : scm_file F) (scm_page_parent : Nat → Nat) (fuel i ai zi : Nat) (hfit : f.Fits)
    (hwalk : f.boundsWalk scm_page_parent fuel i NOT_FOUND NOT_FOUND = some (ai, zi)) :
    ∃ r0 r1 : F, f.bounds scm_page_parent fuel i = some (r0, r1) ∧
      (ai < f.ac →
        (f.b = 8 → f.g = 2 → r0 =
          f.n0 + ((f.av.asChar (ai * f.c) : Int) : F) / ((127 : Int) : F) * (f.n1 - f.n0)) ∧
        (f.b = 8 → f.g ≠ 2 → r0 =
          f.n0 + ((f.av.asUChar (ai * f.c) : Int) : F) / ((255 : Int) : F) * (f.n1 - f.n0)) ∧
        (f.b = 16 → f.g = 2 → r0 =
          f.n0 + ((f.av.asShort (ai * f.c) : Int) : F) / ((32767 : Int) : F) * (f.n1 - f.n0)) ∧
        (f.b = 16 → f.g ≠ 2 → r0 =
          f.n0 + ((f.av.asUShort (ai * f.c) : Int) : F) / ((65535 : Int) : F) * (f.n1 - f.n0)) ∧
        (f.b = 32 → r0 = f.n0 + f.av.asFloat (ai * f.c) * (f.n1 - f.n0))) ∧
      (zi < f.zc →
        (f.b = 8 → f.g = 2 → r1 =
          f.n0 + ((f.zv.asChar (zi * f.c) : Int) : F) / ((127 : Int) : F) * (f.n1 - f.n0)) ∧
        (f.b = 8 → f.g ≠ 2 → r1 =
          f.n0 + ((f.zv.asUChar (zi * f.c) : Int) : F) / ((255 : Int) : F) * (f.n1 - f.n0)) ∧
        (f.b = 16 → f.g = 2 → r1 =
          f.n0 + ((f.zv.asShort (zi * f.c) : Int) : F) / ((32767 : Int) : F) * (f.n1 - f.n0)) ∧
        (f.b = 16 → f.g ≠ 2 → r1 =
          f.n0 + ((f.zv.asUShort (zi * f.c) : Int) : F) / ((65535 : Int) : F) * (f.n1 - f.n0)) ∧
        (f.b = 32 → r1 = f.n0 + f.zv.asFloat (zi * f.c) * (f.n1 - f.n0))) := by
  obtain ⟨_, _, hA, hZ, _⟩ := hfit
  refine ⟨(f.boundsDecode ai zi).1, (f.boundsDecode ai zi).2,
    f.bounds_of_walk _ _ _ _ _ hwalk, fun hai => ?_, fun hzi => ?_⟩
  · have h1 : u64 (ai * f.c) = ai * f.c :=
      Nat.mod_eq_of_lt (lt_of_le_of_lt (Nat.mul_le_mul_right _ (Nat.le_of_lt hai)) hA)
    refine ⟨fun hb hg => ?_, fun hb hg => ?_, fun hb hg => ?_, fun hb hg => ?_, fun hb => ?_⟩
    all_goals
      unfold scm_file.boundsDecode
      simp only [hb, h1, hai, if_true]
    · simp only [hg, if_true]
    · simp only [hg, if_false]
    · simp only [hg, if_true]
      rfl
    · simp only [hg, if_false]
      rfl
    · rfl
  · have h2 : u64 (zi * f.c) = zi * f.c :=
      Nat.mod_eq_of_lt (lt_of_le_of_lt (Nat.mul_le_mul_right _ (Nat.le_of_lt hzi)) hZ)
    refine ⟨fun hb hg => ?_, fun hb hg => ?_, fun hb hg => ?_, fun hb hg => ?_, fun hb => ?_⟩
    all_goals
      unfold scm_file.boundsDecode
      simp only [hb, h2, hzi, if_true]
    · simp only [hg, if_true]
    · simp only [hg, if_false]
    · simp only [hg, if_true]
      rfl
    · simp only [hg, if_false]
      rfl
    · rfl

/-- Claim C4, at the sample catalog of unsigned 8-bit pages: the walk from
page 62 resolves both bounds at position 0, and the outputs are
`0 + 51 / 255 * (10 - 0)` and `0 + 204 / 255 * (10 - 0)`. -/
theorem bounds_decoding_table_witness :
    sampleFile.Fits ∧
    sampleFile.boundsWalk sampleParent 3 62 NOT_FOUND NOT_FOUND = some (0, 0) ∧
    sampleFile.bounds sampleParent 3 62 =
      some (0 + 51 / 255 * (10 - 0), 0 + 204 / 255 * (10 - 0)) := by
  have hidx : sampleFile.index 2 = 0 :=
    sampleFile.index_of_getElem 2 0 (by decide) (by decide) (by decide) rfl
  have hwalk : sampleFile.boundsWalk sampleParent 3 62 NOT_FOUND NOT_FOUND = some (0, 0) :=
    sampleFile.boundsWalk_to_root sampleParent 2 (by decide) (by decide) rfl rfl hidx
      2 3 62 NOT_FOUND NOT_FOUND (by decide) (by decide) (by decide) (by decide) (by decide)
  refine ⟨by decide, hwalk, ?_⟩
  obtain ⟨r0, r1, hb, h0, h1⟩ :=
    bounds_decoding_table sampleFile sampleParent 3 62 0 0 (by decide) hwalk
  have e0 := (h0 (by decide)).2.1 rfl (by decide)
  have e1 := (h1 (by decide)).2.1 rfl (by decide)
  rw [hb, e0, e1]
  refine congrArg some (Prod.ext ?_ ?_)
  · show (0 : ℚ) + ((51 : Int) : ℚ) / ((255 : Int) : ℚ) * (10 - 0) = 0 + 51 / 255 * (10 - 0)
    norm_num
  · show (0 : ℚ) + ((204 : Int) : ℚ) / ((255 : Int) : ℚ) * (10 - 0) = 0 + 204 / 255 * (10 - 0)
    norm_num

/-! ## Subdivision of a face -/

section math3d

variable {R : Type} [LinearOrderedField R]

theorem isSqrt_real : IsSqrt Real.sqrt :=
  fun x hx => ⟨Real.sqrt_nonneg x, Real.mul_self_sqrt hx⟩

theorem IsSqrt.unique {sqrt : R → R} (hsqrt : IsSqrt sqrt) {x y : R} (hy : 0 ≤ y)
    (hxy : y * y = x) : sqrt x = y := by
  have hx : 0 ≤ x := hxy ▸ mul_self_nonneg y
  obtain ⟨h0, h1⟩ := hsqrt x hx
  exact (mul_self_inj h0 hy).1 (h1.trans hxy.symm)

theorem vdot_self_nonneg (v : vec3 R) : 0 ≤ vdot v v := by
  unfold vdot
  nlinarith [mul_self_nonneg v.x, mul_self_nonneg v.y, mul_self_nonneg v.z]

theorem vdot_self_pos (v : vec3 R) (hv : v ≠ ⟨0, 0, 0⟩) : 0 < vdot v v := by
  rcases lt_or_eq_of_le (vdot_self_nonneg v) with h | h
  · exact h
  · exfalso
    apply hv
    unfold vdot at h
    have hx : v.x = 0 := by
      nlinarith [mul_self_nonneg v.x, mul_self_nonneg v.y, mul_self_nonneg v.z]
    have hy : v.y = 0 := by
      nlinarith [mul_self_nonneg v.x, mul_self_nonneg v.y, mul_self_nonneg v.z]
    have hz : v.z = 0 := by
      nlinarith [mul_self_nonneg v.x, mul_self_nonneg v.y, mul_self_nonneg v.z]
    cases v
    simp only at hx hy hz
    rw [hx, hy, hz]

theorem vlen_pos {sqrt : R → R} (hsqrt : IsSqrt sqrt) (v : vec3 R) (hv : v ≠ ⟨0, 0, 0⟩) :
    0 < vlen sqrt v := by
  have hp := vdot_self_pos v hv
  obtain ⟨h0, h1⟩ := hsqrt (vdot v v) (le_of_lt hp)
  unfold vlen
  rcases lt_or_eq_of_le h0 with h | h
  · exact h
  · rw [← h, mul_zero] at h1
    exact absurd h1 (ne_of_lt hp)

/-- Normalizing a vector other than zero gives a vector of magnitude 1. -/
theorem vlen_vnormalize {sqrt : R → R} (hsqrt : IsSqrt sqrt) (v : vec3 R)
    (hv : v ≠ ⟨0, 0, 0⟩) : vlen sqrt (vnormalize sqrt v) = 1 := by
  have hL := vlen_pos hsqrt v hv
  have hLL : vlen sqrt v * vlen sqrt v = vdot v v :=
    (hsqrt (vdot v v) (vdot_self_nonneg v)).2
  have hd : vdot (vnormalize sqrt v) (vnormalize sqrt v) = 1 := by
    have hne : vlen sqrt v ≠ 0 := ne_of_gt hL
    have : vdot (vnormalize sqrt v) (vnormalize sqrt v)
        = vdot v v / (vlen sqrt v * vlen sqrt v) := by
      unfold vnormalize
      simp only [vdot]
      field_simp
    rw [this, hLL]
    exact div_self (ne_of_gt (vdot_self_pos v hv))
  show sqrt (vdot (vnormalize sqrt v) (vnormalize sqrt v)) = 1
  rw [hd]
  exact hsqrt.unique zero_le_one (one_mul 1)

/-- Two vectors with the same normalization are parallel. -/
theorem vnormalize_parallel {sqrt : R → R} (u v : vec3 R) (hu : vlen sqrt u ≠ 0)
    (hv : vlen sqrt v ≠ 0) (h : vnormalize sqrt u = vnormalize sqrt v) :
    u.x * v.z = u.z * v.x := by
  have hx : u.x / vlen sqrt u = v.x / vlen sqrt v := congrArg vec3.x h
  have hz : u.z / vlen sqrt u = v.z / vlen sqrt v := congrArg vec3.z h
  rw [div_eq_div_iff hu hv] at hx hz
  have h1 : u.x * v.z * vlen sqrt v = u.z * v.x * vlen sqrt v := by
    calc u.x * v.z * vlen sqrt v = (u.x * vlen sqrt v) * v.z := by ring
      _ = (v.x * vlen sqrt u) * v.z := by rw [hx]
      _ = v.x * (v.z * vlen sqrt u) := by ring
      _ = v.x * (u.z * vlen sqrt v) := by rw [hz]
      _ = u.z * v.x * vlen sqrt v := by ring
  exact mul_right_cancel₀ hv h1

/-- Dividing a vector by a positive number does not change its
normalization. -/
theorem vnormalize_div {sqrt : R → R} (hsqrt : IsSqrt sqrt) (v : vec3 R) (k : R)
    (hk : 0 < k) :
    vnormalize sqrt ⟨v.x / k, v.y / k, v.z / k⟩ = vnormalize sqrt v := by
  have hne : k ≠ 0 := ne_of_gt hk
  have hlen : vlen sqrt ⟨v.x / k, v.y / k, v.z / k⟩ = vlen sqrt v / k := by
    have h0 := (hsqrt (vdot v v) (vdot_self_nonneg v)).1
    have h1 := (hsqrt (vdot v v) (vdot_self_nonneg v)).2
    refine hsqrt.unique (div_nonneg h0 (le_of_lt hk)) ?_
    show sqrt (vdot v v) / k * (sqrt (vdot v v) / k)
      = v.x / k * (v.x / k) + v.y / k * (v.y / k) + v.z / k * (v.z / k)
    rw [div_mul_div_comm, h1]
    unfold vdot
    field_simp
  unfold vnormalize
  rw [hlen]
  simp only [div_div_div_cancel_right₀ hne]

end math3d

/-- In exact arithmetic, that is in an ordered field with an exact square
root, for a face with unit corners whose sums `a + b`, `c + d`, `a + c`,
`b + d` and `a + b + c + d` are not the zero vector, all sixteen corners of
the four children have magnitude 1. -/
theorem divide_unit_corners_exact {R : Type} [LinearOrderedField R] (sqrt : R → R)
    (hsqrt : IsSqrt sqrt) (F : face (vec3 R)) (hF : UnitCorners sqrt F)
    (hn : vadd F.a F.b ≠ ⟨0, 0, 0⟩) (hs : vadd F.c F.d ≠ ⟨0, 0, 0⟩)
    (he : vadd F.a F.c ≠ ⟨0, 0, 0⟩) (hw : vadd F.b F.d ≠ ⟨0, 0, 0⟩)
    (hm : vadd (vadd F.a F.b) (vadd F.c F.d) ≠ ⟨0, 0, 0⟩) :
    UnitCorners sqrt (sphDivide sqrt F).A ∧ UnitCorners sqrt (sphDivide sqrt F).B ∧
    UnitCorners sqrt (sphDivide sqrt F).C ∧ UnitCorners sqrt (sphDivide sqrt F).D := by
  obtain ⟨ha, hb, hc, hd⟩ := hF
  have n1 := vlen_vnormalize hsqrt _ hn
  have s1 := vlen_vnormalize hsqrt _ hs
  have e1 := vlen_vnormalize hsqrt _ he
  have w1 := vlen_vnormalize hsqrt _ hw
  have m1 := vlen_vnormalize hsqrt _ hm
  exact ⟨⟨ha, n1, e1, m1⟩, ⟨n1, hb, m1, w1⟩, ⟨e1, m1, hc, s1⟩, ⟨m1, w1, s1, hd⟩⟩

/-! ## Evaluating double-precision rounding -/

theorem roundHalfEven_of_gt_half (q : ℚ) (n : ℤ) (h1 : (n : ℚ) - 1 / 2 < q)
    (h2 : q < n) : roundHalfEven q = n := by
  have hfl : ⌊q⌋ = n - 1 := Int.floor_eq_iff.2 ⟨by push_cast; linarith, by push_cast; linarith⟩
  unfold roundHalfEven
  simp only [hfl]
  rw [if_neg (by push_cast; linarith), if_pos (by push_cast; linarith)]
  ring

/-- The value of `round64` at a number of binary exponent `k`, not below the
subnormal range, from the nearest integer `n` to its significand. -/
theorem round64_of_bounds (q : ℚ) (k n : ℤ) (hk : -1022 ≤ k) (h1 : (2 : ℚ) ^ k ≤ |q|)
    (h2 : |q| < (2 : ℚ) ^ (k + 1)) (h3 : roundHalfEven (q / 2 ^ (k - 52)) = n) :
    round64 q = n * 2 ^ (k - 52) := by
  have he : ulpExp64 q = k - 52 := by
    unfold ulpExp64
    rw [log2_eq_of_bounds _ k h1 h2]
    omega
  unfold round64
  rw [he, h3]

theorem round64_zero : round64 0 = 0 := by
  unfold round64
  rw [zero_div, roundHalfEven_of_lt_half 0 0 (by norm_num) (by norm_num)]
  simp

theorem round64_one : round64 1 = 1 := by
  rw [round64_of_bounds 1 0 (2 ^ 52) (by norm_num) (by norm_num) (by norm_num)
    (roundHalfEven_of_lt_half _ _ (by norm_num) (by norm_num))]
  norm_num

theorem round64_neg_one : round64 (-1) = -1 := by
  rw [round64_of_bounds (-1) 0 (-2 ^ 52) (by norm_num) (by norm_num) (by norm_num)
    (roundHalfEven_of_lt_half _ _ (by norm_num) (by norm_num))]
  norm_num

theorem round64_two : round64 2 = 2 := by
  rw [round64_of_bounds 2 1 (2 ^ 52) (by norm_num) (by norm_num) (by norm_num)
    (roundHalfEven_of_lt_half _ _ (by norm_num) (by norm_num))]
  norm_num


theorem Binary64.add_mk (p q : ℚ) : (⟨p⟩ + ⟨q⟩ : Binary64) = ⟨round64 (p + q)⟩ := rfl

theorem Binary64.mul_mk (p q : ℚ) : (⟨p⟩ * ⟨q⟩ : Binary64) = ⟨round64 (p * q)⟩ := rfl

theorem Binary64.div_mk (p q : ℚ) : (⟨p⟩ / ⟨q⟩ : Binary64) = ⟨round64 (p / q)⟩ := rfl

theorem Binary64.one_eq : (1 : Binary64) = ⟨1⟩ := rfl

/-- The value of `sqrtRound64` at a positive number of binary exponent `k`,
from the integer part `s` of the scaled root. -/
theorem sqrtRound64_of_bounds (q : ℚ) (k e : ℤ) (s : ℕ) (h1 : (2 : ℚ) ^ k ≤ q)
    (h2 : q < (2 : ℚ) ^ (k + 1)) (he : k / 2 - 52 = e)
    (hs1 : (s : ℚ) ^ 2 ≤ q / 2 ^ (2 * e)) (hs2 : q / 2 ^ (2 * e) < ((s : ℚ) + 1) ^ 2) :
    sqrtRound64 q =
      if q / 2 ^ (2 * e) < ((s : ℚ) + 1 / 2) ^ 2 then (s : ℚ) * 2 ^ e
      else ((s : ℚ) + 1) * 2 ^ e := by
  have hq : 0 < q := lt_of_lt_of_le (by positivity) h1
  have hD : (0 : ℚ) ≤ q / 2 ^ (2 * e) := by positivity
  have hfl : (0 : ℤ) ≤ ⌊q / (2 : ℚ) ^ (2 * e)⌋ := Int.floor_nonneg.2 hD
  have hsq : Nat.sqrt ⌊q / (2 : ℚ) ^ (2 * e)⌋.toNat = s := by
    symm
    rw [Nat.eq_sqrt]
    constructor
    · have : ((s * s : ℕ) : ℤ) ≤ ⌊q / (2 : ℚ) ^ (2 * e)⌋ := by
        rw [Int.le_floor]
        push_cast
        nlinarith [hs1]
      omega
    · have : ⌊q / (2 : ℚ) ^ (2 * e)⌋ < (((s + 1) * (s + 1) : ℕ) : ℤ) := by
        rw [Int.floor_lt]
        push_cast
        nlinarith [hs2]
      omega
  unfold sqrtRound64
  rw [if_neg (not_le.2 hq)]
  simp only [log2_eq_of_bounds q k h1 h2, he, hsq]

theorem sqrtRound64_one : sqrtRound64 1 = 1 := by
  rw [sqrtRound64_of_bounds 1 0 (-52) (2 ^ 52) (by norm_num) (by norm_num) (by norm_num)
    (by norm_num) (by norm_num), if_pos (by norm_num)]
  norm_num

theorem sqrtRound64_two : sqrtRound64 2 = 6369051672525773 / 2 ^ 52 := by
  rw [sqrtRound64_of_bounds 2 1 (-52) 6369051672525772 (by norm_num) (by norm_num) (by norm_num)
    (by norm_num) (by norm_num), if_neg (by norm_num)]
  norm_num


/-- The quotient of 1 by the `double` nearest to `√2`. -/
theorem round64_inv_sqrt_two :
    round64 (1 / (6369051672525773 / 2 ^ 52)) = 6369051672525772 / 2 ^ 53 := by
  rw [round64_of_bounds _ (-1) 6369051672525772 (by norm_num)
    (by rw [abs_of_pos (by norm_num)]; norm_num) (by rw [abs_of_pos (by norm_num)]; norm_num)
    (roundHalfEven_of_lt_half _ _ (by norm_num) (by norm_num))]
  norm_num

/-- The square of that quotient. -/
theorem round64_sq_inv_sqrt_two :
    round64 (6369051672525772 / 2 ^ 53 * (6369051672525772 / 2 ^ 53))
      = 9007199254740990 / 2 ^ 54 := by
  rw [round64_of_bounds _ (-2) 9007199254740990 (by norm_num)
    (by rw [abs_of_pos (by norm_num)]; norm_num) (by rw [abs_of_pos (by norm_num)]; norm_num)
    (roundHalfEven_of_lt_half _ _ (by norm_num) (by norm_num))]
  norm_num

theorem round64_one_sub_ulp :
    round64 (9007199254740990 / 2 ^ 53) = 9007199254740990 / 2 ^ 53 := by
  rw [round64_of_bounds _ (-1) 9007199254740990 (by norm_num)
    (by rw [abs_of_pos (by norm_num)]; norm_num) (by rw [abs_of_pos (by norm_num)]; norm_num)
    (roundHalfEven_of_lt_half _ _ (by norm_num) (by norm_num))]
  norm_num

theorem sqrtRound64_one_sub_ulp :
    sqrtRound64 (9007199254740990 / 2 ^ 53) = 9007199254740991 / 2 ^ 53 := by
  rw [sqrtRound64_of_bounds _ (-1) (-53) 9007199254740990 (by norm_num) (by norm_num)
    (by norm_num) (by norm_num) (by norm_num), if_neg (by norm_num)]
  norm_num


theorem axisFace64_north :
    (sphDivide sqrt64 axisFace64).A.b
      = ⟨⟨6369051672525772 / 2 ^ 53⟩, ⟨6369051672525772 / 2 ^ 53⟩, ⟨0⟩⟩ := by
  show vnormalize sqrt64 (vadd axisFace64.a axisFace64.b) = _
  have hsum : vadd axisFace64.a axisFace64.b = ⟨⟨1⟩, ⟨1⟩, ⟨0⟩⟩ := by
    simp only [vadd, axisFace64, Binary64.add_mk, add_zero, zero_add, round64_one,
      round64_zero]
  have hlen : vlen sqrt64 (⟨⟨1⟩, ⟨1⟩, ⟨0⟩⟩ : vec3 Binary64) = ⟨6369051672525773 / 2 ^ 52⟩ := by
    simp only [vlen, vdot, sqrt64, Binary64.mul_mk, Binary64.add_mk, mul_one, mul_zero,
      round64_one, round64_zero, add_zero, one_add_one_eq_two, round64_two, sqrtRound64_two]
  rw [hsum]
  unfold vnormalize
  rw [hlen]
  simp only [Binary64.div_mk, zero_div, round64_zero, round64_inv_sqrt_two]

theorem axisFace64_north_vlen :
    vlen sqrt64 (⟨⟨6369051672525772 / 2 ^ 53⟩, ⟨6369051672525772 / 2 ^ 53⟩, ⟨0⟩⟩ :
      vec3 Binary64) = ⟨9007199254740991 / 2 ^ 53⟩ := by
  have h2 : (9007199254740990 / 2 ^ 54 + 9007199254740990 / 2 ^ 54 : ℚ)
      = 9007199254740990 / 2 ^ 53 := by norm_num
  simp only [vlen, vdot, sqrt64, Binary64.mul_mk, Binary64.add_mk, mul_zero, round64_zero,
    add_zero, round64_sq_inv_sqrt_two, h2, round64_one_sub_ulp, sqrtRound64_one_sub_ulp]

theorem axisFace64_unit : UnitCorners sqrt64 axisFace64 := by
  have h1 : ((-1 : ℚ) * -1) = 1 := by norm_num
  refine ⟨?_, ?_, ?_, ?_⟩
  all_goals
    simp only [vlen, vdot, sqrt64, axisFace64, Binary64.mul_mk, Binary64.add_mk, mul_one,
      mul_zero, h1, round64_one, round64_zero, add_zero, zero_add, sqrtRound64_one,
      Binary64.one_eq]


/-! ## The rounding error of double-precision arithmetic -/

theorem roundHalfEven_abs_sub_le (q : ℚ) : |(roundHalfEven q : ℚ) - q| ≤ 1 / 2 := by
  have h1 : (⌊q⌋ : ℚ) ≤ q := Int.floor_le q
  have h2 : q < ⌊q⌋ + 1 := Int.lt_floor_add_one q
  unfold roundHalfEven
  simp only
  split_ifs with c1 c2 c3
  · rw [abs_le]
    constructor <;> linarith
  · rw [abs_le]
    constructor <;> (push_cast; linarith)
  · rw [abs_le]
    constructor <;> linarith
  · rw [abs_le]
    constructor <;> (push_cast; linarith)

theorem roundHalfEven_nonneg (q : ℚ) (hq : 0 ≤ q) : 0 ≤ roundHalfEven q := by
  have h0 : (0 : ℤ) ≤ ⌊q⌋ := Int.floor_nonneg.2 hq
  unfold roundHalfEven
  simp only
  split_ifs <;> omega

theorem round64_nonneg (q : ℚ) (hq : 0 ≤ q) : 0 ≤ round64 q := by
  unfold round64
  have h := roundHalfEven_nonneg (q / 2 ^ ulpExp64 q) (by positivity)
  have h2 : (0 : ℚ) ≤ (roundHalfEven (q / 2 ^ ulpExp64 q) : ℚ) := by exact_mod_cast h
  positivity

/-- The error of rounding to binary64: at most half a unit in the last place,
which is the fraction `2 ^ (-53)` of the magnitude, or `2 ^ (-1075)` in the
subnormal range. -/
theorem round64_abs_sub_le (q : ℚ) :
    |round64 q - q| ≤ |q| / 2 ^ 53 + 1 / 2 ^ 1075 := by
  by_cases hq : q = 0
  · rw [hq, round64_zero]
    norm_num
  have hpos : (0 : ℚ) < 2 ^ ulpExp64 q := by positivity
  have herr : |round64 q - q| ≤ 2 ^ ulpExp64 q / 2 := by
    have h := roundHalfEven_abs_sub_le (q / 2 ^ ulpExp64 q)
    have e : round64 q - q
        = ((roundHalfEven (q / 2 ^ ulpExp64 q) : ℚ) - q / 2 ^ ulpExp64 q) * 2 ^ ulpExp64 q := by
      unfold round64
      field_simp
    rw [e, abs_mul, abs_of_pos hpos]
    calc |(roundHalfEven (q / 2 ^ ulpExp64 q) : ℚ) - q / 2 ^ ulpExp64 q| * 2 ^ ulpExp64 q
        ≤ 1 / 2 * 2 ^ ulpExp64 q := mul_le_mul_of_nonneg_right h (le_of_lt hpos)
      _ = 2 ^ ulpExp64 q / 2 := by ring
  have habs : 0 < |q| := abs_pos.2 hq
  have hlog : (2 : ℚ) ^ Int.log 2 |q| ≤ |q| := by
    have := Int.zpow_log_le_self (b := 2) (by norm_num) habs
    exact_mod_cast this
  have hcase : (2 : ℚ) ^ ulpExp64 q / 2 ≤ |q| / 2 ^ 53 + 1 / 2 ^ 1075 := by
    unfold ulpExp64
    rcases max_cases (Int.log 2 |q| - 52) (-1074) with ⟨h1, _⟩ | ⟨h1, _⟩
    · rw [h1, zpow_sub₀ (by norm_num : (2 : ℚ) ≠ 0)]
      have h52 : (2 : ℚ) ^ (52 : ℤ) = 2 ^ 52 := by norm_num
      rw [h52]
      have : (2 : ℚ) ^ Int.log 2 |q| / 2 ^ 52 / 2 = 2 ^ Int.log 2 |q| / 2 ^ 53 := by ring
      rw [this]
      have h3 : (2 : ℚ) ^ Int.log 2 |q| / 2 ^ 53 ≤ |q| / 2 ^ 53 :=
        div_le_div_of_nonneg_right hlog (by positivity)
      have h4 : (0 : ℚ) ≤ 1 / 2 ^ 1075 := by positivity
      linarith
    · rw [h1]
      have h5 : (2 : ℚ) ^ (-1074 : ℤ) / 2 = 1 / 2 ^ 1075 := by
        rw [zpow_neg]
        norm_num
      rw [h5]
      have : (0 : ℚ) ≤ |q| / 2 ^ 53 := by positivity
      linarith
  exact le_trans herr hcase


/-- The error of the rounded square root: the square of the result is the
argument up to the factor `(1 ± 2 ^ (-53)) ^ 2`. -/
theorem sqrtRound64_bounds (q : ℚ) (hq : 0 < q) :
    0 < sqrtRound64 q ∧
    (1 - 1 / 2 ^ 53) ^ 2 * (sqrtRound64 q * sqrtRound64 q) ≤ q ∧
    q ≤ (1 + 1 / 2 ^ 53) ^ 2 * (sqrtRound64 q * sqrtRound64 q) := by
  obtain ⟨e, he⟩ : ∃ e : ℤ, e = Int.log 2 q / 2 - 52 := ⟨_, rfl⟩
  obtain ⟨D, hD⟩ : ∃ D : ℚ, D = q / 2 ^ (2 * e) := ⟨_, rfl⟩
  obtain ⟨s, hs⟩ : ∃ s : ℕ, s = Nat.sqrt ⌊D⌋.toNat := ⟨_, rfl⟩
  have hE : (0 : ℚ) < 2 ^ e := by positivity
  have hE2 : (2 : ℚ) ^ (2 * e) = 2 ^ e * 2 ^ e := by
    rw [two_mul, zpow_add₀ (by norm_num : (2 : ℚ) ≠ 0)]
  have hqD : q = D * (2 ^ e * 2 ^ e) := by
    rw [hD, hE2]
    field_simp
  have hlog : (2 : ℚ) ^ Int.log 2 q ≤ q := by
    have := Int.zpow_log_le_self (b := 2) (by norm_num) hq
    exact_mod_cast this
  have hD104 : (2 : ℚ) ^ 104 ≤ D := by
    have h1 : (2 : ℚ) ^ (2 * e + 104) ≤ 2 ^ Int.log 2 q :=
      zpow_le_zpow_right₀ (by norm_num) (by omega)
    have h2 : (2 : ℚ) ^ (2 * e + 104) = 2 ^ (2 * e) * 2 ^ 104 := by
      rw [zpow_add₀ (by norm_num : (2 : ℚ) ≠ 0)]
      norm_num
    rw [hD, le_div_iff₀ (by positivity)]
    calc (2 : ℚ) ^ 104 * 2 ^ (2 * e) = 2 ^ (2 * e + 104) := by rw [h2]; ring
      _ ≤ 2 ^ Int.log 2 q := h1
      _ ≤ q := hlog
  have hD0 : (0 : ℚ) ≤ D := le_trans (by positivity) hD104
  have hfl0 : (0 : ℤ) ≤ ⌊D⌋ := Int.floor_nonneg.2 hD0
  have hN : ((⌊D⌋.toNat : ℕ) : ℤ) = ⌊D⌋ := Int.toNat_of_nonneg hfl0
  have hs1 : (s : ℚ) * s ≤ D := by
    have h := Nat.sqrt_le ⌊D⌋.toNat
    rw [← hs] at h
    have h2 : ((s * s : ℕ) : ℤ) ≤ ⌊D⌋ := by
      rw [← hN]
      exact_mod_cast h
    have h3 := Int.le_floor.1 h2
    push_cast at h3
    exact h3
  have hs2 : D < ((s : ℚ) + 1) * (s + 1) := by
    have h := Nat.lt_succ_sqrt ⌊D⌋.toNat
    rw [← hs] at h
    have h2 : ⌊D⌋ < (((s + 1) * (s + 1) : ℕ) : ℤ) := by
      rw [← hN]
      exact_mod_cast h
    have h3 := Int.floor_lt.1 h2
    push_cast at h3
    exact h3
  have hs52 : (2 : ℚ) ^ 52 ≤ (s : ℚ) + 1 := by
    by_contra hcon
    have hlt : (s : ℚ) + 1 < 2 ^ 52 := not_le.1 hcon
    have h0 : (0 : ℚ) ≤ (s : ℚ) + 1 := by positivity
    have : ((s : ℚ) + 1) * (s + 1) < 2 ^ 52 * 2 ^ 52 := mul_self_lt_mul_self h0 hlt
    have h104 : (2 : ℚ) ^ 52 * 2 ^ 52 = 2 ^ 104 := by norm_num
    linarith
  have hval : sqrtRound64 q
      = if D < ((s : ℚ) + 1 / 2) ^ 2 then (s : ℚ) * 2 ^ e else ((s : ℚ) + 1) * 2 ^ e := by
    unfold sqrtRound64
    rw [if_neg (not_le.2 hq)]
    simp only [← he, ← hD, ← hs]
  have hs0 : (0 : ℚ) ≤ s := Nat.cast_nonneg s
  rw [hval]
  split_ifs with hc
  · have hspos : (2 : ℚ) ^ 52 ≤ s := by
      by_contra hcon
      have hlt : (s : ℚ) < 2 ^ 52 := not_le.1 hcon
      have hsn : s < 2 ^ 52 := by exact_mod_cast hlt
      have hsn2 : (s : ℚ) + 1 ≤ 2 ^ 52 := by exact_mod_cast hsn
      have h0 : (0 : ℚ) ≤ (s : ℚ) + 1 / 2 := by positivity
      have : ((s : ℚ) + 1 / 2) * (s + 1 / 2) < 2 ^ 52 * 2 ^ 52 :=
        mul_self_lt_mul_self h0 (by linarith)
      have h104 : (2 : ℚ) ^ 52 * 2 ^ 52 = 2 ^ 104 := by norm_num
      rw [sq] at hc
      linarith
    have hsp : (0 : ℚ) < s := lt_of_lt_of_le (by positivity) hspos
    refine ⟨by positivity, ?_, ?_⟩
    · have h1 : (1 - 1 / 2 ^ 53 : ℚ) ^ 2 * ((s : ℚ) * 2 ^ e * ((s : ℚ) * 2 ^ e))
          = (1 - 1 / 2 ^ 53) ^ 2 * ((s : ℚ) * s) * (2 ^ e * 2 ^ e) := by ring
      rw [h1, hqD]
      refine mul_le_mul_of_nonneg_right ?_ (by positivity)
      have : (1 - 1 / 2 ^ 53 : ℚ) ^ 2 * ((s : ℚ) * s) ≤ (s : ℚ) * s := by
        have h2 : (1 - 1 / 2 ^ 53 : ℚ) ^ 2 ≤ 1 := by norm_num
        have h3 : (0 : ℚ) ≤ (s : ℚ) * s := by positivity
        nlinarith
      linarith
    · have h1 : (1 + 1 / 2 ^ 53 : ℚ) ^ 2 * ((s : ℚ) * 2 ^ e * ((s : ℚ) * 2 ^ e))
          = ((1 + 1 / 2 ^ 53) * (s : ℚ)) ^ 2 * (2 ^ e * 2 ^ e) := by ring
      rw [h1, hqD]
      refine mul_le_mul_of_nonneg_right ?_ (by positivity)
      have h2 : (s : ℚ) + 1 / 2 ≤ (1 + 1 / 2 ^ 53) * (s : ℚ) := by
        have : (1 : ℚ) / 2 ≤ 1 / 2 ^ 53 * s := by
          have h53 : (1 : ℚ) / 2 = 1 / 2 ^ 53 * 2 ^ 52 := by norm_num
          rw [h53]
          exact mul_le_mul_of_nonneg_left hspos (by positivity)
        linarith
      have h3 : ((s : ℚ) + 1 / 2) ^ 2 ≤ ((1 + 1 / 2 ^ 53) * (s : ℚ)) ^ 2 :=
        pow_le_pow_left₀ (by positivity) h2 2
      linarith
  · have hc2 : ((s : ℚ) + 1 / 2) ^ 2 ≤ D := not_lt.1 hc
    have hm : (2 : ℚ) ^ 52 ≤ (s : ℚ) + 1 := hs52
    refine ⟨by positivity, ?_, ?_⟩
    · have h1 : (1 - 1 / 2 ^ 53 : ℚ) ^ 2 * (((s : ℚ) + 1) * 2 ^ e * (((s : ℚ) + 1) * 2 ^ e))
          = ((1 - 1 / 2 ^ 53) * ((s : ℚ) + 1)) ^ 2 * (2 ^ e * 2 ^ e) := by ring
      rw [h1, hqD]
      refine mul_le_mul_of_nonneg_right ?_ (by positivity)
      have h2 : (1 - 1 / 2 ^ 53) * ((s : ℚ) + 1) ≤ (s : ℚ) + 1 / 2 := by
        have : (1 : ℚ) / 2 ≤ 1 / 2 ^ 53 * ((s : ℚ) + 1) := by
          have h53 : (1 : ℚ) / 2 = 1 / 2 ^ 53 * 2 ^ 52 := by norm_num
          rw [h53]
          exact mul_le_mul_of_nonneg_left hm (by positivity)
        linarith
      have h0 : (0 : ℚ) ≤ (1 - 1 / 2 ^ 53) * ((s : ℚ) + 1) :=
        mul_nonneg (by norm_num) (by positivity)
      have h3 : ((1 - 1 / 2 ^ 53) * ((s : ℚ) + 1)) ^ 2 ≤ ((s : ℚ) + 1 / 2) ^ 2 :=
        pow_le_pow_left₀ h0 h2 2
      linarith
    · have h1 : (1 + 1 / 2 ^ 53 : ℚ) ^ 2 * (((s : ℚ) + 1) * 2 ^ e * (((s : ℚ) + 1) * 2 ^ e))
          = (1 + 1 / 2 ^ 53) ^ 2 * (((s : ℚ) + 1) * ((s : ℚ) + 1)) * (2 ^ e * 2 ^ e) := by ring
      rw [h1, hqD]
      refine mul_le_mul_of_nonneg_right ?_ (by positivity)
      have h2 : (1 : ℚ) ≤ (1 + 1 / 2 ^ 53) ^ 2 := by norm_num
      have h3 : (0 : ℚ) ≤ ((s : ℚ) + 1) * ((s : ℚ) + 1) := by positivity
      nlinarith


/-- The error of a rounded sum or product of non-negative numbers. -/
theorem round64_bounds_of_nonneg (t : ℚ) (ht : 0 ≤ t) :
    0 ≤ round64 t ∧ t - (t / 2 ^ 53 + 1 / 2 ^ 1075) ≤ round64 t ∧
    round64 t ≤ t + (t / 2 ^ 53 + 1 / 2 ^ 1075) := by
  have h := round64_abs_sub_le t
  rw [abs_of_nonneg ht, abs_le] at h
  exact ⟨round64_nonneg t ht, by linarith [h.1], by linarith [h.2]⟩

/-- The error of the inner product of a vector with itself as `vdot` computes
it in binary64, relative to the exact sum of squares `S`. -/
theorem vdot_self_bounds (X Y Z : ℚ) (hX : 0 ≤ X) (hY : 0 ≤ Y) (hZ : 0 ≤ Z)
    (hS : 1 / 2 ^ 200 ≤ X + Y + Z) :
    (1 - 4 / 2 ^ 53) * (X + Y + Z) ≤ round64 (round64 (round64 X + round64 Y) + round64 Z) ∧
    round64 (round64 (round64 X + round64 Y) + round64 Z) ≤ (1 + 4 / 2 ^ 53) * (X + Y + Z) := by
  obtain ⟨a0, a1, a2⟩ := round64_bounds_of_nonneg X hX
  obtain ⟨b0, b1, b2⟩ := round64_bounds_of_nonneg Y hY
  obtain ⟨c0, c1, c2⟩ := round64_bounds_of_nonneg Z hZ
  obtain ⟨d0, d1, d2⟩ := round64_bounds_of_nonneg (round64 X + round64 Y) (by linarith)
  obtain ⟨e0, e1, e2⟩ := round64_bounds_of_nonneg
    (round64 (round64 X + round64 Y) + round64 Z) (by linarith)
  have hη : (1 : ℚ) / 2 ^ 1075 ≤ 1 / 2 ^ 875 * (X + Y + Z) := by
    have : (1 : ℚ) / 2 ^ 1075 = 1 / 2 ^ 875 * (1 / 2 ^ 200) := by norm_num
    rw [this]
    exact mul_le_mul_of_nonneg_left hS (by positivity)
  constructor
  · linarith
  · linarith


/-- The square of a rounded number of magnitude at most 2, relative to the
square of the exact number. -/
theorem sq_round_bounds (t n : ℚ) (h : |n - t| ≤ |t| / 2 ^ 53 + 1 / 2 ^ 1075)
    (ht : |t| ≤ 2) :
    (1 - 1 / 2 ^ 53) ^ 2 * (t * t) - 4 / 2 ^ 1075 ≤ n * n ∧
    n * n ≤ (1 + 1 / 2 ^ 53) ^ 2 * (t * t) + 5 / 2 ^ 1075 := by
  have ha0 : 0 ≤ |t| := abs_nonneg t
  have hb0 : 0 ≤ |n| := abs_nonneg n
  have hab : |(|n| - |t|)| ≤ |t| / 2 ^ 53 + 1 / 2 ^ 1075 :=
    le_trans (abs_abs_sub_abs_le_abs_sub n t) h
  rw [abs_le] at hab
  obtain ⟨hlo, hhi⟩ := hab
  rw [← abs_mul_abs_self t, ← abs_mul_abs_self n]
  constructor
  · by_cases hC : (1 - 1 / 2 ^ 53) * |t| ≤ 1 / 2 ^ 1075
    · have h0 : (0 : ℚ) ≤ (1 - 1 / 2 ^ 53) * |t| := mul_nonneg (by norm_num) ha0
      have h1 := mul_self_le_mul_self h0 hC
      have h2 : (1 - 1 / 2 ^ 53 : ℚ) * |t| * ((1 - 1 / 2 ^ 53) * |t|)
          = (1 - 1 / 2 ^ 53) ^ 2 * (|t| * |t|) := by ring
      have h3 : (1 : ℚ) / 2 ^ 1075 * (1 / 2 ^ 1075) ≤ 4 / 2 ^ 1075 := by norm_num
      have h4 : 0 ≤ |n| * |n| := mul_nonneg hb0 hb0
      linarith
    · have hCpos : 0 ≤ (1 - 1 / 2 ^ 53) * |t| - 1 / 2 ^ 1075 := by linarith [not_le.1 hC]
      have hle : (1 - 1 / 2 ^ 53) * |t| - 1 / 2 ^ 1075 ≤ |n| := by linarith
      have h1 := mul_self_le_mul_self hCpos hle
      have h2 : ((1 - 1 / 2 ^ 53 : ℚ) * |t| - 1 / 2 ^ 1075)
            * ((1 - 1 / 2 ^ 53) * |t| - 1 / 2 ^ 1075)
          = (1 - 1 / 2 ^ 53) ^ 2 * (|t| * |t|) - 2 * (1 - 1 / 2 ^ 53) * (1 / 2 ^ 1075) * |t|
            + 1 / 2 ^ 1075 * (1 / 2 ^ 1075) := by ring
      have h3 : (2 : ℚ) * (1 - 1 / 2 ^ 53) * (1 / 2 ^ 1075) * |t| ≤ 4 / 2 ^ 1075 := by
        have : (2 : ℚ) * (1 - 1 / 2 ^ 53) * (1 / 2 ^ 1075) * |t|
            ≤ 2 * (1 - 1 / 2 ^ 53) * (1 / 2 ^ 1075) * 2 :=
          mul_le_mul_of_nonneg_left ht (by norm_num)
        have h5 : (2 : ℚ) * (1 - 1 / 2 ^ 53) * (1 / 2 ^ 1075) * 2 ≤ 4 / 2 ^ 1075 := by
          norm_num
        linarith
      have h4 : (0 : ℚ) ≤ 1 / 2 ^ 1075 * (1 / 2 ^ 1075) := by positivity
      linarith
  · have hle : |n| ≤ (1 + 1 / 2 ^ 53) * |t| + 1 / 2 ^ 1075 := by linarith
    have h1 := mul_self_le_mul_self hb0 hle
    have h2 : ((1 + 1 / 2 ^ 53 : ℚ) * |t| + 1 / 2 ^ 1075)
          * ((1 + 1 / 2 ^ 53) * |t| + 1 / 2 ^ 1075)
        = (1 + 1 / 2 ^ 53) ^ 2 * (|t| * |t|) + 2 * (1 + 1 / 2 ^ 53) * (1 / 2 ^ 1075) * |t|
          + 1 / 2 ^ 1075 * (1 / 2 ^ 1075) := by ring
    have h3 : (2 : ℚ) * (1 + 1 / 2 ^ 53) * (1 / 2 ^ 1075) * |t|
        + 1 / 2 ^ 1075 * (1 / 2 ^ 1075) ≤ 5 / 2 ^ 1075 := by
      have : (2 : ℚ) * (1 + 1 / 2 ^ 53) * (1 / 2 ^ 1075) * |t|
          ≤ 2 * (1 + 1 / 2 ^ 53) * (1 / 2 ^ 1075) * 2 :=
        mul_le_mul_of_nonneg_left ht (by norm_num)
      have h5 : (2 : ℚ) * (1 + 1 / 2 ^ 53) * (1 / 2 ^ 1075) * 2
          + 1 / 2 ^ 1075 * (1 / 2 ^ 1075) ≤ 5 / 2 ^ 1075 := by norm_num
      linarith
    linarith

/-- The exact sum of the squares of the components that `vnormalize` computes
in binary64 differs from 1 by at most `2 ^ (-49)`, for a vector whose exact
sum of squares is at least `2 ^ (-200)`. -/
theorem normalize_sq_bounds (x y z : ℚ) (hS : 1 / 2 ^ 200 ≤ x * x + y * y + z * z) :
    |(round64 (x / sqrtRound64
          (round64 (round64 (round64 (x * x) + round64 (y * y)) + round64 (z * z)))) ^ 2
      + round64 (y / sqrtRound64
          (round64 (round64 (round64 (x * x) + round64 (y * y)) + round64 (z * z)))) ^ 2
      + round64 (z / sqrtRound64
          (round64 (round64 (round64 (x * x) + round64 (y * y)) + round64 (z * z)))) ^ 2)
      - 1| ≤ 1 / 2 ^ 49 := by
  obtain ⟨d, hd⟩ : ∃ d : ℚ,
      d = round64 (round64 (round64 (x * x) + round64 (y * y)) + round64 (z * z)) := ⟨_, rfl⟩
  rw [← hd]
  obtain ⟨hd1, hd2⟩ := vdot_self_bounds (x * x) (y * y) (z * z) (mul_self_nonneg x)
    (mul_self_nonneg y) (mul_self_nonneg z) hS
  rw [← hd] at hd1 hd2
  have hSpos : 0 < x * x + y * y + z * z := lt_of_lt_of_le (by positivity) hS
  have hdpos : 0 < d := by
    have : 0 < (1 - 4 / 2 ^ 53 : ℚ) * (x * x + y * y + z * z) :=
      mul_pos (by norm_num) hSpos
    linarith
  obtain ⟨hL0, hL1, hL2⟩ := sqrtRound64_bounds d hdpos
  obtain ⟨L, hL⟩ : ∃ L : ℚ, L = sqrtRound64 d := ⟨_, rfl⟩
  rw [← hL] at hL0 hL1 hL2 ⊢
  have hQ : 0 < L * L := mul_pos hL0 hL0
  have hLne : L ≠ 0 := ne_of_gt hL0
  obtain ⟨T, hT⟩ : ∃ T : ℚ, T = x / L * (x / L) + y / L * (y / L) + z / L * (z / L) :=
    ⟨_, rfl⟩
  have hTQ : T * (L * L) = x * x + y * y + z * z := by
    rw [hT]
    field_simp
  have hx0 : 0 ≤ x / L * (x / L) := mul_self_nonneg _
  have hy0 : 0 ≤ y / L * (y / L) := mul_self_nonneg _
  have hz0 : 0 ≤ z / L * (z / L) := mul_self_nonneg _
  have hT1 : (1 - 4 / 2 ^ 53) * T ≤ (1 + 1 / 2 ^ 53) ^ 2 := by
    refine le_of_mul_le_mul_right ?_ hQ
    have : (1 - 4 / 2 ^ 53) * T * (L * L) = (1 - 4 / 2 ^ 53) * (x * x + y * y + z * z) := by
      rw [← hTQ]
      ring
    linarith
  have hT2 : (1 - 1 / 2 ^ 53) ^ 2 ≤ (1 + 4 / 2 ^ 53) * T := by
    refine le_of_mul_le_mul_right ?_ hQ
    have : (1 + 4 / 2 ^ 53) * T * (L * L) = (1 + 4 / 2 ^ 53) * (x * x + y * y + z * z) := by
      rw [← hTQ]
      ring
    linarith
  have hT3 : T ≤ 2 := by
    have h1 : (1 - 4 / 2 ^ 53 : ℚ) * T ≤ (1 + 1 / 2 ^ 53) ^ 2 := hT1
    have h2 : (1 + 1 / 2 ^ 53 : ℚ) ^ 2 ≤ (1 - 4 / 2 ^ 53) * 2 := by norm_num
    have h3 : (0 : ℚ) < 1 - 4 / 2 ^ 53 := by norm_num
    exact le_of_mul_le_mul_left (le_trans h1 h2) h3
  have habs : ∀ t : ℚ, t * t ≤ 2 → |t| ≤ 2 := by
    intro t ht
    by_contra hcon
    have hlt : (2 : ℚ) < |t| := not_le.1 hcon
    have h1 : (2 : ℚ) * 2 < |t| * |t| := mul_self_lt_mul_self (by norm_num) hlt
    rw [abs_mul_abs_self] at h1
    linarith
  obtain ⟨ax1, ax2⟩ := sq_round_bounds (x / L) (round64 (x / L)) (round64_abs_sub_le _)
    (habs _ (by rw [hT] at hT3; linarith))
  obtain ⟨ay1, ay2⟩ := sq_round_bounds (y / L) (round64 (y / L)) (round64_abs_sub_le _)
    (habs _ (by rw [hT] at hT3; linarith))
  obtain ⟨az1, az2⟩ := sq_round_bounds (z / L) (round64 (z / L)) (round64_abs_sub_le _)
    (habs _ (by rw [hT] at hT3; linarith))
  have hup : (1 + 1 / 2 ^ 53 : ℚ) ^ 2 * T ≤ 1 + 15 / 2 ^ 53 := by
    have h1 : (1 + 1 / 2 ^ 53 : ℚ) ^ 2 * ((1 - 4 / 2 ^ 53) * T)
        ≤ (1 + 1 / 2 ^ 53) ^ 2 * (1 + 1 / 2 ^ 53) ^ 2 :=
      mul_le_mul_of_nonneg_left hT1 (by positivity)
    have h2 : (1 + 1 / 2 ^ 53 : ℚ) ^ 2 * (1 + 1 / 2 ^ 53) ^ 2
        ≤ (1 - 4 / 2 ^ 53) * (1 + 15 / 2 ^ 53) := by norm_num
    have h3 : (0 : ℚ) < 1 - 4 / 2 ^ 53 := by norm_num
    refine le_of_mul_le_mul_left ?_ h3
    calc (1 - 4 / 2 ^ 53 : ℚ) * ((1 + 1 / 2 ^ 53) ^ 2 * T)
        = (1 + 1 / 2 ^ 53) ^ 2 * ((1 - 4 / 2 ^ 53) * T) := by ring
      _ ≤ (1 + 1 / 2 ^ 53) ^ 2 * (1 + 1 / 2 ^ 53) ^ 2 := h1
      _ ≤ (1 - 4 / 2 ^ 53) * (1 + 15 / 2 ^ 53) := h2
  have hlow : 1 - 15 / 2 ^ 53 ≤ (1 - 1 / 2 ^ 53 : ℚ) ^ 2 * T := by
    have h1 : (1 - 1 / 2 ^ 53 : ℚ) ^ 2 * (1 - 1 / 2 ^ 53) ^ 2
        ≤ (1 - 1 / 2 ^ 53) ^ 2 * ((1 + 4 / 2 ^ 53) * T) :=
      mul_le_mul_of_nonneg_left hT2 (by positivity)
    have h2 : (1 + 4 / 2 ^ 53 : ℚ) * (1 - 15 / 2 ^ 53)
        ≤ (1 - 1 / 2 ^ 53) ^ 2 * (1 - 1 / 2 ^ 53) ^ 2 := by norm_num
    have h3 : (0 : ℚ) < 1 + 4 / 2 ^ 53 := by norm_num
    refine le_of_mul_le_mul_left ?_ h3
    calc (1 + 4 / 2 ^ 53 : ℚ) * (1 - 15 / 2 ^ 53)
        ≤ (1 - 1 / 2 ^ 53) ^ 2 * (1 - 1 / 2 ^ 53) ^ 2 := h2
      _ ≤ (1 - 1 / 2 ^ 53) ^ 2 * ((1 + 4 / 2 ^ 53) * T) := h1
      _ = (1 + 4 / 2 ^ 53) * ((1 - 1 / 2 ^ 53) ^ 2 * T) := by ring
  have hexp : (1 + 1 / 2 ^ 53 : ℚ) ^ 2 * T
      = (1 + 1 / 2 ^ 53) ^ 2 * (x / L * (x / L)) + (1 + 1 / 2 ^ 53) ^ 2 * (y / L * (y / L))
        + (1 + 1 / 2 ^ 53) ^ 2 * (z / L * (z / L)) := by
    rw [hT]
    ring
  have hexp2 : (1 - 1 / 2 ^ 53 : ℚ) ^ 2 * T
      = (1 - 1 / 2 ^ 53) ^ 2 * (x / L * (x / L)) + (1 - 1 / 2 ^ 53) ^ 2 * (y / L * (y / L))
        + (1 - 1 / 2 ^ 53) ^ 2 * (z / L * (z / L)) := by
    rw [hT]
    ring
  have hη : (15 : ℚ) / 2 ^ 53 + 15 / 2 ^ 1075 ≤ 1 / 2 ^ 49 := by norm_num
  rw [abs_le, sq, sq, sq]
  constructor <;> linarith


/-- In binary64 `vnormalize` gives a unit vector up to rounding for every
vector whose exact squared magnitude is at least `2 ^ (-200)`. -/
theorem vnormalize_nearUnit (v : vec3 Binary64) (h : 1 / 2 ^ 200 ≤ sqNorm v) :
    NearUnit (vnormalize sqrt64 v) := by
  have h2 : 1 / 2 ^ 200 ≤ v.x.val * v.x.val + v.y.val * v.y.val + v.z.val * v.z.val := by
    unfold sqNorm at h
    rw [sq, sq, sq] at h
    exact h
  exact normalize_sq_bounds v.x.val v.y.val v.z.val h2

/-- The magnitude of a unit vector up to rounding differs from 1 by at most
`2 ^ (-49)`. -/
theorem NearUnit.magnitude {v : vec3 Binary64} (h : NearUnit v) :
    |Real.sqrt ((sqNorm v : ℚ) : ℝ) - 1| ≤ 1 / 2 ^ 49 := by
  have h0 : (0 : ℚ) ≤ sqNorm v := by
    unfold sqNorm
    positivity
  have h0r : (0 : ℝ) ≤ ((sqNorm v : ℚ) : ℝ) := by exact_mod_cast h0
  have hr : (0 : ℝ) ≤ Real.sqrt ((sqNorm v : ℚ) : ℝ) := Real.sqrt_nonneg _
  have hsq : Real.sqrt ((sqNorm v : ℚ) : ℝ) * Real.sqrt ((sqNorm v : ℚ) : ℝ)
      = ((sqNorm v : ℚ) : ℝ) := Real.mul_self_sqrt h0r
  have hN : |((sqNorm v : ℚ) : ℝ) - 1| ≤ 1 / 2 ^ 49 := by
    have : ((|sqNorm v - 1| : ℚ) : ℝ) ≤ ((1 / 2 ^ 49 : ℚ) : ℝ) := by exact_mod_cast h
    push_cast at this
    exact this
  have hp : (0 : ℝ) ≤ Real.sqrt ((sqNorm v : ℚ) : ℝ) + 1 := by linarith
  have hfac : (Real.sqrt ((sqNorm v : ℚ) : ℝ) - 1) * (Real.sqrt ((sqNorm v : ℚ) : ℝ) + 1)
      = ((sqNorm v : ℚ) : ℝ) - 1 := by
    linear_combination hsq
  have hprod : |Real.sqrt ((sqNorm v : ℚ) : ℝ) - 1| * (Real.sqrt ((sqNorm v : ℚ) : ℝ) + 1)
      = |((sqNorm v : ℚ) : ℝ) - 1| := by
    rw [← hfac, abs_mul, abs_of_nonneg hp]
  have hle : |Real.sqrt ((sqNorm v : ℚ) : ℝ) - 1|
      ≤ |Real.sqrt ((sqNorm v : ℚ) : ℝ) - 1| * (Real.sqrt ((sqNorm v : ℚ) : ℝ) + 1) :=
    le_mul_of_one_le_right (abs_nonneg _) (by linarith)
  linarith

/-- The magnitude of a unit vector up to rounding, as `vlen` computes it in
binary64, differs from 1 by at most `2 ^ (-49)`. -/
theorem NearUnit.vlen_near {v : vec3 Binary64} (h : NearUnit v) :
    |(vlen sqrt64 v).val - 1| ≤ 1 / 2 ^ 49 := by
  unfold NearUnit sqNorm at h
  rw [sq, sq, sq, abs_le] at h
  obtain ⟨hN1, hN2⟩ := h
  have hS : 1 / 2 ^ 200 ≤ v.x.val * v.x.val + v.y.val * v.y.val + v.z.val * v.z.val := by
    have : (1 : ℚ) / 2 ^ 200 ≤ 1 - 1 / 2 ^ 49 := by norm_num
    linarith
  obtain ⟨hd1, hd2⟩ := vdot_self_bounds _ _ _ (mul_self_nonneg v.x.val)
    (mul_self_nonneg v.y.val) (mul_self_nonneg v.z.val) hS
  obtain ⟨d, hd⟩ : ∃ d : ℚ, d = round64 (round64 (round64 (v.x.val * v.x.val)
      + round64 (v.y.val * v.y.val)) + round64 (v.z.val * v.z.val)) := ⟨_, rfl⟩
  rw [← hd] at hd1 hd2
  have hval : (vlen sqrt64 v).val = sqrtRound64 d := by
    rw [hd]
    rfl
  have hdlow : (1 - 4 / 2 ^ 53 : ℚ) * (1 - 1 / 2 ^ 49) ≤ d := by
    have : (1 - 4 / 2 ^ 53 : ℚ) * (1 - 1 / 2 ^ 49)
        ≤ (1 - 4 / 2 ^ 53) * (v.x.val * v.x.val + v.y.val * v.y.val + v.z.val * v.z.val) :=
      mul_le_mul_of_nonneg_left (by linarith) (by norm_num)
    linarith
  have hdup : d ≤ (1 + 4 / 2 ^ 53 : ℚ) * (1 + 1 / 2 ^ 49) := by
    have : (1 + 4 / 2 ^ 53 : ℚ) * (v.x.val * v.x.val + v.y.val * v.y.val + v.z.val * v.z.val)
        ≤ (1 + 4 / 2 ^ 53) * (1 + 1 / 2 ^ 49) :=
      mul_le_mul_of_nonneg_left (by linarith) (by norm_num)
    linarith
  have hdpos : 0 < d := lt_of_lt_of_le (by norm_num) hdlow
  obtain ⟨hL0, hL1, hL2⟩ := sqrtRound64_bounds d hdpos
  rw [hval, abs_le]
  constructor
  · by_contra hcon
    have hlt : sqrtRound64 d < 1 - 1 / 2 ^ 49 := by linarith [not_le.1 hcon]
    have hsq : sqrtRound64 d * sqrtRound64 d < (1 - 1 / 2 ^ 49) * (1 - 1 / 2 ^ 49) :=
      mul_self_lt_mul_self (le_of_lt hL0) hlt
    have h1 : (1 + 1 / 2 ^ 53 : ℚ) ^ 2 * (sqrtRound64 d * sqrtRound64 d)
        ≤ (1 + 1 / 2 ^ 53) ^ 2 * ((1 - 1 / 2 ^ 49) * (1 - 1 / 2 ^ 49)) :=
      mul_le_mul_of_nonneg_left (le_of_lt hsq) (by positivity)
    have h2 : (1 + 1 / 2 ^ 53 : ℚ) ^ 2 * ((1 - 1 / 2 ^ 49) * (1 - 1 / 2 ^ 49))
        < (1 - 4 / 2 ^ 53) * (1 - 1 / 2 ^ 49) := by norm_num
    linarith
  · by_contra hcon
    have hlt : 1 + 1 / 2 ^ 49 < sqrtRound64 d := by linarith [not_le.1 hcon]
    have hsq : (1 + 1 / 2 ^ 49 : ℚ) * (1 + 1 / 2 ^ 49) < sqrtRound64 d * sqrtRound64 d :=
      mul_self_lt_mul_self (by norm_num) hlt
    have h1 : (1 - 1 / 2 ^ 53 : ℚ) ^ 2 * ((1 + 1 / 2 ^ 49) * (1 + 1 / 2 ^ 49))
        ≤ (1 - 1 / 2 ^ 53) ^ 2 * (sqrtRound64 d * sqrtRound64 d) :=
      mul_le_mul_of_nonneg_left (le_of_lt hsq) (by positivity)
    have h2 : (1 + 4 / 2 ^ 53 : ℚ) * (1 + 1 / 2 ^ 49)
        < (1 - 1 / 2 ^ 53) ^ 2 * ((1 + 1 / 2 ^ 49) * (1 + 1 / 2 ^ 49)) := by norm_num
    linarith

theorem sqrtRound64_zero : sqrtRound64 0 = 0 := by
  unfold sqrtRound64
  rw [if_pos le_rfl]

/-- The components of a unit vector up to rounding have magnitude at most 2. -/
theorem NearUnit.components_le {v : vec3 Binary64} (h : NearUnit v) :
    |v.x.val| ≤ 2 ∧ |v.y.val| ≤ 2 ∧ |v.z.val| ≤ 2 := by
  unfold NearUnit sqNorm at h
  rw [abs_le] at h
  obtain ⟨_, h2⟩ := h
  have hx : 0 ≤ v.x.val ^ 2 := sq_nonneg _
  have hy : 0 ≤ v.y.val ^ 2 := sq_nonneg _
  have hz : 0 ≤ v.z.val ^ 2 := sq_nonneg _
  have hsmall : (1 : ℚ) / 2 ^ 49 ≤ 1 := by norm_num
  have habs : ∀ t : ℚ, t ^ 2 ≤ 2 → |t| ≤ 2 := by
    intro t ht
    by_contra hcon
    have hlt : (2 : ℚ) < |t| := not_le.1 hcon
    have h1 : (2 : ℚ) * 2 < |t| * |t| := mul_self_lt_mul_self (by norm_num) hlt
    rw [abs_mul_abs_self, ← sq] at h1
    linarith
  exact ⟨habs _ (by linarith), habs _ (by linarith), habs _ (by linarith)⟩

/-- The rounded sum of two numbers of magnitude at most `B ≤ 8` has magnitude
at most `2 * B + 1`, and so at most any `C` above that. -/
theorem round64_add_abs_le (x y B C : ℚ) (hx : |x| ≤ B) (hy : |y| ≤ B) (hB : B ≤ 8)
    (hC : 2 * B + 1 ≤ C) : |round64 (x + y)| ≤ C := by
  have h := round64_abs_sub_le (x + y)
  have hsum : |x + y| ≤ 2 * B := le_trans (abs_add x y) (by linarith)
  have h1 : |round64 (x + y)| ≤ |round64 (x + y) - (x + y)| + |x + y| := by
    have := abs_add (round64 (x + y) - (x + y)) (x + y)
    rw [sub_add_cancel] at this
    exact this
  have h2 : |x + y| / 2 ^ 53 ≤ 16 / 2 ^ 53 :=
    div_le_div_of_nonneg_right (by linarith) (by positivity)
  have h3 : (16 : ℚ) / 2 ^ 53 + 1 / 2 ^ 1075 ≤ 1 := by norm_num
  linarith

/-- The sums that `sph_model::face::divide` forms from the corners of a face
with unit corners up to rounding have components of magnitude at most 11, so
that every intermediate value of the normalization is far from the overflow
threshold `2 ^ 1024` of binary64. -/
theorem divide_sums_in_range (F : face (vec3 Binary64)) (hF : NearUnitCorners F) :
    ∀ v ∈ [vadd F.a F.b, vadd F.c F.d, vadd F.a F.c, vadd F.b F.d,
        vadd (vadd F.a F.b) (vadd F.c F.d)],
      |v.x.val| ≤ 11 ∧ |v.y.val| ≤ 11 ∧ |v.z.val| ≤ 11 ∧ sqNorm v ≤ 363 := by
  obtain ⟨ha, hb, hc, hd⟩ := hF
  have hedge : ∀ p q : vec3 Binary64, NearUnit p → NearUnit q →
      |(vadd p q).x.val| ≤ 5 ∧ |(vadd p q).y.val| ≤ 5 ∧ |(vadd p q).z.val| ≤ 5 := by
    intro p q hp hq
    obtain ⟨p1, p2, p3⟩ := hp.components_le
    obtain ⟨q1, q2, q3⟩ := hq.components_le
    exact ⟨round64_add_abs_le _ _ 2 5 p1 q1 (by norm_num) (by norm_num),
      round64_add_abs_le _ _ 2 5 p2 q2 (by norm_num) (by norm_num),
      round64_add_abs_le _ _ 2 5 p3 q3 (by norm_num) (by norm_num)⟩
  have hsq : ∀ v : vec3 Binary64, |v.x.val| ≤ 11 → |v.y.val| ≤ 11 → |v.z.val| ≤ 11 →
      sqNorm v ≤ 363 := by
    intro v h1 h2 h3
    have e1 := pow_le_pow_left₀ (abs_nonneg _) h1 2
    have e2 := pow_le_pow_left₀ (abs_nonneg _) h2 2
    have e3 := pow_le_pow_left₀ (abs_nonneg _) h3 2
    rw [sq_abs] at e1 e2 e3
    unfold sqNorm
    norm_num at e1 e2 e3
    linarith
  have hall : ∀ v : vec3 Binary64, |v.x.val| ≤ 11 → |v.y.val| ≤ 11 → |v.z.val| ≤ 11 →
      |v.x.val| ≤ 11 ∧ |v.y.val| ≤ 11 ∧ |v.z.val| ≤ 11 ∧ sqNorm v ≤ 363 :=
    fun v h1 h2 h3 => ⟨h1, h2, h3, hsq v h1 h2 h3⟩
  have hweak : ∀ p q : vec3 Binary64, NearUnit p → NearUnit q →
      |(vadd p q).x.val| ≤ 11 ∧ |(vadd p q).y.val| ≤ 11 ∧ |(vadd p q).z.val| ≤ 11
        ∧ sqNorm (vadd p q) ≤ 363 := by
    intro p q hp hq
    obtain ⟨h1, h2, h3⟩ := hedge p q hp hq
    exact hall _ (by linarith) (by linarith) (by linarith)
  intro v hv
  simp only [List.mem_cons, List.mem_singleton, List.not_mem_nil, or_false] at hv
  rcases hv with h | h | h | h | h
  · rw [h]
    exact hweak _ _ ha hb
  · rw [h]
    exact hweak _ _ hc hd
  · rw [h]
    exact hweak _ _ ha hc
  · rw [h]
    exact hweak _ _ hb hd
  · rw [h]
    obtain ⟨n1, n2, n3⟩ := hedge _ _ ha hb
    obtain ⟨s1, s2, s3⟩ := hedge _ _ hc hd
    exact hall _ (round64_add_abs_le _ _ 5 11 n1 s1 (by norm_num) (by norm_num))
      (round64_add_abs_le _ _ 5 11 n2 s2 (by norm_num) (by norm_num))
      (round64_add_abs_le _ _ 5 11 n3 s3 (by norm_num) (by norm_num))

theorem antipodalFace64_facts :
    UnitCorners sqrt64 antipodalFace64 ∧
    vadd antipodalFace64.a antipodalFace64.b = ⟨⟨0⟩, ⟨0⟩, ⟨0⟩⟩ ∧
    vlen sqrt64 (vadd antipodalFace64.a antipodalFace64.b) = ⟨0⟩ := by
  have h1 : ((-1 : ℚ) * -1) = 1 := by norm_num
  have hneg : ((1 : ℚ) + -1) = 0 := by norm_num
  have hsum : vadd antipodalFace64.a antipodalFace64.b = ⟨⟨0⟩, ⟨0⟩, ⟨0⟩⟩ := by
    simp only [vadd, antipodalFace64, Binary64.add_mk, add_zero, hneg, round64_zero]
  refine ⟨⟨?_, ?_, ?_, ?_⟩, hsum, ?_⟩
  · simp only [vlen, vdot, sqrt64, antipodalFace64, Binary64.mul_mk, Binary64.add_mk, mul_one,
      mul_zero, h1, round64_one, round64_zero, add_zero, zero_add, sqrtRound64_one,
      Binary64.one_eq]
  · simp only [vlen, vdot, sqrt64, antipodalFace64, Binary64.mul_mk, Binary64.add_mk, mul_one,
      mul_zero, h1, round64_one, round64_zero, add_zero, zero_add, sqrtRound64_one,
      Binary64.one_eq]
  · simp only [vlen, vdot, sqrt64, antipodalFace64, Binary64.mul_mk, Binary64.add_mk, mul_one,
      mul_zero, h1, round64_one, round64_zero, add_zero, zero_add, sqrtRound64_one,
      Binary64.one_eq]
  · simp only [vlen, vdot, sqrt64, antipodalFace64, Binary64.mul_mk, Binary64.add_mk, mul_one,
      mul_zero, h1, round64_one, round64_zero, add_zero, zero_add, sqrtRound64_one,
      Binary64.one_eq]
  · rw [hsum]
    simp only [vlen, vdot, sqrt64, Binary64.mul_mk, Binary64.add_mk, mul_zero, round64_zero,
      add_zero, sqrtRound64_zero]

/-- Claim C8, refuted as stated: in the `double` arithmetic of the program the
corners of the face on the coordinate axes have magnitude exactly 1, and the
north corner that `sph_model::face::divide` gives to the children `A` and `B`
is `(c, c, 0)` with `c = 6369051672525772 / 2 ^ 53`, the `double` quotient of
1 by the `double` nearest to `√2`. Its magnitude as `vlen` computes it is
`1 - 2 ^ (-53)`, and its exact squared magnitude is below 1. Moreover, on the
unit-corner face whose corners `a` and `b` are antipodal the sum `a + b` is
the zero vector and its magnitude is 0, the divisor of `vnormalize`. -/
theorem divide_not_unit_in_binary64 :
    (UnitCorners sqrt64 axisFace64 ∧
      (sqNorm axisFace64.a = 1 ∧ sqNorm axisFace64.b = 1 ∧ sqNorm axisFace64.c = 1 ∧
        sqNorm axisFace64.d = 1) ∧
      (sphDivide sqrt64 axisFace64).A.b
        = ⟨⟨6369051672525772 / 2 ^ 53⟩, ⟨6369051672525772 / 2 ^ 53⟩, ⟨0⟩⟩ ∧
      vlen sqrt64 (sphDivide sqrt64 axisFace64).A.b = ⟨1 - 1 / 2 ^ 53⟩ ∧
      sqNorm (sphDivide sqrt64 axisFace64).A.b < 1 ∧
      ¬ UnitCorners sqrt64 (sphDivide sqrt64 axisFace64).A) ∧
    (UnitCorners sqrt64 antipodalFace64 ∧
      vadd antipodalFace64.a antipodalFace64.b = ⟨⟨0⟩, ⟨0⟩, ⟨0⟩⟩ ∧
      vlen sqrt64 (vadd antipodalFace64.a antipodalFace64.b) = ⟨0⟩) := by
  have hv : vlen sqrt64 (sphDivide sqrt64 axisFace64).A.b = ⟨1 - 1 / 2 ^ 53⟩ := by
    rw [axisFace64_north, axisFace64_north_vlen]
    norm_num
  refine ⟨⟨axisFace64_unit, ?_, axisFace64_north, hv, ?_, fun h => ?_⟩, antipodalFace64_facts⟩
  · simp only [sqNorm, axisFace64]
    norm_num
  · rw [axisFace64_north]
    simp only [sqNorm]
    norm_num
  · have h1 := h.2.1
    rw [hv] at h1
    have h2 := congrArg Binary64.val h1
    rw [Binary64.one_eq] at h2
    norm_num at h2

/-- Claim C8, amended. In the `double` arithmetic of the program, for a face
whose corners are unit vectors up to rounding and whose sums `a + b`, `c + d`,
`a + c`, `b + d` and `(a + b) + (c + d)`, as `vadd` computes them, have a
squared magnitude of at least `2 ^ (-200)`, all sixteen corners of the four
children that `sph_model::face::divide` produces are unit vectors up to
rounding: the exact squared magnitude of each, its magnitude, and its
magnitude as `vlen` computes it in `double` arithmetic, differ from 1 by at
most `2 ^ (-49)`. -/
theorem divide_near_unit_corners (F : face (vec3 Binary64)) (hF : NearUnitCorners F)
    (hn : 1 / 2 ^ 200 ≤ sqNorm (vadd F.a F.b)) (hs : 1 / 2 ^ 200 ≤ sqNorm (vadd F.c F.d))
    (he : 1 / 2 ^ 200 ≤ sqNorm (vadd F.a F.c)) (hw : 1 / 2 ^ 200 ≤ sqNorm (vadd F.b F.d))
    (hm : 1 / 2 ^ 200 ≤ sqNorm (vadd (vadd F.a F.b) (vadd F.c F.d))) :
    (NearUnitCorners (sphDivide sqrt64 F).A ∧ NearUnitCorners (sphDivide sqrt64 F).B ∧
      NearUnitCorners (sphDivide sqrt64 F).C ∧ NearUnitCorners (sphDivide sqrt64 F).D) ∧
    ∀ G ∈ [(sphDivide sqrt64 F).A, (sphDivide sqrt64 F).B, (sphDivide sqrt64 F).C,
        (sphDivide sqrt64 F).D],
      ∀ p ∈ [G.a, G.b, G.c, G.d],
        |Real.sqrt ((sqNorm p : ℚ) : ℝ) - 1| ≤ 1 / 2 ^ 49 ∧
        |(vlen sqrt64 p).val - 1| ≤ 1 / 2 ^ 49 := by
  obtain ⟨ha, hb, hc, hd⟩ := hF
  have n1 := vnormalize_nearUnit _ hn
  have s1 := vnormalize_nearUnit _ hs
  have e1 := vnormalize_nearUnit _ he
  have w1 := vnormalize_nearUnit _ hw
  have m1 := vnormalize_nearUnit _ hm
  have hA : NearUnitCorners (sphDivide sqrt64 F).A := ⟨ha, n1, e1, m1⟩
  have hB : NearUnitCorners (sphDivide sqrt64 F).B := ⟨n1, hb, m1, w1⟩
  have hC : NearUnitCorners (sphDivide sqrt64 F).C := ⟨e1, m1, hc, s1⟩
  have hD : NearUnitCorners (sphDivide sqrt64 F).D := ⟨m1, w1, s1, hd⟩
  refine ⟨⟨hA, hB, hC, hD⟩, ?_⟩
  have hface : ∀ G : face (vec3 Binary64), NearUnitCorners G →
      ∀ p ∈ [G.a, G.b, G.c, G.d],
        |Real.sqrt ((sqNorm p : ℚ) : ℝ) - 1| ≤ 1 / 2 ^ 49 ∧
        |(vlen sqrt64 p).val - 1| ≤ 1 / 2 ^ 49 := by
    intro G hG p hp
    simp only [List.mem_cons, List.mem_singleton, List.not_mem_nil, or_false] at hp
    rcases hp with h | h | h | h
    · rw [h]
      exact ⟨hG.1.magnitude, hG.1.vlen_near⟩
    · rw [h]
      exact ⟨hG.2.1.magnitude, hG.2.1.vlen_near⟩
    · rw [h]
      exact ⟨hG.2.2.1.magnitude, hG.2.2.1.vlen_near⟩
    · rw [h]
      exact ⟨hG.2.2.2.magnitude, hG.2.2.2.vlen_near⟩
  intro G hG
  simp only [List.mem_cons, List.mem_singleton, List.not_mem_nil, or_false] at hG
  rcases hG with h | h | h | h
  · rw [h]
    exact hface _ hA
  · rw [h]
    exact hface _ hB
  · rw [h]
    exact hface _ hC
  · rw [h]
    exact hface _ hD

/-- Claim C8 amended, at the face with corners on the coordinate axes, whose
five sums are `(1, 1, 0)`, `(-1, 0, 1)`, `(1, 0, 1)`, `(-1, 1, 0)` and
`(0, 1, 1)`. -/
theorem divide_near_unit_corners_witness :
    NearUnitCorners axisFace64 ∧
    sqNorm (vadd axisFace64.a axisFace64.b) = 2 ∧
    sqNorm (vadd axisFace64.c axisFace64.d) = 2 ∧
    sqNorm (vadd axisFace64.a axisFace64.c) = 2 ∧
    sqNorm (vadd axisFace64.b axisFace64.d) = 2 ∧
    sqNorm (vadd (vadd axisFace64.a axisFace64.b) (vadd axisFace64.c axisFace64.d)) = 2 ∧
    NearUnitCorners (sphDivide sqrt64 axisFace64).A ∧
    NearUnitCorners (sphDivide sqrt64 axisFace64).B ∧
    NearUnitCorners (sphDivide sqrt64 axisFace64).C ∧
    NearUnitCorners (sphDivide sqrt64 axisFace64).D := by
  have hneg : ((1 : ℚ) + -1) = 0 := by norm_num
  have hneg2 : ((0 : ℚ) + -1) = -1 := by norm_num
  have hF : NearUnitCorners axisFace64 := by
    refine ⟨?_, ?_, ?_, ?_⟩
    all_goals
      simp only [NearUnit, sqNorm, axisFace64]
      norm_num
  have h1 : sqNorm (vadd axisFace64.a axisFace64.b) = 2 := by
    simp only [vadd, axisFace64, Binary64.add_mk, add_zero, zero_add, round64_one,
      round64_zero, sqNorm]
    norm_num
  have h2 : sqNorm (vadd axisFace64.c axisFace64.d) = 2 := by
    simp only [vadd, axisFace64, Binary64.add_mk, add_zero, zero_add, hneg2, round64_one,
      round64_zero, round64_neg_one, sqNorm]
    norm_num
  have h3 : sqNorm (vadd axisFace64.a axisFace64.c) = 2 := by
    simp only [vadd, axisFace64, Binary64.add_mk, add_zero, zero_add, round64_one,
      round64_zero, sqNorm]
    norm_num
  have h4 : sqNorm (vadd axisFace64.b axisFace64.d) = 2 := by
    simp only [vadd, axisFace64, Binary64.add_mk, add_zero, zero_add, hneg2, round64_one,
      round64_zero, round64_neg_one, sqNorm]
    norm_num
  have h5 : sqNorm (vadd (vadd axisFace64.a axisFace64.b)
      (vadd axisFace64.c axisFace64.d)) = 2 := by
    simp only [vadd, axisFace64, Binary64.add_mk, add_zero, zero_add, hneg, hneg2,
      round64_one, round64_zero, round64_neg_one, sqNorm]
    norm_num
  have hsmall : (1 : ℚ) / 2 ^ 200 ≤ 2 := by norm_num
  obtain ⟨⟨hA, hB, hC, hD⟩, _⟩ := divide_near_unit_corners axisFace64 hF
    (by rw [h1]; exact hsmall) (by rw [h2]; exact hsmall) (by rw [h3]; exact hsmall)
    (by rw [h4]; exact hsmall) (by rw [h5]; exact hsmall)
  exact ⟨hF, h1, h2, h3, h4, h5, hA, hB, hC, hD⟩

/-- Claim C9. The children that `sph_model::face::divide` produces share their
corner values along every shared edge: `A.b = B.a` (north), `A.c = C.a`
(east), `B.d = D.b` (west), `C.d = D.c` (south) and `A.d = B.c = C.b = D.a`
(mid), whatever the vector routines compute; so adjacent siblings have the
same two endpoints on their common edge. -/
theorem divide_shares_edges {V : Type} (vadd : V → V → V) (vnormalize : V → V)
    (F : face V) :
    (F.divide vadd vnormalize).A.b = (F.divide vadd vnormalize).B.a ∧
    (F.divide vadd vnormalize).A.c = (F.divide vadd vnormalize).C.a ∧
    (F.divide vadd vnormalize).B.d = (F.divide vadd vnormalize).D.b ∧
    (F.divide vadd vnormalize).C.d = (F.divide vadd vnormalize).D.c ∧
    (F.divide vadd vnormalize).A.d = (F.divide vadd vnormalize).B.c ∧
    (F.divide vadd vnormalize).B.c = (F.divide vadd vnormalize).C.b ∧
    (F.divide vadd vnormalize).C.b = (F.divide vadd vnormalize).D.a ∧
    (F.divide vadd vnormalize).A.b = vnormalize (vadd F.a F.b) ∧
    (F.divide vadd vnormalize).A.c = vnormalize (vadd F.a F.c) ∧
    (F.divide vadd vnormalize).B.d = vnormalize (vadd F.b F.d) ∧
    (F.divide vadd vnormalize).C.d = vnormalize (vadd F.c F.d) ∧
    (F.divide vadd vnormalize).A.a = F.a ∧ (F.divide vadd vnormalize).B.b = F.b ∧
    (F.divide vadd vnormalize).C.c = F.c ∧ (F.divide vadd vnormalize).D.d = F.d :=
  ⟨rfl, rfl, rfl, rfl, rfl, rfl, rfl, rfl, rfl, rfl, rfl, rfl, rfl, rfl, rfl⟩

/-- Claim C10, refuted as stated: on this unit-corner face the sums `a + b`
and `c + d` have the lengths `8 / 5` and `6 / 5`, the north and south points
of the children are `(4 / 5, 3 / 5, 0)` and `(0, 4 / 5, 3 / 5)`, and the mid
point is the direction of `(32, 48, 18)`, not the direction `(4, 7, 3)` of
their midpoint: the `x` components of the two differ by more than `1 / 20`,
far beyond what rounding can account for. -/
theorem mid_differs_from_north_south_midpoint :
    UnitCorners Real.sqrt (skewFace ℝ) ∧
    (sphDivide Real.sqrt (skewFace ℝ)).A.b = ⟨4 / 5, 3 / 5, 0⟩ ∧
    (sphDivide Real.sqrt (skewFace ℝ)).C.d = ⟨0, 4 / 5, 3 / 5⟩ ∧
    (sphDivide Real.sqrt (skewFace ℝ)).A.d
      = vnormalize Real.sqrt ⟨32 / 25, 48 / 25, 18 / 25⟩ ∧
    (sphDivide Real.sqrt (skewFace ℝ)).A.d ≠
      vnormalize Real.sqrt
        (vadd (sphDivide Real.sqrt (skewFace ℝ)).A.b (sphDivide Real.sqrt (skewFace ℝ)).C.d) ∧
    (sphDivide Real.sqrt (skewFace ℝ)).A.d ≠
      vnormalize Real.sqrt
        (vmul (vadd (sphDivide Real.sqrt (skewFace ℝ)).A.b
          (sphDivide Real.sqrt (skewFace ℝ)).C.d) (1 / 2)) ∧
    1 / 20 < (sphDivide Real.sqrt (skewFace ℝ)).A.d.x -
      (vnormalize Real.sqrt
        (vadd (sphDivide Real.sqrt (skewFace ℝ)).A.b
          (sphDivide Real.sqrt (skewFace ℝ)).C.d)).x := by
  have hunit : UnitCorners Real.sqrt (skewFace ℝ) := by
    refine ⟨?_, ?_, ?_, ?_⟩
    all_goals
      refine isSqrt_real.unique zero_le_one ?_
      simp only [skewFace, vdot]
      norm_num
  have hn : vlen Real.sqrt (vadd (skewFace ℝ).a (skewFace ℝ).b) = 8 / 5 := by
    refine isSqrt_real.unique (by norm_num) ?_
    simp only [skewFace, vdot, vadd]
    norm_num
  have hs : vlen Real.sqrt (vadd (skewFace ℝ).c (skewFace ℝ).d) = 6 / 5 := by
    refine isSqrt_real.unique (by norm_num) ?_
    simp only [skewFace, vdot, vadd]
    norm_num
  have hN : (sphDivide Real.sqrt (skewFace ℝ)).A.b = ⟨4 / 5, 3 / 5, 0⟩ := by
    show vnormalize Real.sqrt (vadd (skewFace ℝ).a (skewFace ℝ).b) = _
    unfold vnormalize
    rw [hn]
    simp only [skewFace, vadd]
    norm_num
  have hS : (sphDivide Real.sqrt (skewFace ℝ)).C.d = ⟨0, 4 / 5, 3 / 5⟩ := by
    show vnormalize Real.sqrt (vadd (skewFace ℝ).c (skewFace ℝ).d) = _
    unfold vnormalize
    rw [hs]
    simp only [skewFace, vadd]
    norm_num
  have hM : (sphDivide Real.sqrt (skewFace ℝ)).A.d
      = vnormalize Real.sqrt ⟨32 / 25, 48 / 25, 18 / 25⟩ := by
    show vnormalize Real.sqrt (vadd (vadd (skewFace ℝ).a (skewFace ℝ).b)
      (vadd (skewFace ℝ).c (skewFace ℝ).d)) = _
    congr 1
    simp only [skewFace, vadd]
    norm_num
  have hpos : ∀ v : vec3 ℝ, 0 < v.x → vlen Real.sqrt v ≠ 0 := by
    intro v hv
    refine ne_of_gt (vlen_pos isSqrt_real v (fun h => ?_))
    rw [h] at hv
    exact lt_irrefl _ hv
  have hgap : 1 / 20 < (sphDivide Real.sqrt (skewFace ℝ)).A.d.x -
      (vnormalize Real.sqrt
        (vadd (sphDivide Real.sqrt (skewFace ℝ)).A.b
          (sphDivide Real.sqrt (skewFace ℝ)).C.d)).x := by
    rw [hM, hN, hS]
    have h1 : vlen Real.sqrt (⟨32 / 25, 48 / 25, 18 / 25⟩ : vec3 ℝ) < 61 / 25 := by
      unfold vlen
      rw [Real.sqrt_lt (by simp only [vdot]; norm_num) (by norm_num)]
      simp only [vdot]
      norm_num
    have h1p : 0 < vlen Real.sqrt (⟨32 / 25, 48 / 25, 18 / 25⟩ : vec3 ℝ) :=
      lt_of_le_of_ne (Real.sqrt_nonneg _) (Ne.symm (hpos _ (by norm_num)))
    have h2 : 43 / 25 < vlen Real.sqrt (vadd (⟨4 / 5, 3 / 5, 0⟩ : vec3 ℝ) ⟨0, 4 / 5, 3 / 5⟩) := by
      unfold vlen
      rw [Real.lt_sqrt (by norm_num)]
      simp only [vdot, vadd]
      norm_num
    have e1 : (32 / 25 : ℝ) / (61 / 25)
        < 32 / 25 / vlen Real.sqrt (⟨32 / 25, 48 / 25, 18 / 25⟩ : vec3 ℝ) :=
      div_lt_div_of_pos_left (by norm_num) h1p h1
    have e2 : (4 / 5 : ℝ) / vlen Real.sqrt (vadd (⟨4 / 5, 3 / 5, 0⟩ : vec3 ℝ) ⟨0, 4 / 5, 3 / 5⟩)
        < 4 / 5 / (43 / 25) :=
      div_lt_div_of_pos_left (by norm_num) (by norm_num) h2
    have e3 : (vadd (⟨4 / 5, 3 / 5, 0⟩ : vec3 ℝ) ⟨0, 4 / 5, 3 / 5⟩).x = 4 / 5 := by
      simp only [vadd]
      norm_num
    simp only [vnormalize]
    rw [e3]
    norm_num at e1 e2 ⊢
    linarith
  refine ⟨hunit, hN, hS, hM, fun h => ?_, fun h => ?_, hgap⟩
  · rw [hM, hN, hS] at h
    have hp := vnormalize_parallel _ _ (hpos _ (by norm_num))
      (hpos _ (by simp only [vadd]; norm_num)) h
    simp only [vadd] at hp
    norm_num at hp
  · rw [hM, hN, hS] at h
    have hp := vnormalize_parallel _ _ (hpos _ (by norm_num))
      (hpos _ (by simp only [vadd, vmul]; norm_num)) h
    simp only [vadd, vmul] at hp
    norm_num at hp

/-- In exact arithmetic, that is in an ordered field with an exact square
root, the mid point is the re-normalized sum, and so the re-normalized
midpoint, of the north and south points of the children when `a + b` and
`c + d` have the same non-zero length. -/
theorem mid_is_north_south_midpoint_exact {R : Type} [LinearOrderedField R] (sqrt : R → R)
    (hsqrt : IsSqrt sqrt) (F : face (vec3 R))
    (hlen : vlen sqrt (vadd F.a F.b) = vlen sqrt (vadd F.c F.d))
    (hne : vlen sqrt (vadd F.a F.b) ≠ 0) :
    (sphDivide sqrt F).A.d =
      vnormalize sqrt (vadd (sphDivide sqrt F).A.b (sphDivide sqrt F).C.d) ∧
    (sphDivide sqrt F).A.d =
      vnormalize sqrt (vmul (vadd (sphDivide sqrt F).A.b (sphDivide sqrt F).C.d) (1 / 2)) := by
  have hL : 0 < vlen sqrt (vadd F.a F.b) :=
    lt_of_le_of_ne (hsqrt _ (vdot_self_nonneg _)).1 (Ne.symm hne)
  have hsum : vadd (vnormalize sqrt (vadd F.a F.b)) (vnormalize sqrt (vadd F.c F.d))
      = ⟨(vadd (vadd F.a F.b) (vadd F.c F.d)).x / vlen sqrt (vadd F.a F.b),
         (vadd (vadd F.a F.b) (vadd F.c F.d)).y / vlen sqrt (vadd F.a F.b),
         (vadd (vadd F.a F.b) (vadd F.c F.d)).z / vlen sqrt (vadd F.a F.b)⟩ := by
    unfold vnormalize
    rw [← hlen]
    simp only [vadd, add_div]
  have hhalf : vmul (vadd (vnormalize sqrt (vadd F.a F.b)) (vnormalize sqrt (vadd F.c F.d)))
      (1 / 2)
      = ⟨(vadd (vadd F.a F.b) (vadd F.c F.d)).x / (2 * vlen sqrt (vadd F.a F.b)),
         (vadd (vadd F.a F.b) (vadd F.c F.d)).y / (2 * vlen sqrt (vadd F.a F.b)),
         (vadd (vadd F.a F.b) (vadd F.c F.d)).z / (2 * vlen sqrt (vadd F.a F.b))⟩ := by
    rw [hsum]
    unfold vmul
    congr 1
    all_goals
      field_simp
      exact Or.inl (mul_comm _ _)
  refine ⟨?_, ?_⟩
  · show vnormalize sqrt (vadd (vadd F.a F.b) (vadd F.c F.d))
      = vnormalize sqrt
        (vadd (vnormalize sqrt (vadd F.a F.b)) (vnormalize sqrt (vadd F.c F.d)))
    rw [hsum, vnormalize_div hsqrt _ _ hL]
  · show vnormalize sqrt (vadd (vadd F.a F.b) (vadd F.c F.d))
      = vnormalize sqrt (vmul
        (vadd (vnormalize sqrt (vadd F.a F.b)) (vnormalize sqrt (vadd F.c F.d))) (1 / 2))
    rw [hhalf, vnormalize_div hsqrt _ _ (by positivity)]

/-- Claim C10, amended. Whatever the routines `vadd` and `vnormalize` compute,
the mid point that `sph_model::face::divide` gives to all four children, as
`A.d`, `B.c`, `C.b` and `D.a`, is `vnormalize` of the sum of the sums `a + b`
and `c + d`, taken before these are normalized, whereas the north and south
points that the children receive as `A.b` and `C.d` are these sums
normalized. -/
theorem mid_is_normalized_corner_sum {V : Type} (vadd : V → V → V) (vnormalize : V → V)
    (F : face V) :
    (F.divide vadd vnormalize).A.d = vnormalize (vadd (vadd F.a F.b) (vadd F.c F.d)) ∧
    (F.divide vadd vnormalize).B.c = (F.divide vadd vnormalize).A.d ∧
    (F.divide vadd vnormalize).C.b = (F.divide vadd vnormalize).A.d ∧
    (F.divide vadd vnormalize).D.a = (F.divide vadd vnormalize).A.d ∧
    (F.divide vadd vnormalize).A.b = vnormalize (vadd F.a F.b) ∧
    (F.divide vadd vnormalize).C.d = vnormalize (vadd F.c F.d) :=
  ⟨rfl, rfl, rfl, rfl, rfl, rfl⟩

/-! ## Further properties of the page catalog -/

namespace scm_file

variable {F : Type}

/-- The logging walk computes the result of the walk. -/
theorem boundsWalkLog_fst (f : scm_file F) (parent : Nat → Nat) :
    ∀ (fuel i ai zi : Nat),
      (f.boundsWalkLog parent fuel i ai zi).1 = f.boundsWalk parent fuel i ai zi := by
  intro fuel
  induction fuel with
  | zero =>
    intro i ai zi
    unfold boundsWalkLog boundsWalk
    split_ifs <;> rfl
  | succ fuel ih =>
    intro i ai zi
    unfold boundsWalkLog boundsWalk
    by_cases hc : ai ≥ f.ac ∨ zi ≥ f.zc
    · simp only [hc, if_true]
      by_cases hi : i < 6
      · simp only [hi, if_true]
      · simp only [hi, if_false]
        exact ih _ _ _
    · simp only [hc, if_false]

/-- Every call of the walk concerns the page or one of its ancestors. -/
theorem boundsWalkLog_calls (f : scm_file F) (parent : Nat → Nat) :
    ∀ (fuel i ai zi : Nat) (c : WalkCall), c ∈ (f.boundsWalkLog parent fuel i ai zi).2 →
      ∃ k, (c = WalkCall.lookup (parent^[k] i) ∨ c = WalkCall.parent (parent^[k] i)) ∧
        ∀ l, l < k → 6 ≤ parent^[l] i := by
  intro fuel
  induction fuel with
  | zero =>
    intro i ai zi c hc
    unfold boundsWalkLog at hc
    split_ifs at hc <;> simp at hc
  | succ fuel ih =>
    intro i ai zi c hc
    unfold boundsWalkLog at hc
    have hself : ∀ c : WalkCall,
        c ∈ (if ai ≥ f.ac then [WalkCall.lookup i] else []) ++
          (if zi ≥ f.zc then [WalkCall.lookup i] else []) →
        c = WalkCall.lookup i := by
      intro c h
      rcases List.mem_append.1 h with h | h
      · split_ifs at h
        · exact List.mem_singleton.1 h
        · simp at h
      · split_ifs at h
        · exact List.mem_singleton.1 h
        · simp at h
    have hzero : ∀ l, l < 0 → 6 ≤ parent^[l] i := fun l hl => absurd hl (Nat.not_lt_zero l)
    by_cases hcond : ai ≥ f.ac ∨ zi ≥ f.zc
    · simp only [hcond, if_true] at hc
      by_cases hi : i < 6
      · simp only [hi, if_true] at hc
        exact ⟨0, Or.inl (hself c hc), hzero⟩
      · simp only [hi, if_false] at hc
        rcases List.mem_append.1 hc with h | h
        · exact ⟨0, Or.inl (hself c h), hzero⟩
        · rcases List.mem_cons.1 h with h | h
          · exact ⟨0, Or.inr h, hzero⟩
          · obtain ⟨k, hk, hanc⟩ := ih _ _ _ c h
            refine ⟨k + 1, ?_, fun l hl => ?_⟩
            · simpa only [Function.iterate_succ_apply] using hk
            · cases l with
              | zero => exact Nat.le_of_not_lt hi
              | succ l =>
                rw [Function.iterate_succ_apply]
                exact hanc l (by omega)
    · simp only [hcond, if_false] at hc
      simp at hc

/-- At a root page the walk makes no call but the lookup of the page. -/
theorem boundsWalkLog_root (f : scm_file F) (parent : Nat → Nat) (fuel i ai zi : Nat)
    (hi : i < 6) (c : WalkCall) (hc : c ∈ (f.boundsWalkLog parent fuel i ai zi).2) :
    c = WalkCall.lookup i := by
  cases fuel with
  | zero =>
    unfold boundsWalkLog at hc
    split_ifs at hc <;> simp at hc
  | succ fuel =>
    unfold boundsWalkLog at hc
    by_cases hcond : ai ≥ f.ac ∨ zi ≥ f.zc
    · simp only [hcond, if_true, hi] at hc
      rcases List.mem_append.1 hc with h | h
      · split_ifs at h
        · exact List.mem_singleton.1 h
        · simp at h
      · split_ifs at h
        · exact List.mem_singleton.1 h
        · simp at h
    · simp only [hcond, if_false] at hc
      simp at hc

/-- The result of `offset` is the entry of the offset sequence at the looked-up
position, read as zero beyond the end of the sequence. -/
theorem offset_eq_getD (f : scm_file F) (i : Nat) :
    f.offset i = f.ov.getD (f.index i) 0 := by
  unfold offset
  by_cases h : f.index i < f.ov.length
  · simp only [h, dite_true, List.getD_eq_getElem _ _ h]
  · simp only [h, dite_false]
    rw [List.getD_eq_default _ _ (Nat.le_of_not_lt h)]

/-- Under the hierarchy contract the parent chain of page `i` reaches a root
within `i` steps. -/
theorem parent_chain_reaches_root (parent : Nat → Nat)
    (hpar : ∀ j, 6 ≤ j → parent j < j) :
    ∀ i, ∃ k, k ≤ i ∧ parent^[k] i < 6 := by
  intro i
  induction i using Nat.strong_induction_on with
  | _ i ih =>
    by_cases hi : i < 6
    · exact ⟨0, Nat.zero_le _, hi⟩
    · have hlt := hpar i (Nat.le_of_not_lt hi)
      obtain ⟨k, hk, hroot⟩ := ih (parent i) hlt
      exact ⟨k + 1, by omega, by rwa [Function.iterate_succ_apply]⟩

end scm_file

/-- Claim C19. Under the hierarchy contract `scm_page_parent (i) < i` for every
`i ≥ 6`, the ancestor walk of `scm_file::bounds` terminates for every page id
and every catalog (more than `i` iterations are never needed), every call it
makes is a lookup of, or a parent step from, the page or one of its ancestors,
and for a root id `i < 6` its only calls are lookups of `i`. -/
theorem bounds_walk_terminates {F : Type} [Add F] [Sub F] [Mul F] [Div F] [IntCast F]
    (f : scm_file F) (scm_page_parent : Nat → Nat) (i fuel : Nat)
    (hpar : ∀ j, 6 ≤ j → scm_page_parent j < j) (hfuel : i < fuel) :
    (∃ r : F × F, f.bounds scm_page_parent fuel i = some r) ∧
    (∃ p, (f.boundsWalkLog scm_page_parent fuel i NOT_FOUND NOT_FOUND).1 = some p) ∧
    (∀ c, c ∈ (f.boundsWalkLog scm_page_parent fuel i NOT_FOUND NOT_FOUND).2 →
      ∃ k, (c = scm_file.WalkCall.lookup (scm_page_parent^[k] i) ∨
          c = scm_file.WalkCall.parent (scm_page_parent^[k] i)) ∧
        ∀ l, l < k → 6 ≤ scm_page_parent^[l] i) ∧
    (i < 6 → ∀ c, c ∈ (f.boundsWalkLog scm_page_parent fuel i NOT_FOUND NOT_FOUND).2 →
      c = scm_file.WalkCall.lookup i) := by
  obtain ⟨k, hk, hroot⟩ := scm_file.parent_chain_reaches_root scm_page_parent hpar i
  obtain ⟨p, hp⟩ := f.boundsWalk_terminates scm_page_parent k fuel i NOT_FOUND NOT_FOUND
    hroot (by omega)
  refine ⟨⟨f.boundsDecode p.1 p.2, f.bounds_of_walk _ _ _ _ _ hp⟩, ⟨p, ?_⟩,
    fun c hc => f.boundsWalkLog_calls scm_page_parent fuel i _ _ c hc,
    fun hi c hc => f.boundsWalkLog_root scm_page_parent fuel i _ _ hi c hc⟩
  rw [f.boundsWalkLog_fst, hp]

/-- Claim C19, at the sample catalog and page 62: the walk looks up the pages
62, 14 and 2, twice each, and takes the parent of 62 and of 14. -/
theorem bounds_walk_terminates_witness :
    (∀ j, 6 ≤ j → sampleParent j < j) ∧
    (∃ r : ℚ × ℚ, sampleFile.bounds sampleParent 63 62 = some r) ∧
    (sampleFile.boundsWalkLog sampleParent 63 62 NOT_FOUND NOT_FOUND).2.length = 8 := by
  have hpar : ∀ j, 6 ≤ j → sampleParent j < j := by
    intro j hj
    unfold sampleParent
    omega
  refine ⟨hpar, (bounds_walk_terminates sampleFile sampleParent 62 63 hpar (by decide)).1, ?_⟩
  have h62 : sampleFile.index 62 = 2 :=
    sampleFile.index_of_getElem 62 2 (by decide) (by decide) (by decide) rfl
  have h14 : sampleFile.index 14 = 1 :=
    sampleFile.index_of_getElem 14 1 (by decide) (by decide) (by decide) rfl
  have h2 : sampleFile.index 2 = 0 :=
    sampleFile.index_of_getElem 2 0 (by decide) (by decide) (by decide) rfl
  have e1 : sampleParent 62 = 14 := by decide
  have e2 : sampleParent 14 = 2 := by decide
  have hac : sampleFile.ac = 1 := rfl
  have hzc : sampleFile.zc = 1 := rfl
  have hnf : NOT_FOUND ≥ 1 := by decide
  simp [scm_file.boundsWalkLog, hac, hzc, hnf, h62, h14, h2, e1, e2]

/-- Claim C20. Whatever the lengths of the id and offset sequences, and even
without the order of the id sequence, a non-zero result of `scm_file::offset`
for a page implies that `scm_file::status` holds for it: `offset` reports no
non-zero offset for a page that the catalog does not contain. -/
theorem offset_nonzero_implies_status {F : Type} (f : scm_file F) (i : Nat)
    (hxc : f.xv.length < 2 ^ 64) (hoc : f.ov.length < 2 ^ 64)
    (hoff : f.offset i ≠ 0) : f.status i = true ∧ i ∈ f.xv := by
  have hlt : f.index i < f.ov.length := by
    by_contra hcon
    apply hoff
    unfold scm_file.offset
    simp only [hcon, dite_false]
  have hne : f.index i ≠ NOT_FOUND := by
    intro he
    rw [he] at hlt
    exact scm_file.not_found_ge _ hoc hlt
  obtain ⟨hp, he⟩ := f.index_found i hxc hne
  refine ⟨?_, he ▸ List.getElem_mem hp⟩
  unfold scm_file.status scm_file.xc
  rw [if_pos hp]

/-- Claim C20, at the sample catalog and page 14, whose offset is 65544. -/
theorem offset_nonzero_implies_status_witness :
    sampleFile.xv.Sorted (· < ·) ∧ sampleFile.offset 14 ≠ 0 ∧
    sampleFile.status 14 = true := by
  have hidx : sampleFile.index 14 = 1 :=
    sampleFile.index_of_getElem 14 1 (by decide) (by decide) (by decide) rfl
  have hoff : sampleFile.offset 14 ≠ 0 := by
    rw [scm_file.offset_eq_getD, hidx]
    decide
  exact ⟨by decide, hoff,
    (offset_nonzero_implies_status sampleFile 14 (by decide) (by decide) hoff).1⟩

/-! ## Midpoints of shared edges -/

theorem sphDivide_midpoint {R : Type} [Add R] [Mul R] [Div R] (sqrt : R → R)
    (F : face (vec3 R)) (e : Edge) :
    (sphDivide sqrt F).midpoint e
      = vnormalize sqrt (vadd (F.endpoints e).1 (F.endpoints e).2) := by
  cases e <;> rfl

theorem vadd_comm {R : Type} [Add R] (hcomm : ∀ x y : R, x + y = y + x) (p q : vec3 R) :
    vadd p q = vadd q p := by
  unfold vadd
  rw [hcomm p.x q.x, hcomm p.y q.y, hcomm p.z q.z]

/-- Claim C11. The midpoint that `sph_model::face::divide` computes for an edge
depends only on the unordered pair of its end points: when an edge of a face
`F` and an edge of a face `G`, in any of the four edge roles, have the same
end points in either order, the two subdivisions compute the same midpoint.
Only the commutativity of the addition is used. -/
theorem divide_midpoint_of_shared_edge {R : Type} [Add R] [Mul R] [Div R]
    (hcomm : ∀ x y : R, x + y = y + x) (sqrt : R → R) (F G : face (vec3 R))
    (e1 e2 : Edge)
    (hshare : F.endpoints e1 = G.endpoints e2 ∨ F.endpoints e1 = (G.endpoints e2).swap) :
    (sphDivide sqrt F).midpoint e1 = (sphDivide sqrt G).midpoint e2 := by
  rw [sphDivide_midpoint, sphDivide_midpoint]
  rcases hshare with h | h
  · rw [h]
  · rw [h, Prod.fst_swap, Prod.snd_swap, vadd_comm hcomm]

/-- Claim C11, at two faces that share the edge between `(1, 0, 0)` and
`(0, 1, 0)`, one as its edge `a b` and the other, reversed, as its edge
`a c`. -/
theorem divide_midpoint_of_shared_edge_witness :
    (∀ x y : ℝ, x + y = y + x) ∧
    axisFace.endpoints Edge.ab = (neighbourFace.endpoints Edge.ac).swap ∧
    (sphDivide Real.sqrt axisFace).A.b = (sphDivide Real.sqrt neighbourFace).A.c :=
  ⟨add_comm, rfl,
    divide_midpoint_of_shared_edge add_comm Real.sqrt axisFace neighbourFace Edge.ab Edge.ac
      (Or.inr rfl)⟩

/-! ## The screen-space measure -/

section sph

variable {R : Type} [LinearOrderedField R]

theorem project_eq_none_of_divisor_zero (M : Nat → R) (p : vec3 R) (hd : divisor M p = 0) :
    project M p = none := by
  unfold project
  simp only [hd, abs_zero, gt_iff_lt, lt_self_iff_false, if_false]

theorem project_eq_some_of_divisor_ne_zero (M : Nat → R) (p : vec3 R) (hd : divisor M p ≠ 0) :
    project M p = some ⟨(M 0 * p.x + M 4 * p.y + M 8 * p.z + M 12) / divisor M p,
      (M 1 * p.x + M 5 * p.y + M 9 * p.z + M 13) / divisor M p,
      (M 2 * p.x + M 6 * p.y + M 10 * p.z + M 14) / divisor M p⟩ := by
  unfold project
  simp only [gt_iff_lt, abs_pos, ne_eq, hd, not_false_eq_true, if_true]

/-- When the eight projections succeed the measure is the end of the method
applied to the projected points. -/
theorem measure_of_projected (sqrt : R → R) (finite : R → Bool) (F : face (vec3 R))
    (M : Nat → R) (w h : Int) (na nb nc nd nA nB nC nD : vec3 R)
    (ha : project M F.a = some na) (hb : project M F.b = some nb)
    (hc : project M F.c = some nc) (hd : project M F.d = some nd)
    (hA : project M (F.inflated sqrt).a = some nA) (hB : project M (F.inflated sqrt).b = some nB)
    (hC : project M (F.inflated sqrt).c = some nC) (hD : project M (F.inflated sqrt).d = some nD) :
    F.measure sqrt finite M w h = visibleLength sqrt finite na nb nc nd nA nB nC nD w h := by
  unfold face.measure
  simp only [ha, hb, hc, hd, hA, hB, hC, hD]

/-- When one of the eight projections fails the measure is zero. -/
theorem measure_eq_zero_of_project_none (sqrt : R → R) (finite : R → Bool)
    (F : face (vec3 R)) (M : Nat → R) (w h : Int) (p : vec3 R)
    (hp : p ∈ [F.a, F.b, F.c, F.d, (F.inflated sqrt).a, (F.inflated sqrt).b,
      (F.inflated sqrt).c, (F.inflated sqrt).d])
    (hnone : project M p = none) : F.measure sqrt finite M w h = 0 := by
  simp only [List.mem_cons, List.mem_singleton, List.not_mem_nil, or_false] at hp
  cases h1 : project M F.a with
  | none => simp only [face.measure, h1]
  | some na =>
  cases h2 : project M F.b with
  | none => simp only [face.measure, h1, h2]
  | some nb =>
  cases h3 : project M F.c with
  | none => simp only [face.measure, h1, h2, h3]
  | some nc =>
  cases h4 : project M F.d with
  | none => simp only [face.measure, h1, h2, h3, h4]
  | some nd =>
  cases h5 : project M (F.inflated sqrt).a with
  | none => simp only [face.measure, h1, h2, h3, h4, h5]
  | some nA =>
  cases h6 : project M (F.inflated sqrt).b with
  | none => simp only [face.measure, h1, h2, h3, h4, h5, h6]
  | some nB =>
  cases h7 : project M (F.inflated sqrt).c with
  | none => simp only [face.measure, h1, h2, h3, h4, h5, h6, h7]
  | some nC =>
  cases h8 : project M (F.inflated sqrt).d with
  | none => simp only [face.measure, h1, h2, h3, h4, h5, h6, h7, h8]
  | some nD =>
    exfalso
    rcases hp with h | h | h | h | h | h | h | h
    all_goals
      rw [h] at hnone
      simp_all

/-- Beyond a clip plane the end of the method yields zero. -/
theorem visibleLength_eq_zero_of_beyond (sqrt : R → R) (finite : R → Bool)
    (na nb nc nd nA nB nC nD : vec3 R) (w h : Int)
    (hcull : BeyondClipPlane [na, nb, nc, nd, nA, nB, nC, nD]) :
    visibleLength sqrt finite na nb nc nd nA nB nC nD w h = 0 := by
  simp only [BeyondClipPlane, List.mem_cons, List.mem_singleton, List.not_mem_nil, or_false,
    forall_eq_or_imp, forall_eq] at hcull
  unfold visibleLength
  simp only
  split_ifs with h1 h2 h3 h4 h5 h6
  all_goals first
    | rfl
    | (exfalso
       rcases hcull with h | h | h | h | h | h
       · exact h1 h
       · exact h2 h
       · exact h3 h
       · exact h4 h
       · exact h5 h
       · exact h6 h)

/-- Within the clip planes the end of the method yields the longest edge. -/
theorem visibleLength_of_not_beyond (sqrt : R → R) (finite : R → Bool)
    (na nb nc nd nA nB nC nD : vec3 R) (w h : Int)
    (hvis : ¬ BeyondClipPlane [na, nb, nc, nd, nA, nB, nC, nD]) :
    visibleLength sqrt finite na nb nc nd nA nB nC nD w h
      = max4 (length sqrt finite na nb w h) (length sqrt finite nc nd w h)
        (length sqrt finite na nc w h) (length sqrt finite nb nd w h) := by
  simp only [BeyondClipPlane, List.mem_cons, List.mem_singleton, List.not_mem_nil, or_false,
    forall_eq_or_imp, forall_eq, not_or] at hvis
  obtain ⟨h1, h2, h3, h4, h5, h6⟩ := hvis
  unfold visibleLength
  simp only
  rw [if_neg h1, if_neg h2, if_neg h3, if_neg h4, if_neg h5, if_neg h6]

end sph

/-- Claim C14. When all eight points of a face project and the eight projected
points lie strictly beyond the clip margin on the same side of the same axis
(all `x > 1`, or all `x < -1`, or likewise for `y` or `z`),
`sph_model::face::measure` returns 0. -/
theorem measure_zero_beyond_clip_plane {R : Type} [LinearOrderedField R] (sqrt : R → R)
    (finite : R → Bool) (F : face (vec3 R)) (M : Nat → R) (w h : Int)
    (na nb nc nd nA nB nC nD : vec3 R)
    (ha : project M F.a = some na) (hb : project M F.b = some nb)
    (hc : project M F.c = some nc) (hd : project M F.d = some nd)
    (hA : project M (F.inflated sqrt).a = some nA) (hB : project M (F.inflated sqrt).b = some nB)
    (hC : project M (F.inflated sqrt).c = some nC) (hD : project M (F.inflated sqrt).d = some nD)
    (hcull : BeyondClipPlane [na, nb, nc, nd, nA, nB, nC, nD]) :
    F.measure sqrt finite M w h = 0 := by
  rw [measure_of_projected sqrt finite F M w h na nb nc nd nA nB nC nD ha hb hc hd hA hB hC hD]
  exact visibleLength_eq_zero_of_beyond sqrt finite na nb nc nd nA nB nC nD w h hcull

section sph

variable {R : Type} [LinearOrderedField R]

theorem project_idMatrix (p : vec3 R) : project (idMatrix R) p = some p := by
  have hd : divisor (idMatrix R) p = 1 := by
    simp [divisor, idMatrix]
  rw [project_eq_some_of_divisor_ne_zero _ _ (by rw [hd]; exact one_ne_zero), hd]
  simp [idMatrix]

theorem project_shiftMatrix (p : vec3 R) :
    project (shiftMatrix R) p = some ⟨p.x + 5, p.y, p.z⟩ := by
  have hd : divisor (shiftMatrix R) p = 1 := by
    simp [divisor, shiftMatrix, idMatrix]
  rw [project_eq_some_of_divisor_ne_zero _ _ (by rw [hd]; exact one_ne_zero), hd]
  simp [shiftMatrix, idMatrix]

/-- The inflated corners of `centredFace` are its corners scaled by `3 / 2`. -/
theorem centredFace_inflated {sqrt : R → R} (hsqrt : IsSqrt sqrt) :
    (centredFace R).inflated sqrt
      = ⟨⟨-1 / 2, -1, 1⟩, ⟨1 / 2, -1, 1⟩, ⟨-1 / 2, 1, 1⟩, ⟨1 / 2, 1, 1⟩⟩ := by
  have hlen : vlen sqrt (⟨-1 / 3 + 1 / 3 + -1 / 3 + 1 / 3, -2 / 3 + -2 / 3 + 2 / 3 + 2 / 3,
      2 / 3 + 2 / 3 + 2 / 3 + 2 / 3⟩ : vec3 R) = 8 / 3 := by
    refine hsqrt.unique (by norm_num) ?_
    simp only [vdot]
    norm_num
  unfold face.inflated
  simp only [centredFace, hlen, vdot, vmul]
  norm_num

end sph

/-- Claim C14, at a face shifted by 5 along `x`, so that all eight projected
points have `x > 1`. -/
theorem measure_zero_beyond_clip_plane_witness :
    project (shiftMatrix ℝ) (centredFace ℝ).a = some ⟨-1 / 3 + 5, -2 / 3, 2 / 3⟩ ∧
    BeyondClipPlane
      [(⟨-1 / 3 + 5, -2 / 3, 2 / 3⟩ : vec3 ℝ), ⟨1 / 3 + 5, -2 / 3, 2 / 3⟩,
        ⟨-1 / 3 + 5, 2 / 3, 2 / 3⟩, ⟨1 / 3 + 5, 2 / 3, 2 / 3⟩,
        ⟨-1 / 2 + 5, -1, 1⟩, ⟨1 / 2 + 5, -1, 1⟩, ⟨-1 / 2 + 5, 1, 1⟩, ⟨1 / 2 + 5, 1, 1⟩] ∧
    (centredFace ℝ).measure Real.sqrt finiteDouble (shiftMatrix ℝ) 800 600 = 0 := by
  have hcull : BeyondClipPlane
      [(⟨-1 / 3 + 5, -2 / 3, 2 / 3⟩ : vec3 ℝ), ⟨1 / 3 + 5, -2 / 3, 2 / 3⟩,
        ⟨-1 / 3 + 5, 2 / 3, 2 / 3⟩, ⟨1 / 3 + 5, 2 / 3, 2 / 3⟩,
        ⟨-1 / 2 + 5, -1, 1⟩, ⟨1 / 2 + 5, -1, 1⟩, ⟨-1 / 2 + 5, 1, 1⟩, ⟨1 / 2 + 5, 1, 1⟩] := by
    refine Or.inl ?_
    simp only [List.mem_cons, List.mem_singleton, List.not_mem_nil, or_false,
      forall_eq_or_imp, forall_eq]
    norm_num
  have hinf := centredFace_inflated (R := ℝ) isSqrt_real
  refine ⟨project_shiftMatrix _, hcull,
    measure_zero_beyond_clip_plane Real.sqrt finiteDouble (centredFace ℝ) (shiftMatrix ℝ)
      800 600 _ _ _ _ _ _ _ _ (project_shiftMatrix _) (project_shiftMatrix _)
      (project_shiftMatrix _) (project_shiftMatrix _)
      (by rw [hinf]; exact project_shiftMatrix _) (by rw [hinf]; exact project_shiftMatrix _)
      (by rw [hinf]; exact project_shiftMatrix _) (by rw [hinf]; exact project_shiftMatrix _)
      hcull⟩

/-- Claim C15. When the homogeneous divisor
`M[3] * x + M[7] * y + M[11] * z + M[15]` of one of the eight points of a
face, its four corners and its four inflated corners, is zero, `project` fails
for that point and `sph_model::face::measure` returns 0. -/
theorem measure_zero_when_divisor_zero {R : Type} [LinearOrderedField R] (sqrt : R → R)
    (finite : R → Bool) (F : face (vec3 R)) (M : Nat → R) (w h : Int) (p : vec3 R)
    (hp : p ∈ [F.a, F.b, F.c, F.d, (F.inflated sqrt).a, (F.inflated sqrt).b,
      (F.inflated sqrt).c, (F.inflated sqrt).d])
    (hd : M 3 * p.x + M 7 * p.y + M 11 * p.z + M 15 = 0) :
    project M p = none ∧ F.measure sqrt finite M w h = 0 :=
  ⟨project_eq_none_of_divisor_zero M p hd,
    measure_eq_zero_of_project_none sqrt finite F M w h p hp
      (project_eq_none_of_divisor_zero M p hd)⟩

/-- Claim C15, at the zero matrix, for which every divisor is zero. -/
theorem measure_zero_when_divisor_zero_witness :
    zeroMatrix ℝ 3 * axisFace.c.x + zeroMatrix ℝ 7 * axisFace.c.y
      + zeroMatrix ℝ 11 * axisFace.c.z + zeroMatrix ℝ 15 = 0 ∧
    project (zeroMatrix ℝ) axisFace.c = none ∧
    axisFace.measure Real.sqrt finiteDouble (zeroMatrix ℝ) 800 600 = 0 := by
  have hd : zeroMatrix ℝ 3 * axisFace.c.x + zeroMatrix ℝ 7 * axisFace.c.y
      + zeroMatrix ℝ 11 * axisFace.c.z + zeroMatrix ℝ 15 = 0 := by
    simp [zeroMatrix]
  exact ⟨hd, measure_zero_when_divisor_zero Real.sqrt finiteDouble axisFace (zeroMatrix ℝ)
    800 600 axisFace.c (by simp) hd⟩

section sph

variable {R : Type} [LinearOrderedField R]

theorem max4_eq_max (a b c d : R) : max4 a b c d = max (max a b) (max c d) := by
  have h1 : (if a > b then a else b) = max a b := by
    split_ifs with h
    · exact (max_eq_left (le_of_lt h)).symm
    · exact (max_eq_right (not_lt.1 h)).symm
  have h2 : (if c > d then c else d) = max c d := by
    split_ifs with h
    · exact (max_eq_left (le_of_lt h)).symm
    · exact (max_eq_right (not_lt.1 h)).symm
  unfold max4
  simp only [h1, h2]
  split_ifs with h
  · exact (max_eq_left (le_of_lt h)).symm
  · exact (max_eq_right (not_lt.1 h)).symm

theorem max4_bounds (a b c d : R) :
    a ≤ max4 a b c d ∧ b ≤ max4 a b c d ∧ c ≤ max4 a b c d ∧ d ≤ max4 a b c d := by
  rw [max4_eq_max]
  exact ⟨le_max_of_le_left (le_max_left a b), le_max_of_le_left (le_max_right a b),
    le_max_of_le_right (le_max_left c d), le_max_of_le_right (le_max_right c d)⟩

theorem max4_mem (a b c d : R) :
    max4 a b c d = a ∨ max4 a b c d = b ∨ max4 a b c d = c ∨ max4 a b c d = d := by
  rw [max4_eq_max]
  rcases max_choice (max a b) (max c d) with h | h
  · rw [h]
    rcases max_choice a b with h2 | h2
    · exact Or.inl h2
    · exact Or.inr (Or.inl h2)
  · rw [h]
    rcases max_choice c d with h2 | h2
    · exact Or.inr (Or.inr (Or.inl h2))
    · exact Or.inr (Or.inr (Or.inr h2))

/-- The routine `length` yields the length of the specification when the four
coordinates it reads are finite, and zero otherwise. -/
theorem length_eq (sqrt : R → R) (finite : R → Bool) (p q : vec3 R) (w h : Int) :
    length sqrt finite p q w h =
      if finite p.x = true ∧ finite p.y = true ∧ finite q.x = true ∧ finite q.y = true
      then edgeLength sqrt p q w h else 0 := by
  unfold length edgeLength
  by_cases hf : finite p.x = true ∧ finite p.y = true ∧ finite q.x = true ∧ finite q.y = true
  · obtain ⟨h1, h2, h3, h4⟩ := hf
    simp only [h1, h2, h3, h4, Bool.and_self, if_true, and_self, sq]
  · rw [if_neg hf, if_neg]
    intro hall
    apply hf
    simp only [Bool.and_eq_true] at hall
    exact ⟨hall.1.1.1, hall.1.1.2, hall.1.2, hall.2⟩

theorem IsSqrt.pos {sqrt : R → R} (hsqrt : IsSqrt sqrt) {x : R} (hx : 0 < x) : 0 < sqrt x := by
  obtain ⟨h0, h1⟩ := hsqrt x (le_of_lt hx)
  rcases lt_or_eq_of_le h0 with h | h
  · exact h
  · rw [← h, mul_zero] at h1
    exact absurd h1 (ne_of_lt hx)

end sph

/-- Claim C16, refuted as stated: under this matrix the eight points of the
face project and are not beyond a clip plane, but the projected `x`
coordinates are `2 ^ 2000` times the coordinates of the points and so not
finite as `double`; every edge then counts as of length 0 and
`sph_model::face::measure` returns 0, not the maximum of the edge lengths of
the claim, of which the first is positive. -/
theorem measure_ignores_edges_that_are_not_finite :
    project (overflowMatrix ℝ) (centredFace ℝ).a = some ⟨2 ^ 2000 * (-1 / 3), 0, 0⟩ ∧
    project (overflowMatrix ℝ) (centredFace ℝ).b = some ⟨2 ^ 2000 * (1 / 3), 0, 0⟩ ∧
    project (overflowMatrix ℝ) (centredFace ℝ).c = some ⟨2 ^ 2000 * (-1 / 3), 0, 0⟩ ∧
    project (overflowMatrix ℝ) (centredFace ℝ).d = some ⟨2 ^ 2000 * (1 / 3), 0, 0⟩ ∧
    project (overflowMatrix ℝ) ((centredFace ℝ).inflated Real.sqrt).a
      = some ⟨2 ^ 2000 * (-1 / 2), 0, 0⟩ ∧
    project (overflowMatrix ℝ) ((centredFace ℝ).inflated Real.sqrt).b
      = some ⟨2 ^ 2000 * (1 / 2), 0, 0⟩ ∧
    project (overflowMatrix ℝ) ((centredFace ℝ).inflated Real.sqrt).c
      = some ⟨2 ^ 2000 * (-1 / 2), 0, 0⟩ ∧
    project (overflowMatrix ℝ) ((centredFace ℝ).inflated Real.sqrt).d
      = some ⟨2 ^ 2000 * (1 / 2), 0, 0⟩ ∧
    ¬ BeyondClipPlane
      [(⟨2 ^ 2000 * (-1 / 3), 0, 0⟩ : vec3 ℝ), ⟨2 ^ 2000 * (1 / 3), 0, 0⟩,
        ⟨2 ^ 2000 * (-1 / 3), 0, 0⟩, ⟨2 ^ 2000 * (1 / 3), 0, 0⟩,
        ⟨2 ^ 2000 * (-1 / 2), 0, 0⟩, ⟨2 ^ 2000 * (1 / 2), 0, 0⟩,
        ⟨2 ^ 2000 * (-1 / 2), 0, 0⟩, ⟨2 ^ 2000 * (1 / 2), 0, 0⟩] ∧
    (centredFace ℝ).measure Real.sqrt finiteDouble (overflowMatrix ℝ) 800 600 = 0 ∧
    0 < edgeLength Real.sqrt (⟨2 ^ 2000 * (-1 / 3), 0, 0⟩ : vec3 ℝ)
      ⟨2 ^ 2000 * (1 / 3), 0, 0⟩ 800 600 ∧
    (centredFace ℝ).measure Real.sqrt finiteDouble (overflowMatrix ℝ) 800 600 ≠
      max4
        (edgeLength Real.sqrt (⟨2 ^ 2000 * (-1 / 3), 0, 0⟩ : vec3 ℝ)
          ⟨2 ^ 2000 * (1 / 3), 0, 0⟩ 800 600)
        (edgeLength Real.sqrt (⟨2 ^ 2000 * (-1 / 3), 0, 0⟩ : vec3 ℝ)
          ⟨2 ^ 2000 * (1 / 3), 0, 0⟩ 800 600)
        (edgeLength Real.sqrt (⟨2 ^ 2000 * (-1 / 3), 0, 0⟩ : vec3 ℝ)
          ⟨2 ^ 2000 * (-1 / 3), 0, 0⟩ 800 600)
        (edgeLength Real.sqrt (⟨2 ^ 2000 * (1 / 3), 0, 0⟩ : vec3 ℝ)
          ⟨2 ^ 2000 * (1 / 3), 0, 0⟩ 800 600) := by
  have hproj : ∀ p : vec3 ℝ, project (overflowMatrix ℝ) p = some ⟨2 ^ 2000 * p.x, 0, 0⟩ := by
    intro p
    have hd : divisor (overflowMatrix ℝ) p = 1 / 2 ^ 1000 := by
      simp [divisor, overflowMatrix]
    rw [project_eq_some_of_divisor_ne_zero _ _ (by rw [hd]; positivity), hd]
    simp only [overflowMatrix]
    norm_num
    ring
  have hinf := centredFace_inflated (R := ℝ) isSqrt_real
  have hvis : ¬ BeyondClipPlane
      [(⟨2 ^ 2000 * (-1 / 3), 0, 0⟩ : vec3 ℝ), ⟨2 ^ 2000 * (1 / 3), 0, 0⟩,
        ⟨2 ^ 2000 * (-1 / 3), 0, 0⟩, ⟨2 ^ 2000 * (1 / 3), 0, 0⟩,
        ⟨2 ^ 2000 * (-1 / 2), 0, 0⟩, ⟨2 ^ 2000 * (1 / 2), 0, 0⟩,
        ⟨2 ^ 2000 * (-1 / 2), 0, 0⟩, ⟨2 ^ 2000 * (1 / 2), 0, 0⟩] := by
    simp only [BeyondClipPlane, List.mem_cons, List.mem_singleton, List.not_mem_nil, or_false,
      forall_eq_or_imp, forall_eq]
    norm_num
  have hA : project (overflowMatrix ℝ) ((centredFace ℝ).inflated Real.sqrt).a
      = some ⟨2 ^ 2000 * (-1 / 2), 0, 0⟩ := by rw [hinf]; exact hproj _
  have hB : project (overflowMatrix ℝ) ((centredFace ℝ).inflated Real.sqrt).b
      = some ⟨2 ^ 2000 * (1 / 2), 0, 0⟩ := by rw [hinf]; exact hproj _
  have hC : project (overflowMatrix ℝ) ((centredFace ℝ).inflated Real.sqrt).c
      = some ⟨2 ^ 2000 * (-1 / 2), 0, 0⟩ := by rw [hinf]; exact hproj _
  have hD : project (overflowMatrix ℝ) ((centredFace ℝ).inflated Real.sqrt).d
      = some ⟨2 ^ 2000 * (1 / 2), 0, 0⟩ := by rw [hinf]; exact hproj _
  have ha : project (overflowMatrix ℝ) (centredFace ℝ).a
      = some ⟨2 ^ 2000 * (-1 / 3), 0, 0⟩ := hproj _
  have hb : project (overflowMatrix ℝ) (centredFace ℝ).b
      = some ⟨2 ^ 2000 * (1 / 3), 0, 0⟩ := hproj _
  have hc : project (overflowMatrix ℝ) (centredFace ℝ).c
      = some ⟨2 ^ 2000 * (-1 / 3), 0, 0⟩ := hproj _
  have hd : project (overflowMatrix ℝ) (centredFace ℝ).d
      = some ⟨2 ^ 2000 * (1 / 3), 0, 0⟩ := hproj _
  have hneg : finiteDouble (2 ^ 2000 * (-1 / 3) : ℝ) = false := by
    unfold finiteDouble
    rw [decide_eq_false_iff_not, abs_of_neg (by norm_num)]
    norm_num
  have hpos : finiteDouble (2 ^ 2000 * (1 / 3) : ℝ) = false := by
    unfold finiteDouble
    rw [decide_eq_false_iff_not, abs_of_pos (by norm_num)]
    norm_num
  have hmeasure : (centredFace ℝ).measure Real.sqrt finiteDouble (overflowMatrix ℝ) 800 600
      = 0 := by
    rw [measure_of_projected Real.sqrt finiteDouble (centredFace ℝ) (overflowMatrix ℝ) 800 600
      _ _ _ _ _ _ _ _ ha hb hc hd hA hB hC hD,
      visibleLength_of_not_beyond _ _ _ _ _ _ _ _ _ _ _ _ hvis]
    simp only [length_eq, hneg, hpos]
    simp [max4]
  have hlen : 0 < edgeLength Real.sqrt (⟨2 ^ 2000 * (-1 / 3), 0, 0⟩ : vec3 ℝ)
      ⟨2 ^ 2000 * (1 / 3), 0, 0⟩ 800 600 := by
    unfold edgeLength
    apply Real.sqrt_pos.2
    norm_num
  refine ⟨ha, hb, hc, hd, hA, hB, hC, hD, hvis, hmeasure, hlen, ?_⟩
  rw [hmeasure]
  exact ne_of_lt (lt_of_lt_of_le hlen (max4_bounds _ _ _ _).1)

/-- Claim C16, amended. When all eight points of a face project and the
projected points are not beyond a clip plane, `sph_model::face::measure`
returns the maximum of the lengths of the four edges `a b`, `c d`, `a c` and
`b d` between the projected corners, where an edge whose end points have
finite coordinates has the length `sqrt (((p.x - q.x) * w / 2) ^ 2 +
((p.y - q.y) * h / 2) ^ 2)` and any other edge counts as of length 0; the
result is at least each of the four lengths, equal to one of them, and does
not involve the inflated corners. -/
theorem measure_is_longest_edge {R : Type} [LinearOrderedField R] (sqrt : R → R)
    (finite : R → Bool) (F : face (vec3 R)) (M : Nat → R) (w h : Int)
    (na nb nc nd nA nB nC nD : vec3 R)
    (ha : project M F.a = some na) (hb : project M F.b = some nb)
    (hc : project M F.c = some nc) (hd : project M F.d = some nd)
    (hA : project M (F.inflated sqrt).a = some nA) (hB : project M (F.inflated sqrt).b = some nB)
    (hC : project M (F.inflated sqrt).c = some nC) (hD : project M (F.inflated sqrt).d = some nD)
    (hvis : ¬ BeyondClipPlane [na, nb, nc, nd, nA, nB, nC, nD]) :
    F.measure sqrt finite M w h
      = max4 (length sqrt finite na nb w h) (length sqrt finite nc nd w h)
        (length sqrt finite na nc w h) (length sqrt finite nb nd w h) ∧
    (∀ p q : vec3 R, length sqrt finite p q w h =
      if finite p.x = true ∧ finite p.y = true ∧ finite q.x = true ∧ finite q.y = true
      then edgeLength sqrt p q w h else 0) ∧
    length sqrt finite na nb w h ≤ F.measure sqrt finite M w h ∧
    length sqrt finite nc nd w h ≤ F.measure sqrt finite M w h ∧
    length sqrt finite na nc w h ≤ F.measure sqrt finite M w h ∧
    length sqrt finite nb nd w h ≤ F.measure sqrt finite M w h ∧
    (F.measure sqrt finite M w h = length sqrt finite na nb w h ∨
      F.measure sqrt finite M w h = length sqrt finite nc nd w h ∨
      F.measure sqrt finite M w h = length sqrt finite na nc w h ∨
      F.measure sqrt finite M w h = length sqrt finite nb nd w h) := by
  have hm : F.measure sqrt finite M w h
      = max4 (length sqrt finite na nb w h) (length sqrt finite nc nd w h)
        (length sqrt finite na nc w h) (length sqrt finite nb nd w h) := by
    rw [measure_of_projected sqrt finite F M w h na nb nc nd nA nB nC nD ha hb hc hd hA hB hC hD,
      visibleLength_of_not_beyond _ _ _ _ _ _ _ _ _ _ _ _ hvis]
  obtain ⟨b1, b2, b3, b4⟩ := max4_bounds (length sqrt finite na nb w h)
    (length sqrt finite nc nd w h) (length sqrt finite na nc w h) (length sqrt finite nb nd w h)
  refine ⟨hm, fun p q => length_eq sqrt finite p q w h, ?_, ?_, ?_, ?_, ?_⟩
  · rw [hm]; exact b1
  · rw [hm]; exact b2
  · rw [hm]; exact b3
  · rw [hm]; exact b4
  · rw [hm]; exact max4_mem _ _ _ _

theorem finiteDouble_of_abs_le_one {R : Type} [LinearOrderedField R] (x : R)
    (hx : |x| ≤ 1) : finiteDouble x = true := by
  unfold finiteDouble
  rw [decide_eq_true_iff]
  exact le_trans hx (one_le_pow₀ (by norm_num))

/-- Under the identity matrix the eight points of `centredFace` are not beyond
a clip plane. -/
theorem centredFace_visible :
    ¬ BeyondClipPlane [(centredFace ℝ).a, (centredFace ℝ).b, (centredFace ℝ).c,
      (centredFace ℝ).d, ((centredFace ℝ).inflated Real.sqrt).a,
      ((centredFace ℝ).inflated Real.sqrt).b, ((centredFace ℝ).inflated Real.sqrt).c,
      ((centredFace ℝ).inflated Real.sqrt).d] := by
  rw [centredFace_inflated (R := ℝ) isSqrt_real]
  simp only [BeyondClipPlane, List.mem_cons, List.mem_singleton, List.not_mem_nil, or_false,
    forall_eq_or_imp, forall_eq, centredFace]
  norm_num

/-- The lengths in pixels of the four edges of `centredFace` on a viewport of
800 by 600. -/
theorem centredFace_lengths :
    length Real.sqrt finiteDouble (centredFace ℝ).a (centredFace ℝ).b 800 600 = 800 / 3 ∧
    length Real.sqrt finiteDouble (centredFace ℝ).c (centredFace ℝ).d 800 600 = 800 / 3 ∧
    length Real.sqrt finiteDouble (centredFace ℝ).a (centredFace ℝ).c 800 600 = 400 ∧
    length Real.sqrt finiteDouble (centredFace ℝ).b (centredFace ℝ).d 800 600 = 400 := by
  have hfin : ∀ x : ℝ, |x| ≤ 1 → finiteDouble x = true := finiteDouble_of_abs_le_one
  have hlen : ∀ (p q : vec3 ℝ) (v : ℝ), |p.x| ≤ 1 → |p.y| ≤ 1 → |q.x| ≤ 1 → |q.y| ≤ 1 →
      0 ≤ v → v * v = ((p.x - q.x) * ((800 : Int) : ℝ) / 2) ^ 2
        + ((p.y - q.y) * ((600 : Int) : ℝ) / 2) ^ 2 →
      length Real.sqrt finiteDouble p q 800 600 = v := by
    intro p q v h1 h2 h3 h4 hv hvv
    rw [length_eq, if_pos ⟨hfin _ h1, hfin _ h2, hfin _ h3, hfin _ h4⟩]
    exact isSqrt_real.unique hv hvv
  refine ⟨?_, ?_, ?_, ?_⟩
  all_goals
    refine hlen _ _ _ ?_ ?_ ?_ ?_ (by norm_num) (by simp only [centredFace]; norm_num)
    all_goals
      simp only [centredFace]
      rw [abs_le]
      constructor <;> norm_num

/-- Under the identity matrix on a viewport of 800 by 600 the measure of
`centredFace` is 400. -/
theorem centredFace_measure :
    (centredFace ℝ).measure Real.sqrt finiteDouble (idMatrix ℝ) 800 600 = 400 := by
  obtain ⟨e1, e2, e3, e4⟩ := centredFace_lengths
  rw [measure_of_projected Real.sqrt finiteDouble (centredFace ℝ) (idMatrix ℝ) 800 600
    _ _ _ _ _ _ _ _ (project_idMatrix _) (project_idMatrix _) (project_idMatrix _)
    (project_idMatrix _) (project_idMatrix _) (project_idMatrix _) (project_idMatrix _)
    (project_idMatrix _),
    visibleLength_of_not_beyond _ _ _ _ _ _ _ _ _ _ _ _ centredFace_visible, e1, e2, e3, e4,
    max4_eq_max]
  norm_num

/-- Claim C16 amended, at the face around the positive `z` axis under the
identity matrix on a viewport of 800 by 600: the edges measure `800 / 3` and
`400` pixels, and the measure is 400. -/
theorem measure_is_longest_edge_witness :
    project (idMatrix ℝ) (centredFace ℝ).a = some (centredFace ℝ).a ∧
    ¬ BeyondClipPlane [(centredFace ℝ).a, (centredFace ℝ).b, (centredFace ℝ).c,
      (centredFace ℝ).d, ((centredFace ℝ).inflated Real.sqrt).a,
      ((centredFace ℝ).inflated Real.sqrt).b, ((centredFace ℝ).inflated Real.sqrt).c,
      ((centredFace ℝ).inflated Real.sqrt).d] ∧
    (centredFace ℝ).measure Real.sqrt finiteDouble (idMatrix ℝ) 800 600
      = max4 (800 / 3) (800 / 3) 400 400 := by
  obtain ⟨e1, e2, e3, e4⟩ := centredFace_lengths
  have hthm := measure_is_longest_edge Real.sqrt finiteDouble (centredFace ℝ) (idMatrix ℝ)
    800 600 _ _ _ _ _ _ _ _ (project_idMatrix _) (project_idMatrix _) (project_idMatrix _)
    (project_idMatrix _) (project_idMatrix _) (project_idMatrix _) (project_idMatrix _)
    (project_idMatrix _) centredFace_visible
  refine ⟨project_idMatrix _, centredFace_visible, ?_⟩
  rw [hthm.1, e1, e2, e3, e4]

section sph

variable {R : Type} [LinearOrderedField R]

/-- The corners of the root face of the cube face `z = 1`. -/
theorem topFace_corners (sqrt : R → R) :
    topFace sqrt = ⟨⟨-1 / sqrt 3, -1 / sqrt 3, 1 / sqrt 3⟩, ⟨1 / sqrt 3, -1 / sqrt 3, 1 / sqrt 3⟩,
      ⟨-1 / sqrt 3, 1 / sqrt 3, 1 / sqrt 3⟩, ⟨1 / sqrt 3, 1 / sqrt 3, 1 / sqrt 3⟩⟩ := by
  have h1 : vlen sqrt (⟨-1, -1, 1⟩ : vec3 R) = sqrt 3 := by
    unfold vlen vdot
    norm_num
  have h2 : vlen sqrt (⟨1, -1, 1⟩ : vec3 R) = sqrt 3 := by
    unfold vlen vdot
    norm_num
  have h3 : vlen sqrt (⟨-1, 1, 1⟩ : vec3 R) = sqrt 3 := by
    unfold vlen vdot
    norm_num
  have h4 : vlen sqrt (⟨1, 1, 1⟩ : vec3 R) = sqrt 3 := by
    unfold vlen vdot
    norm_num
  unfold topFace vnormalize
  rw [h1, h2, h3, h4]

/-- The square root of 3 lies between 1 and 2. -/
theorem sqrt_three_bounds {sqrt : R → R} (hsqrt : IsSqrt sqrt) :
    1 ≤ sqrt 3 ∧ sqrt 3 ≤ 2 ∧ sqrt 3 * sqrt 3 = 3 := by
  obtain ⟨h0, h1⟩ := hsqrt 3 (by norm_num)
  refine ⟨?_, ?_, h1⟩
  · by_contra hcon
    have hlt : sqrt 3 < 1 := not_le.1 hcon
    nlinarith
  · by_contra hcon
    have hlt : 2 < sqrt 3 := not_le.1 hcon
    nlinarith

end sph

/-- Claim C17. For the identity matrix and a viewport of 800 by 600, the face
whose corners are the normalized cube vertices `(±1, ±1, 1) / sqrt 3` has a
strictly positive measure: its points project, they are not beyond a clip
plane, and its edge from `a` to `b` has a positive length. -/
theorem measure_positive_in_view {R : Type} [LinearOrderedField R] (sqrt : R → R)
    (finite : R → Bool) (hsqrt : IsSqrt sqrt)
    (hfin : ∀ x : R, |x| ≤ 1 → finite x = true) :
    0 < (topFace sqrt).measure sqrt finite (idMatrix R) 800 600 := by
  obtain ⟨hs1, _, hss⟩ := sqrt_three_bounds hsqrt
  have hs0 : 0 < sqrt 3 := lt_of_lt_of_le zero_lt_one hs1
  have hu0 : 0 < 1 / sqrt 3 := by positivity
  have hu1 : 1 / sqrt 3 ≤ 1 := by
    rw [div_le_one hs0]
    exact hs1
  have hneg : -1 / sqrt 3 = -(1 / sqrt 3) := by ring
  have ha : (topFace sqrt).a = ⟨-1 / sqrt 3, -1 / sqrt 3, 1 / sqrt 3⟩ := by
    rw [topFace_corners]
  have hb : (topFace sqrt).b = ⟨1 / sqrt 3, -1 / sqrt 3, 1 / sqrt 3⟩ := by
    rw [topFace_corners]
  have hc : (topFace sqrt).c = ⟨-1 / sqrt 3, 1 / sqrt 3, 1 / sqrt 3⟩ := by
    rw [topFace_corners]
  have hvis : ¬ BeyondClipPlane [(topFace sqrt).a, (topFace sqrt).b, (topFace sqrt).c,
      (topFace sqrt).d, ((topFace sqrt).inflated sqrt).a, ((topFace sqrt).inflated sqrt).b,
      ((topFace sqrt).inflated sqrt).c, ((topFace sqrt).inflated sqrt).d] := by
    simp only [BeyondClipPlane, List.mem_cons, List.mem_singleton, List.not_mem_nil, or_false,
      forall_eq_or_imp, forall_eq, not_or, ha, hb, hc]
    refine ⟨fun h => ?_, fun h => ?_, fun h => ?_, fun h => ?_, fun h => ?_, fun h => ?_⟩
    · have := h.1
      rw [hneg] at this
      linarith
    · have := h.2.1
      linarith
    · have := h.1
      rw [hneg] at this
      linarith
    · have := h.2.2.1
      linarith
    · have := h.1
      linarith
    · have := h.1
      linarith
  have habs : |1 / sqrt 3| ≤ 1 := by
    rw [abs_of_pos hu0]
    exact hu1
  have habsn : |-1 / sqrt 3| ≤ 1 := by
    rw [hneg, abs_neg]
    exact habs
  have hlen : 0 < length sqrt finite (topFace sqrt).a (topFace sqrt).b 800 600 := by
    rw [length_eq, ha, hb, if_pos ⟨hfin _ habsn, hfin _ habsn, hfin _ habs, hfin _ habsn⟩]
    unfold edgeLength
    apply hsqrt.pos
    have hx : (-1 / sqrt 3 - 1 / sqrt 3) * ((800 : Int) : R) / 2 ≠ 0 := by
      rw [hneg]
      have : -(1 / sqrt 3) - 1 / sqrt 3 < 0 := by linarith
      have h800 : (0 : R) < ((800 : Int) : R) := by norm_num
      exact ne_of_lt (div_neg_of_neg_of_pos (mul_neg_of_neg_of_pos this h800) (by norm_num))
    have hx2 := pow_pos (abs_pos.2 hx) 2
    rw [sq_abs] at hx2
    have hy2 := sq_nonneg ((-1 / sqrt 3 - -1 / sqrt 3) * ((600 : Int) : R) / 2)
    linarith
  rw [measure_of_projected sqrt finite (topFace sqrt) (idMatrix R) 800 600 _ _ _ _ _ _ _ _
    (project_idMatrix _) (project_idMatrix _) (project_idMatrix _) (project_idMatrix _)
    (project_idMatrix _) (project_idMatrix _) (project_idMatrix _) (project_idMatrix _),
    visibleLength_of_not_beyond _ _ _ _ _ _ _ _ _ _ _ _ hvis]
  exact lt_of_lt_of_le hlen (max4_bounds _ _ _ _).1

/-- Claim C17, in real arithmetic. -/
theorem measure_positive_in_view_witness :
    IsSqrt Real.sqrt ∧ (∀ x : ℝ, |x| ≤ 1 → finiteDouble x = true) ∧
    0 < (topFace Real.sqrt).measure Real.sqrt finiteDouble (idMatrix ℝ) 800 600 :=
  ⟨isSqrt_real, finiteDouble_of_abs_le_one,
    measure_positive_in_view Real.sqrt finiteDouble isSqrt_real finiteDouble_of_abs_le_one⟩

/-! ## The traversal -/

section sph

variable {R : Type} [LinearOrderedField R]

theorem draw_face_of_not_pos (sqrt : R → R) (finite : R → Bool) (F : face (vec3 R))
    (M : Nat → R) (w h : Int) (m : Int) (hs : ¬ F.measure sqrt finite M w h > 0) :
    draw_face sqrt finite F M w h m = [] := by
  rw [draw_face]
  simp only [hs, if_false]

theorem draw_face_leaf (sqrt : R → R) (finite : R → Bool) (F : face (vec3 R))
    (M : Nat → R) (w h : Int) (m : Int) (hs : F.measure sqrt finite M w h > 0)
    (hleaf : ¬ (m > 0 ∧ F.measure sqrt finite M w h > 512)) :
    draw_face sqrt finite F M w h m = [(F, m)] := by
  rw [draw_face]
  simp only [hs, if_true, hleaf, dite_false]

theorem draw_face_split (sqrt : R → R) (finite : R → Bool) (F : face (vec3 R))
    (M : Nat → R) (w h : Int) (m : Int) (hs : F.measure sqrt finite M w h > 0)
    (hsplit : m > 0 ∧ F.measure sqrt finite M w h > 512) :
    draw_face sqrt finite F M w h m =
      draw_face sqrt finite (sphDivide sqrt F).A M w h (m - 1) ++
        draw_face sqrt finite (sphDivide sqrt F).B M w h (m - 1) ++
        draw_face sqrt finite (sphDivide sqrt F).C M w h (m - 1) ++
        draw_face sqrt finite (sphDivide sqrt F).D M w h (m - 1) := by
  rw [draw_face]
  simp only [hs, if_true, hsplit, and_self, dite_true]

/-- With a depth budget `n` the traversal submits at most `4 ^ n` leaves, each
with a depth budget left between 0 and `n`. -/
theorem draw_face_bound (sqrt : R → R) (finite : R → Bool) (M : Nat → R) (w h : Int) :
    ∀ (n : Nat) (F : face (vec3 R)),
      (draw_face sqrt finite F M w h (n : Int)).length ≤ 4 ^ n ∧
      ∀ leaf ∈ draw_face sqrt finite F M w h (n : Int), 0 ≤ leaf.2 ∧ leaf.2 ≤ (n : Int) := by
  intro n
  induction n with
  | zero =>
    intro F
    by_cases hs : F.measure sqrt finite M w h > 0
    · rw [draw_face_leaf sqrt finite F M w h _ hs (fun hc => absurd hc.1 (by simp))]
      refine ⟨by simp, fun leaf hl => ?_⟩
      rw [List.mem_singleton] at hl
      rw [hl]
      exact ⟨le_refl _, le_refl _⟩
    · rw [draw_face_of_not_pos sqrt finite F M w h _ hs]
      exact ⟨by simp, fun leaf hl => absurd hl (List.not_mem_nil leaf)⟩
  | succ n ih =>
    intro F
    by_cases hs : F.measure sqrt finite M w h > 0
    · by_cases hsplit : ((n + 1 : Nat) : Int) > 0 ∧ F.measure sqrt finite M w h > 512
      · rw [draw_face_split sqrt finite F M w h _ hs hsplit]
        have hpred : ((n + 1 : Nat) : Int) - 1 = (n : Int) := by
          push_cast
          ring
        rw [hpred]
        obtain ⟨lA, mA⟩ := ih (sphDivide sqrt F).A
        obtain ⟨lB, mB⟩ := ih (sphDivide sqrt F).B
        obtain ⟨lC, mC⟩ := ih (sphDivide sqrt F).C
        obtain ⟨lD, mD⟩ := ih (sphDivide sqrt F).D
        refine ⟨?_, fun leaf hl => ?_⟩
        · simp only [List.length_append]
          rw [pow_succ]
          omega
        · have hle : (n : Int) ≤ ((n + 1 : Nat) : Int) := by
            push_cast
            omega
          simp only [List.mem_append] at hl
          rcases hl with ((hl | hl) | hl) | hl
          · exact ⟨(mA leaf hl).1, le_trans (mA leaf hl).2 hle⟩
          · exact ⟨(mB leaf hl).1, le_trans (mB leaf hl).2 hle⟩
          · exact ⟨(mC leaf hl).1, le_trans (mC leaf hl).2 hle⟩
          · exact ⟨(mD leaf hl).1, le_trans (mD leaf hl).2 hle⟩
      · rw [draw_face_leaf sqrt finite F M w h _ hs hsplit]
        refine ⟨?_, fun leaf hl => ?_⟩
        · simp only [List.length_singleton]
          exact Nat.one_le_pow _ _ (by norm_num)
        · rw [List.mem_singleton] at hl
          rw [hl]
          exact ⟨Int.natCast_nonneg _, le_refl _⟩
    · rw [draw_face_of_not_pos sqrt finite F M w h _ hs]
      exact ⟨by simp, fun leaf hl => absurd hl (List.not_mem_nil leaf)⟩

end sph

/-- Claim C12. Whatever the depth budget, `sph_model::draw_face` submits no
leaf for a face of measure 0, and for a face of measure above 0 and at most
512 it submits exactly one leaf, the face itself, without subdividing. -/
theorem draw_face_without_subdivision {R : Type} [LinearOrderedField R] (sqrt : R → R)
    (finite : R → Bool) (F : face (vec3 R)) (M : Nat → R) (w h : Int) (m : Int) :
    (F.measure sqrt finite M w h = 0 → draw_face sqrt finite F M w h m = []) ∧
    (0 < F.measure sqrt finite M w h → F.measure sqrt finite M w h ≤ 512 →
      draw_face sqrt finite F M w h m = [(F, m)]) := by
  refine ⟨fun h0 => ?_, fun hpos hle => ?_⟩
  · exact draw_face_of_not_pos sqrt finite F M w h m (by rw [h0]; exact lt_irrefl 0)
  · exact draw_face_leaf sqrt finite F M w h m hpos (fun hc => absurd hc.2 (not_lt.2 hle))

/-- Claim C13. For every face, matrix, viewport and depth budget `m ≥ 0`,
`sph_model::draw_face` returns having submitted at most `4 ^ m` leaves, each
at a recursion depth between 0 and `m`, that is with a depth budget left
between 0 and `m`; and `sph_model::draw`, which traverses six root faces with
the budget 8, submits at most `6 * 4 ^ 8` leaves. -/
theorem draw_face_leaves_bounded {R : Type} [LinearOrderedField R] (sqrt : R → R)
    (finite : R → Bool) :
    (∀ (F : face (vec3 R)) (M : Nat → R) (w h : Int) (m : Int), 0 ≤ m →
      (draw_face sqrt finite F M w h m).length ≤ 4 ^ m.toNat ∧
      ∀ leaf ∈ draw_face sqrt finite F M w h m, 0 ≤ m - leaf.2 ∧ m - leaf.2 ≤ m) ∧
    (∀ (mmultiply : (Nat → R) → (Nat → R) → Nat → R) (cube_v : Nat → vec3 R)
      (cube_i : Nat → Nat → Nat) (P V : Nat → R) (w h : Int),
      (draw sqrt finite mmultiply cube_v cube_i P V w h).length ≤ 6 * 4 ^ 8) := by
  constructor
  · intro F M w h m hm
    obtain ⟨n, rfl⟩ := Int.eq_ofNat_of_zero_le hm
    obtain ⟨hlen, hleaf⟩ := draw_face_bound sqrt finite M w h n F
    refine ⟨by simpa using hlen, fun leaf hl => ?_⟩
    have := hleaf leaf hl
    omega
  · intro mmultiply cube_v cube_i P V w h
    have hb := fun i => (draw_face_bound sqrt finite (mmultiply P V) w h 8
      (rootFace sqrt cube_v cube_i i)).1
    have h0 := hb 0
    have h1 := hb 1
    have h2 := hb 2
    have h3 := hb 3
    have h4 := hb 4
    have h5 := hb 5
    unfold draw
    simp only [List.length_append]
    have e : ((8 : Nat) : Int) = 8 := rfl
    rw [e] at h0 h1 h2 h3 h4 h5
    omega

/-- Claim C12, at a face of measure 400, which is submitted as one leaf with
the whole budget 8 left, and at the zero matrix, under which nothing is
submitted. -/
theorem draw_face_without_subdivision_witness :
    (axisFace.measure Real.sqrt finiteDouble (zeroMatrix ℝ) 800 600 = 0 ∧
      draw_face Real.sqrt finiteDouble axisFace (zeroMatrix ℝ) 800 600 8 = []) ∧
    ((centredFace ℝ).measure Real.sqrt finiteDouble (idMatrix ℝ) 800 600 = 400 ∧
      draw_face Real.sqrt finiteDouble (centredFace ℝ) (idMatrix ℝ) 800 600 8
        = [(centredFace ℝ, 8)]) := by
  have h0 : axisFace.measure Real.sqrt finiteDouble (zeroMatrix ℝ) 800 600 = 0 :=
    measure_eq_zero_of_project_none Real.sqrt finiteDouble axisFace (zeroMatrix ℝ) 800 600
      axisFace.a (by simp)
      (project_eq_none_of_divisor_zero _ _ (by simp [divisor, zeroMatrix]))
  exact ⟨⟨h0, (draw_face_without_subdivision Real.sqrt finiteDouble axisFace (zeroMatrix ℝ)
      800 600 8).1 h0⟩,
    centredFace_measure,
    (draw_face_without_subdivision Real.sqrt finiteDouble (centredFace ℝ) (idMatrix ℝ)
      800 600 8).2 (by rw [centredFace_measure]; norm_num)
      (by rw [centredFace_measure]; norm_num)⟩

/-- Claim C13, at the traversal of a face with the budget 8. -/
theorem draw_face_leaves_bounded_witness :
    (0 : Int) ≤ 8 ∧
    (draw_face Real.sqrt finiteDouble (centredFace ℝ) (idMatrix ℝ) 800 600 8).length
      ≤ 4 ^ 8 :=
  ⟨by decide,
    ((draw_face_leaves_bounded Real.sqrt finiteDouble).1 (centredFace ℝ) (idMatrix ℝ)
      800 600 8 (by decide)).1⟩

/-! ## A face behind the sphere -/

section sph

variable {R : Type} [LinearOrderedField R]

theorem IsSqrt.le_of_le_mul_self {sqrt : R → R} (hsqrt : IsSqrt sqrt) {x y : R}
    (hx : 0 ≤ x) (hy : 0 ≤ y) (hxy : x ≤ y * y) : sqrt x ≤ y := by
  obtain ⟨h0, h1⟩ := hsqrt x hx
  by_contra hcon
  have hlt : y < sqrt x := not_le.1 hcon
  have : y * y < sqrt x * sqrt x := mul_self_lt_mul_self hy hlt
  linarith

/-- Two projected points whose `x` and `y` coordinates have magnitude at most
`10 / 21` are at most 512 pixels apart on a viewport of 800 by 600. -/
theorem length_le_of_small {sqrt : R → R} (hsqrt : IsSqrt sqrt) (finite : R → Bool)
    (p q : vec3 R) (hpx : |p.x| ≤ 10 / 21) (hpy : |p.y| ≤ 10 / 21)
    (hqx : |q.x| ≤ 10 / 21) (hqy : |q.y| ≤ 10 / 21) :
    length sqrt finite p q 800 600 ≤ 512 := by
  rw [length_eq]
  split_ifs with hf
  · unfold edgeLength
    rw [abs_le] at hpx hpy hqx hqy
    have hdx : |(p.x - q.x) * ((800 : Int) : R) / 2| ≤ 8000 / 21 := by
      rw [abs_le]
      constructor <;> (push_cast; linarith)
    have hdy : |(p.y - q.y) * ((600 : Int) : R) / 2| ≤ 6000 / 21 := by
      rw [abs_le]
      constructor <;> (push_cast; linarith)
    have h1 := pow_le_pow_left₀ (abs_nonneg _) hdx 2
    have h2 := pow_le_pow_left₀ (abs_nonneg _) hdy 2
    rw [sq_abs] at h1 h2
    refine hsqrt.le_of_le_mul_self (by positivity) (by norm_num) ?_
    have e1 : ((8000 : R) / 21) ^ 2 + (6000 / 21) ^ 2 ≤ 512 * 512 := by norm_num
    linarith
  · norm_num

theorem project_cameraMatrix (p : vec3 R) (hp : p.z < 11 / 10) :
    project (cameraMatrix R) p = some ⟨p.x / (11 / 10 - p.z), p.y / (11 / 10 - p.z),
      (-101 / 99 * p.z + 911 / 990) / (11 / 10 - p.z)⟩ := by
  have hd : divisor (cameraMatrix R) p = 11 / 10 - p.z := by
    simp [divisor, cameraMatrix]
    ring
  rw [project_eq_some_of_divisor_ne_zero _ _ (by rw [hd]; exact ne_of_gt (by linarith)), hd]
  simp [cameraMatrix]

/-- The corners of the root face of the cube face `z = -1`. -/
theorem bottomFace_corners (sqrt : R → R) :
    bottomFace sqrt
      = ⟨⟨-1 / sqrt 3, -1 / sqrt 3, -1 / sqrt 3⟩, ⟨1 / sqrt 3, -1 / sqrt 3, -1 / sqrt 3⟩,
        ⟨-1 / sqrt 3, 1 / sqrt 3, -1 / sqrt 3⟩, ⟨1 / sqrt 3, 1 / sqrt 3, -1 / sqrt 3⟩⟩ := by
  have h1 : vlen sqrt (⟨-1, -1, -1⟩ : vec3 R) = sqrt 3 := by
    unfold vlen vdot
    norm_num
  have h2 : vlen sqrt (⟨1, -1, -1⟩ : vec3 R) = sqrt 3 := by
    unfold vlen vdot
    norm_num
  have h3 : vlen sqrt (⟨-1, 1, -1⟩ : vec3 R) = sqrt 3 := by
    unfold vlen vdot
    norm_num
  have h4 : vlen sqrt (⟨1, 1, -1⟩ : vec3 R) = sqrt 3 := by
    unfold vlen vdot
    norm_num
  unfold bottomFace vnormalize
  rw [h1, h2, h3, h4]

theorem inflated_of_scale (sqrt : R → R) (F : face (vec3 R)) (r : R)
    (hr : vlen sqrt ⟨F.a.x + F.b.x + F.c.x + F.d.x, F.a.y + F.b.y + F.c.y + F.d.y,
      F.a.z + F.b.z + F.c.z + F.d.z⟩ / vdot F.a ⟨F.a.x + F.b.x + F.c.x + F.d.x,
      F.a.y + F.b.y + F.c.y + F.d.y, F.a.z + F.b.z + F.c.z + F.d.z⟩ = r) :
    F.inflated sqrt = ⟨vmul F.a r, vmul F.b r, vmul F.c r, vmul F.d r⟩ := by
  unfold face.inflated
  simp only [hr]

/-- The inflated corners of the root face of the cube face `z = -1` are the
cube vertices. -/
theorem bottomFace_inflated {sqrt : R → R} (hsqrt : IsSqrt sqrt) :
    (bottomFace sqrt).inflated sqrt
      = ⟨⟨-1, -1, -1⟩, ⟨1, -1, -1⟩, ⟨-1, 1, -1⟩, ⟨1, 1, -1⟩⟩ := by
  obtain ⟨hs1, _, hss⟩ := sqrt_three_bounds hsqrt
  have hs0 : 0 < sqrt 3 := lt_of_lt_of_le zero_lt_one hs1
  have hne : sqrt 3 ≠ 0 := ne_of_gt hs0
  have ht : (⟨-1 / sqrt 3 + 1 / sqrt 3 + -1 / sqrt 3 + 1 / sqrt 3,
      -1 / sqrt 3 + -1 / sqrt 3 + 1 / sqrt 3 + 1 / sqrt 3,
      -1 / sqrt 3 + -1 / sqrt 3 + -1 / sqrt 3 + -1 / sqrt 3⟩ : vec3 R)
      = ⟨0, 0, -4 / sqrt 3⟩ := by
    congr 1 <;> ring
  have hlen : vlen sqrt (⟨0, 0, -4 / sqrt 3⟩ : vec3 R) = 4 / sqrt 3 := by
    refine hsqrt.unique (by positivity) ?_
    unfold vdot
    ring
  have hdot : vdot (⟨-1 / sqrt 3, -1 / sqrt 3, -1 / sqrt 3⟩ : vec3 R) ⟨0, 0, -4 / sqrt 3⟩
      = 4 / (sqrt 3 * sqrt 3) := by
    unfold vdot
    field_simp
  have hr : (4 / sqrt 3) / (4 / (sqrt 3 * sqrt 3)) = sqrt 3 := by
    field_simp
    ring
  have e1 : -1 / sqrt 3 * sqrt 3 = -1 := by field_simp
  have e2 : 1 / sqrt 3 * sqrt 3 = 1 := by field_simp
  rw [bottomFace_corners]
  rw [inflated_of_scale sqrt _ (sqrt 3) (by simp only [ht, hlen, hdot, hr])]
  simp only [vmul, e1, e2]

end sph

section sph

variable {R : Type} [LinearOrderedField R]

/-- The projection by `cameraMatrix` of a point at the height `z = -u` whose
`x` and `y` coordinates have magnitude at most `u`, for `0 < u ≤ 1`. -/
theorem project_cameraMatrix_below (p : vec3 R) (u : R) (hu0 : 0 < u) (hu1 : u ≤ 1)
    (hz : p.z = -u) (hx : |p.x| ≤ u) (hy : |p.y| ≤ u) :
    ∃ q : vec3 R, project (cameraMatrix R) p = some q ∧
      q.x = p.x / (11 / 10 + u) ∧ q.y = p.y / (11 / 10 + u) ∧
      |q.x| ≤ 10 / 21 ∧ |q.y| ≤ 10 / 21 ∧ 0 < q.z ∧ q.z ≤ 1 := by
  have hD : (0 : R) < 11 / 10 + u := by linarith
  have hsub : 11 / 10 - p.z = 11 / 10 + u := by rw [hz]; ring
  have hsmall : ∀ t : R, |t| ≤ u → |t / (11 / 10 + u)| ≤ 10 / 21 := by
    intro t ht
    rw [abs_div, abs_of_pos hD, div_le_iff₀ hD]
    linarith
  refine ⟨_, project_cameraMatrix p (by rw [hz]; linarith), ?_, ?_, ?_, ?_, ?_, ?_⟩
  · show p.x / (11 / 10 - p.z) = _
    rw [hsub]
  · show p.y / (11 / 10 - p.z) = _
    rw [hsub]
  · show |p.x / (11 / 10 - p.z)| ≤ _
    rw [hsub]
    exact hsmall _ hx
  · show |p.y / (11 / 10 - p.z)| ≤ _
    rw [hsub]
    exact hsmall _ hy
  · show 0 < (-101 / 99 * p.z + 911 / 990) / (11 / 10 - p.z)
    rw [hsub, hz]
    apply div_pos _ hD
    linarith
  · show (-101 / 99 * p.z + 911 / 990) / (11 / 10 - p.z) ≤ 1
    rw [hsub, hz, div_le_one hD]
    linarith

/-- Seen by the camera of `cameraMatrix` on a viewport of 800 by 600, the root
face of the cube face `z = -1` has a measure above 0 and at most 512, and
`sph_model::draw_face` submits it as a leaf. -/
theorem bottomFace_is_leaf {sqrt : R → R} (hsqrt : IsSqrt sqrt) (finite : R → Bool)
    (hfin : ∀ x : R, |x| ≤ 1 → finite x = true) (m : Int) :
    draw_face sqrt finite (bottomFace sqrt) (cameraMatrix R) 800 600 m
      = [(bottomFace sqrt, m)] := by
  obtain ⟨hs1, _, hss⟩ := sqrt_three_bounds hsqrt
  have hs0 : 0 < sqrt 3 := lt_of_lt_of_le zero_lt_one hs1
  have hu0 : 0 < 1 / sqrt 3 := by positivity
  have hu1 : 1 / sqrt 3 ≤ 1 := by
    rw [div_le_one hs0]
    exact hs1
  have hneg : -1 / sqrt 3 = -(1 / sqrt 3) := by ring
  have habs : |1 / sqrt 3| ≤ 1 / sqrt 3 := le_of_eq (abs_of_pos hu0)
  have habsn : |-1 / sqrt 3| ≤ 1 / sqrt 3 := by
    rw [hneg, abs_neg]
    exact habs
  have ha : (bottomFace sqrt).a = ⟨-1 / sqrt 3, -1 / sqrt 3, -1 / sqrt 3⟩ := by
    rw [bottomFace_corners]
  have hb : (bottomFace sqrt).b = ⟨1 / sqrt 3, -1 / sqrt 3, -1 / sqrt 3⟩ := by
    rw [bottomFace_corners]
  have hc : (bottomFace sqrt).c = ⟨-1 / sqrt 3, 1 / sqrt 3, -1 / sqrt 3⟩ := by
    rw [bottomFace_corners]
  have hd : (bottomFace sqrt).d = ⟨1 / sqrt 3, 1 / sqrt 3, -1 / sqrt 3⟩ := by
    rw [bottomFace_corners]
  obtain ⟨na, pa, ax, _, ax1, ay1, az0, az1⟩ := project_cameraMatrix_below
    (bottomFace sqrt).a (1 / sqrt 3) hu0 hu1 (by rw [ha]; exact hneg)
    (by rw [ha]; exact habsn) (by rw [ha]; exact habsn)
  obtain ⟨nb, pb, bx, _, bx1, by1, _, _⟩ := project_cameraMatrix_below
    (bottomFace sqrt).b (1 / sqrt 3) hu0 hu1 (by rw [hb]; exact hneg)
    (by rw [hb]; exact habs) (by rw [hb]; exact habsn)
  obtain ⟨nc, pc, _, _, cx1, cy1, _, _⟩ := project_cameraMatrix_below
    (bottomFace sqrt).c (1 / sqrt 3) hu0 hu1 (by rw [hc]; exact hneg)
    (by rw [hc]; exact habsn) (by rw [hc]; exact habs)
  obtain ⟨nd, pd, _, _, dx1, dy1, _, _⟩ := project_cameraMatrix_below
    (bottomFace sqrt).d (1 / sqrt 3) hu0 hu1 (by rw [hd]; exact hneg)
    (by rw [hd]; exact habs) (by rw [hd]; exact habs)
  have hinf := bottomFace_inflated hsqrt
  obtain ⟨nA, pA⟩ : ∃ q, project (cameraMatrix R) ((bottomFace sqrt).inflated sqrt).a = some q :=
    ⟨_, project_cameraMatrix _ (by rw [hinf]; norm_num)⟩
  obtain ⟨nB, pB⟩ : ∃ q, project (cameraMatrix R) ((bottomFace sqrt).inflated sqrt).b = some q :=
    ⟨_, project_cameraMatrix _ (by rw [hinf]; norm_num)⟩
  obtain ⟨nC, pC⟩ : ∃ q, project (cameraMatrix R) ((bottomFace sqrt).inflated sqrt).c = some q :=
    ⟨_, project_cameraMatrix _ (by rw [hinf]; norm_num)⟩
  obtain ⟨nD, pD⟩ : ∃ q, project (cameraMatrix R) ((bottomFace sqrt).inflated sqrt).d = some q :=
    ⟨_, project_cameraMatrix _ (by rw [hinf]; norm_num)⟩
  have hvis : ¬ BeyondClipPlane [na, nb, nc, nd, nA, nB, nC, nD] := by
    simp only [BeyondClipPlane, List.mem_cons, List.mem_singleton, List.not_mem_nil, or_false,
      forall_eq_or_imp, forall_eq, not_or]
    rw [abs_le] at ax1 ay1
    refine ⟨fun h => ?_, fun h => ?_, fun h => ?_, fun h => ?_, fun h => ?_, fun h => ?_⟩
    · have := h.1
      linarith
    · have := h.1
      linarith
    · have := h.1
      linarith
    · have := h.1
      linarith
    · have := h.1
      linarith
    · have := h.1
      linarith
  have hmeasure : (bottomFace sqrt).measure sqrt finite (cameraMatrix R) 800 600
      = max4 (length sqrt finite na nb 800 600) (length sqrt finite nc nd 800 600)
        (length sqrt finite na nc 800 600) (length sqrt finite nb nd 800 600) := by
    rw [measure_of_projected sqrt finite (bottomFace sqrt) (cameraMatrix R) 800 600
      na nb nc nd nA nB nC nD pa pb pc pd pA pB pC pD,
      visibleLength_of_not_beyond _ _ _ _ _ _ _ _ _ _ _ _ hvis]
  have hone : ∀ t : R, |t| ≤ 10 / 21 → |t| ≤ 1 := fun t ht => le_trans ht (by norm_num)
  have hpos : 0 < length sqrt finite na nb 800 600 := by
    rw [length_eq, if_pos ⟨hfin _ (hone _ ax1), hfin _ (hone _ ay1), hfin _ (hone _ bx1),
      hfin _ (hone _ by1)⟩]
    unfold edgeLength
    apply hsqrt.pos
    have hD : (0 : R) < 11 / 10 + 1 / sqrt 3 := by linarith
    have hdiff : na.x - nb.x < 0 := by
      rw [ax, bx, ha, hb]
      simp only
      rw [hneg, neg_div]
      have : 0 < 1 / sqrt 3 / (11 / 10 + 1 / sqrt 3) := div_pos hu0 hD
      linarith
    have hx : (na.x - nb.x) * ((800 : Int) : R) / 2 ≠ 0 := by
      have h800 : (0 : R) < ((800 : Int) : R) := by norm_num
      exact ne_of_lt (div_neg_of_neg_of_pos (mul_neg_of_neg_of_pos hdiff h800) (by norm_num))
    have hx2 := pow_pos (abs_pos.2 hx) 2
    rw [sq_abs] at hx2
    have hy2 := sq_nonneg ((na.y - nb.y) * ((600 : Int) : R) / 2)
    linarith
  have hgt : (bottomFace sqrt).measure sqrt finite (cameraMatrix R) 800 600 > 0 := by
    rw [hmeasure]
    exact lt_of_lt_of_le hpos (max4_bounds _ _ _ _).1
  have hle : (bottomFace sqrt).measure sqrt finite (cameraMatrix R) 800 600 ≤ 512 := by
    rw [hmeasure, max4_eq_max]
    exact max_le
      (max_le (length_le_of_small hsqrt finite na nb ax1 ay1 bx1 by1)
        (length_le_of_small hsqrt finite nc nd cx1 cy1 dx1 dy1))
      (max_le (length_le_of_small hsqrt finite na nc ax1 ay1 cx1 cy1)
        (length_le_of_small hsqrt finite nb nd bx1 by1 dx1 dy1))
  exact draw_face_leaf sqrt finite (bottomFace sqrt) (cameraMatrix R) 800 600 m hgt
    (fun hc => absurd hc.2 (not_lt.2 hle))

end sph

/-- Claim C18, refuted as stated: the camera of `cameraMatrix` is outside the
unit sphere, at the distance `1 / 10` above the cube face `z = 1`, and the
opposite root face, whose unit corners all lie below the plane `z = 0` and so
behind the sphere, is within the clip planes: `sph_model::draw_face` submits
it as a leaf. -/
theorem hidden_root_face_is_drawn :
    1 < vdot (cameraEye ℝ) (cameraEye ℝ) ∧
    (∀ p ∈ [(bottomFace Real.sqrt).a, (bottomFace Real.sqrt).b, (bottomFace Real.sqrt).c,
        (bottomFace Real.sqrt).d],
      vlen Real.sqrt p = 1 ∧ p.z < 0 ∧ vdot p (cameraEye ℝ) < 0) ∧
    (∀ p : vec3 ℝ, p.z < 11 / 10 →
      project (cameraMatrix ℝ) p = some ⟨p.x / (11 / 10 - p.z), p.y / (11 / 10 - p.z),
        (-101 / 99 * p.z + 911 / 990) / (11 / 10 - p.z)⟩) ∧
    draw_face Real.sqrt finiteDouble (bottomFace Real.sqrt) (cameraMatrix ℝ) 800 600 8
      = [(bottomFace Real.sqrt, 8)] ∧
    draw_face Real.sqrt finiteDouble (bottomFace Real.sqrt) (cameraMatrix ℝ) 800 600 8
      ≠ [] := by
  have hleaf := bottomFace_is_leaf (R := ℝ) isSqrt_real finiteDouble
    finiteDouble_of_abs_le_one 8
  have hs0 : (0 : ℝ) < Real.sqrt 3 := Real.sqrt_pos.2 (by norm_num)
  have hneg : -1 / Real.sqrt 3 < 0 := div_neg_of_neg_of_pos (by norm_num) hs0
  have hne : ∀ v : vec3 ℝ, v.z ≠ 0 → v ≠ ⟨0, 0, 0⟩ := by
    intro v hv h
    rw [h] at hv
    exact hv rfl
  have hcorner : ∀ x y : ℝ, vlen Real.sqrt (vnormalize Real.sqrt ⟨x, y, -1⟩) = 1 :=
    fun x y => vlen_vnormalize isSqrt_real _
      (hne _ (by show (-1 : ℝ) ≠ 0; norm_num))
  refine ⟨?_, ?_, fun p hp => project_cameraMatrix p hp, hleaf, ?_⟩
  · simp only [cameraEye, vdot]
    norm_num
  · intro p hp
    simp only [List.mem_cons, List.mem_singleton, List.not_mem_nil, or_false] at hp
    have hz : p.z = -1 / Real.sqrt 3 := by
      rcases hp with h | h | h | h <;> rw [h, bottomFace_corners]
    refine ⟨?_, by rw [hz]; exact hneg, ?_⟩
    · rcases hp with h | h | h | h <;> rw [h] <;> exact hcorner _ _
    · simp only [cameraEye, vdot, hz]
      have : -1 / Real.sqrt 3 * (11 / 10) < 0 := mul_neg_of_neg_of_pos hneg (by norm_num)
      linarith
  · rw [hleaf]
    exact List.cons_ne_nil _ _

/-- Claim C18, amended. `sph_model::draw_face` submits nothing for a root face
outside the view frustum, whatever the depth budget: when the divisor of one
of its eight points is zero, or when the eight projected points lie beyond
the same clip plane. -/
theorem draw_face_nothing_outside_frustum {R : Type} [LinearOrderedField R]
    (sqrt : R → R) (finite : R → Bool) (F : face (vec3 R)) (M : Nat → R) (w h : Int)
    (m : Int)
    (hout : (∃ p ∈ [F.a, F.b, F.c, F.d, (F.inflated sqrt).a, (F.inflated sqrt).b,
          (F.inflated sqrt).c, (F.inflated sqrt).d], divisor M p = 0) ∨
      (∃ na nb nc nd nA nB nC nD : vec3 R,
        project M F.a = some na ∧ project M F.b = some nb ∧
        project M F.c = some nc ∧ project M F.d = some nd ∧
        project M (F.inflated sqrt).a = some nA ∧ project M (F.inflated sqrt).b = some nB ∧
        project M (F.inflated sqrt).c = some nC ∧ project M (F.inflated sqrt).d = some nD ∧
        BeyondClipPlane [na, nb, nc, nd, nA, nB, nC, nD])) :
    draw_face sqrt finite F M w h m = [] := by
  have hzero : F.measure sqrt finite M w h = 0 := by
    rcases hout with ⟨p, hp, hd⟩ | ⟨na, nb, nc, nd, nA, nB, nC, nD, ha, hb, hc, hd, hA, hB,
      hC, hD, hcull⟩
    · exact measure_eq_zero_of_project_none sqrt finite F M w h p hp
        (project_eq_none_of_divisor_zero M p hd)
    · rw [measure_of_projected sqrt finite F M w h na nb nc nd nA nB nC nD ha hb hc hd
        hA hB hC hD]
      exact visibleLength_eq_zero_of_beyond sqrt finite na nb nc nd nA nB nC nD w h hcull
  exact draw_face_of_not_pos sqrt finite F M w h m (by rw [hzero]; exact lt_irrefl 0)

/-- Claim C18 amended, at a face shifted out of the clip planes along `x`. -/
theorem draw_face_nothing_outside_frustum_witness :
    BeyondClipPlane
      [(⟨-1 / 3 + 5, -2 / 3, 2 / 3⟩ : vec3 ℝ), ⟨1 / 3 + 5, -2 / 3, 2 / 3⟩,
        ⟨-1 / 3 + 5, 2 / 3, 2 / 3⟩, ⟨1 / 3 + 5, 2 / 3, 2 / 3⟩,
        ⟨-1 / 2 + 5, -1, 1⟩, ⟨1 / 2 + 5, -1, 1⟩, ⟨-1 / 2 + 5, 1, 1⟩, ⟨1 / 2 + 5, 1, 1⟩] ∧
    draw_face Real.sqrt finiteDouble (centredFace ℝ) (shiftMatrix ℝ) 800 600 8 = [] := by
  have hcull : BeyondClipPlane
      [(⟨-1 / 3 + 5, -2 / 3, 2 / 3⟩ : vec3 ℝ), ⟨1 / 3 + 5, -2 / 3, 2 / 3⟩,
        ⟨-1 / 3 + 5, 2 / 3, 2 / 3⟩, ⟨1 / 3 + 5, 2 / 3, 2 / 3⟩,
        ⟨-1 / 2 + 5, -1, 1⟩, ⟨1 / 2 + 5, -1, 1⟩, ⟨-1 / 2 + 5, 1, 1⟩, ⟨1 / 2 + 5, 1, 1⟩] := by
    refine Or.inl ?_
    simp only [List.mem_cons, List.mem_singleton, List.not_mem_nil, or_false,
      forall_eq_or_imp, forall_eq]
    norm_num
  have hinf := centredFace_inflated (R := ℝ) isSqrt_real
  exact ⟨hcull, draw_face_nothing_outside_frustum Real.sqrt finiteDouble (centredFace ℝ)
    (shiftMatrix ℝ) 800 600 8
    (Or.inr ⟨_, _, _, _, _, _, _, _, project_shiftMatrix _, project_shiftMatrix _,
      project_shiftMatrix _, project_shiftMatrix _,
      by rw [hinf]; exact project_shiftMatrix _, by rw [hinf]; exact project_shiftMatrix _,
      by rw [hinf]; exact project_shiftMatrix _, by rw [hinf]; exact project_shiftMatrix _,
      hcull⟩)⟩

/-! ## The leaves of the traversal -/

/-- Every leaf of the traversal was submitted by the `else` branch of
`sph_model::draw_face`: its measure is positive, the subdivision test
`m > 0 && s > 512` failed on it, and its depth budget does not exceed the
budget of the call. -/
theorem draw_face_leaf_spec {R : Type} [LinearOrderedField R] (sqrt : R → R)
    (finite : R → Bool) (M : Nat → R) (w h : Int) :
    ∀ (n : Nat) (F : face (vec3 R)) (m : Int), m.toNat = n →
      ∀ leaf ∈ draw_face sqrt finite F M w h m,
        0 < leaf.1.measure sqrt finite M w h ∧
        ¬ (0 < leaf.2 ∧ 512 < leaf.1.measure sqrt finite M w h) ∧ leaf.2 ≤ m := by
  intro n
  induction n with
  | zero =>
    intro F m hm leaf hl
    by_cases hs : F.measure sqrt finite M w h > 0
    · have hno : ¬ (m > 0 ∧ F.measure sqrt finite M w h > 512) :=
        fun hc => absurd hc.1 (by omega)
      rw [draw_face_leaf sqrt finite F M w h m hs hno, List.mem_singleton] at hl
      subst hl
      exact ⟨hs, hno, le_refl _⟩
    · rw [draw_face_of_not_pos sqrt finite F M w h m hs] at hl
      exact absurd hl (List.not_mem_nil _)
  | succ k ih =>
    intro F m hm leaf hl
    by_cases hs : F.measure sqrt finite M w h > 0
    · by_cases hsplit : m > 0 ∧ F.measure sqrt finite M w h > 512
      · rw [draw_face_split sqrt finite F M w h m hs hsplit] at hl
        simp only [List.mem_append] at hl
        have hk : (m - 1).toNat = k := by omega
        have hsub : ∀ G : face (vec3 R), leaf ∈ draw_face sqrt finite G M w h (m - 1) →
            0 < leaf.1.measure sqrt finite M w h ∧
            ¬ (0 < leaf.2 ∧ 512 < leaf.1.measure sqrt finite M w h) ∧ leaf.2 ≤ m := by
          intro G hG
          obtain ⟨h1, h2, h3⟩ := ih G (m - 1) hk leaf hG
          exact ⟨h1, h2, by omega⟩
        rcases hl with ((hl | hl) | hl) | hl
        · exact hsub _ hl
        · exact hsub _ hl
        · exact hsub _ hl
        · exact hsub _ hl
      · rw [draw_face_leaf sqrt finite F M w h m hs hsplit, List.mem_singleton] at hl
        subst hl
        exact ⟨hs, hsplit, le_refl _⟩
    · rw [draw_face_of_not_pos sqrt finite F M w h m hs] at hl
      exact absurd hl (List.not_mem_nil _)

/-- Under the identity matrix on a viewport of 1600 by 1200 the measure of
`centredFace` is 800, above the threshold of 512 pixels. -/
theorem centredFace_measure_large :
    (centredFace ℝ).measure Real.sqrt finiteDouble (idMatrix ℝ) 1600 1200 = 800 := by
  have hfin : ∀ x : ℝ, |x| ≤ 1 → finiteDouble x = true := finiteDouble_of_abs_le_one
  have hlen : ∀ (p q : vec3 ℝ) (v : ℝ), |p.x| ≤ 1 → |p.y| ≤ 1 → |q.x| ≤ 1 → |q.y| ≤ 1 →
      0 ≤ v → v * v = ((p.x - q.x) * ((1600 : Int) : ℝ) / 2) ^ 2
        + ((p.y - q.y) * ((1200 : Int) : ℝ) / 2) ^ 2 →
      length Real.sqrt finiteDouble p q 1600 1200 = v := by
    intro p q v h1 h2 h3 h4 hv hvv
    rw [length_eq, if_pos ⟨hfin _ h1, hfin _ h2, hfin _ h3, hfin _ h4⟩]
    exact isSqrt_real.unique hv hvv
  have e1 : length Real.sqrt finiteDouble (centredFace ℝ).a (centredFace ℝ).b 1600 1200
      = 1600 / 3 := by
    refine hlen _ _ _ ?_ ?_ ?_ ?_ (by norm_num) (by simp only [centredFace]; norm_num)
    all_goals
      simp only [centredFace]
      rw [abs_le]
      constructor <;> norm_num
  have e2 : length Real.sqrt finiteDouble (centredFace ℝ).c (centredFace ℝ).d 1600 1200
      = 1600 / 3 := by
    refine hlen _ _ _ ?_ ?_ ?_ ?_ (by norm_num) (by simp only [centredFace]; norm_num)
    all_goals
      simp only [centredFace]
      rw [abs_le]
      constructor <;> norm_num
  have e3 : length Real.sqrt finiteDouble (centredFace ℝ).a (centredFace ℝ).c 1600 1200
      = 800 := by
    refine hlen _ _ _ ?_ ?_ ?_ ?_ (by norm_num) (by simp only [centredFace]; norm_num)
    all_goals
      simp only [centredFace]
      rw [abs_le]
      constructor <;> norm_num
  have e4 : length Real.sqrt finiteDouble (centredFace ℝ).b (centredFace ℝ).d 1600 1200
      = 800 := by
    refine hlen _ _ _ ?_ ?_ ?_ ?_ (by norm_num) (by simp only [centredFace]; norm_num)
    all_goals
      simp only [centredFace]
      rw [abs_le]
      constructor <;> norm_num
  rw [measure_of_projected Real.sqrt finiteDouble (centredFace ℝ) (idMatrix ℝ) 1600 1200
    _ _ _ _ _ _ _ _ (project_idMatrix _) (project_idMatrix _) (project_idMatrix _)
    (project_idMatrix _) (project_idMatrix _) (project_idMatrix _) (project_idMatrix _)
    (project_idMatrix _),
    visibleLength_of_not_beyond _ _ _ _ _ _ _ _ _ _ _ _ centredFace_visible, e1, e2, e3, e4,
    max4_eq_max]
  norm_num

/-- With a negative depth budget, which `sph_model::draw` never passes, a face
of positive measure is submitted at once with that budget, whatever its
measure: the test `m > 0` fails. -/
theorem draw_face_negative_budget {R : Type} [LinearOrderedField R] (sqrt : R → R)
    (finite : R → Bool) (F : face (vec3 R)) (M : Nat → R) (w h : Int) (m : Int)
    (hm : m < 0) (hs : F.measure sqrt finite M w h > 0) :
    draw_face sqrt finite F M w h m = [(F, m)] :=
  draw_face_leaf sqrt finite F M w h m hs (fun hc => absurd hc.1 (by omega))

/-- Claim C21. Every leaf that `sph_model::draw_face` submits, at any level of
the recursion and for every face, matrix, viewport and depth budget, has a
positive measure, and no leaf has both a depth budget left and a measure above
512. When the traversal starts with a budget `m ≥ 0`, as `sph_model::draw`
does with 8, the budget left at a leaf is not negative, so that the leaf has
the budget 0 or a measure of at most 512. -/
theorem draw_face_leaf_invariant {R : Type} [LinearOrderedField R] (sqrt : R → R)
    (finite : R → Bool) :
    (∀ (F : face (vec3 R)) (M : Nat → R) (w h : Int) (m : Int),
      ∀ leaf ∈ draw_face sqrt finite F M w h m,
        0 < leaf.1.measure sqrt finite M w h ∧
        ¬ (0 < leaf.2 ∧ 512 < leaf.1.measure sqrt finite M w h) ∧
        (0 ≤ m → leaf.2 = 0 ∨ leaf.1.measure sqrt finite M w h ≤ 512)) ∧
    (∀ (mmultiply : (Nat → R) → (Nat → R) → Nat → R) (cube_v : Nat → vec3 R)
      (cube_i : Nat → Nat → Nat) (P V : Nat → R) (w h : Int),
      ∀ leaf ∈ draw sqrt finite mmultiply cube_v cube_i P V w h,
        0 < leaf.1.measure sqrt finite (mmultiply P V) w h ∧
        (leaf.2 = 0 ∨ leaf.1.measure sqrt finite (mmultiply P V) w h ≤ 512)) := by
  have hall : ∀ (F : face (vec3 R)) (M : Nat → R) (w h : Int) (m : Int),
      ∀ leaf ∈ draw_face sqrt finite F M w h m,
        0 < leaf.1.measure sqrt finite M w h ∧
        ¬ (0 < leaf.2 ∧ 512 < leaf.1.measure sqrt finite M w h) ∧
        (0 ≤ m → leaf.2 = 0 ∨ leaf.1.measure sqrt finite M w h ≤ 512) := by
    intro F M w h m leaf hl
    obtain ⟨hpos, hno, _⟩ := draw_face_leaf_spec sqrt finite M w h m.toNat F m rfl leaf hl
    refine ⟨hpos, hno, fun hm => ?_⟩
    obtain ⟨n, rfl⟩ := Int.eq_ofNat_of_zero_le hm
    have h0 : 0 ≤ leaf.2 := ((draw_face_bound sqrt finite M w h n F).2 leaf hl).1
    by_cases hle : leaf.1.measure sqrt finite M w h ≤ 512
    · exact Or.inr hle
    · refine Or.inl ?_
      have hnot : ¬ 0 < leaf.2 := fun hc => hno ⟨hc, not_le.1 hle⟩
      omega
  refine ⟨hall, ?_⟩
  intro mmultiply cube_v cube_i P V w h leaf hl
  unfold draw at hl
  simp only [List.mem_append] at hl
  have hroot : ∀ i : Nat,
      leaf ∈ draw_face sqrt finite (rootFace sqrt cube_v cube_i i) (mmultiply P V) w h 8 →
      0 < leaf.1.measure sqrt finite (mmultiply P V) w h ∧
      (leaf.2 = 0 ∨ leaf.1.measure sqrt finite (mmultiply P V) w h ≤ 512) := by
    intro i hi
    obtain ⟨h1, _, h3⟩ := hall _ _ _ _ _ leaf hi
    exact ⟨h1, h3 (by decide)⟩
  rcases hl with ((((hl | hl) | hl) | hl) | hl) | hl
  · exact hroot 0 hl
  · exact hroot 1 hl
  · exact hroot 2 hl
  · exact hroot 3 hl
  · exact hroot 4 hl
  · exact hroot 5 hl

/-- Claim C21, at two leaves of the face around the positive `z` axis under
the identity matrix: with the budget 8 on a viewport of 800 by 600 the leaf
has the measure 400, and with the budget 0 on a viewport of 1600 by 1200 it
has the measure 800. -/
theorem draw_face_leaf_invariant_witness :
    ((centredFace ℝ, (8 : Int)) ∈
        draw_face Real.sqrt finiteDouble (centredFace ℝ) (idMatrix ℝ) 800 600 8 ∧
      (0 : Int) ≤ 8 ∧
      (centredFace ℝ).measure Real.sqrt finiteDouble (idMatrix ℝ) 800 600 = 400 ∧
      ((8 : Int) = 0 ∨
        (centredFace ℝ).measure Real.sqrt finiteDouble (idMatrix ℝ) 800 600 ≤ 512)) ∧
    ((centredFace ℝ, (0 : Int)) ∈
        draw_face Real.sqrt finiteDouble (centredFace ℝ) (idMatrix ℝ) 1600 1200 0 ∧
      (0 : Int) ≤ 0 ∧
      (centredFace ℝ).measure Real.sqrt finiteDouble (idMatrix ℝ) 1600 1200 = 800 ∧
      0 < (centredFace ℝ).measure Real.sqrt finiteDouble (idMatrix ℝ) 1600 1200 ∧
      ((0 : Int) = 0 ∨
        (centredFace ℝ).measure Real.sqrt finiteDouble (idMatrix ℝ) 1600 1200 ≤ 512)) := by
  have hm1 : (centredFace ℝ, (8 : Int)) ∈
      draw_face Real.sqrt finiteDouble (centredFace ℝ) (idMatrix ℝ) 800 600 8 := by
    rw [draw_face_leaf Real.sqrt finiteDouble (centredFace ℝ) (idMatrix ℝ) 800 600 8
      (by rw [centredFace_measure]; norm_num)
      (fun hc => absurd hc.2 (by rw [centredFace_measure]; norm_num))]
    exact List.mem_singleton.2 rfl
  have hm2 : (centredFace ℝ, (0 : Int)) ∈
      draw_face Real.sqrt finiteDouble (centredFace ℝ) (idMatrix ℝ) 1600 1200 0 := by
    rw [draw_face_leaf Real.sqrt finiteDouble (centredFace ℝ) (idMatrix ℝ) 1600 1200 0
      (by rw [centredFace_measure_large]; norm_num)
      (fun hc => absurd hc.1 (by decide))]
    exact List.mem_singleton.2 rfl
  have h1 := (draw_face_leaf_invariant Real.sqrt finiteDouble).1 (centredFace ℝ) (idMatrix ℝ)
    800 600 8 _ hm1
  have h2 := (draw_face_leaf_invariant Real.sqrt finiteDouble).1 (centredFace ℝ) (idMatrix ℝ)
    1600 1200 0 _ hm2
  exact ⟨⟨hm1, by decide, centredFace_measure, h1.2.2 (by decide)⟩,
    ⟨hm2, by decide, centredFace_measure_large, h2.1, h2.2.2 (by decide)⟩⟩

end Panoptic
